import Mathlib

/-!
Verification development for a multi-attribute linear-hashed (MAH) file
storage engine.  The engine consists of a relation layer (`reln.c`:
`addToRelation`, `splitSp`) and a partial-match query layer (`query.c`:
`startQuery`, `getNextTuple`).

The embedding is a shallow one: the three on-disk files are modelled as a
descriptor record with two page lists (`data` for the primary file,
`ovflow` for the overflow file).  The helper modules of the repository
(`page.c`, `tuple.c`, `bits.c`, `chvec.c`, `hash.c`) are not part of the
given sources; their operations are modelled from the specification and
marked as such in their doc comments.  The attribute hash function is an
opaque parameter `hf` throughout, since the specification treats it as an
opaque deterministic 32-bit digest.

A tuple is modelled as its list of attribute values (the serialized form
`v1,v2,...,vN\0` of the C code is a comma-separated rendering of exactly
this list; `tupLen` below is the length of that serialization).

All potentially non-terminating loops of the C code (the overflow-chain
walks, the recursive split/re-insert structure, the query scan loop) are
modelled with explicit fuel; `none` means the fuel was exhausted, which
only happens on states the C code would loop forever on (cyclic chains) or
with insufficient fuel.  Every theorem about a run is conditioned on the
run having produced a result.
-/

namespace MAH

/-- A tuple: the ordered list of its attribute values.  Modelled from the
spec: `tuple.c` is not among the given sources; §3 defines a tuple as an
ordered sequence of attribute byte strings serialized `v1,v2,...,vN\0`. -/
abbrev Tuple := List String

/-- Serialized byte length of a tuple, including the separating commas and
the terminating NUL: `len v1 + 1 + len v2 + 1 + ... + len vN + 1`. -/
def tupLen (t : Tuple) : Nat := (t.map String.length).sum + t.length

/-- Page size in bytes (`PAGESIZE` in `defs.h`). -/
def PAGESIZE : Nat := 1024

/-- Page header size: 3 counts + 1 offset, 4 bytes each
(`HEADERSIZE` in `page.c`/`reln.c`). -/
def HEADERSIZE : Nat := 16

/-- Capacity of the data area of a page. -/
def DATACAP : Nat := PAGESIZE - HEADERSIZE

/-- A page: the packed run of tuples plus the overflow link.  Modelled
from the spec (§3, §4.3): `page.c` is not among the given sources.  The
`free` and `ntuples` header fields are represented implicitly: `ntuples`
is `tuples.length` and `free` is the sum of serialized tuple lengths.
`ov = none` is the `NO_PAGE` sentinel. -/
structure Page where
  tuples : List Tuple
  ov : Option Nat
deriving DecidableEq, Repr

/-- A fresh empty page (`newPage` in `page.c`): no tuples, `ovflow = NO_PAGE`. -/
def emptyPage : Page := ⟨[], none⟩

/-- Bytes of the data area already used by a page. -/
def pageUsed (p : Page) : Nat := (p.tuples.map tupLen).sum

/-- Modelled from the spec (§4.3): `addToPage` appends the serialized
tuple iff it fits in the remaining free bytes of the data area, and fails
otherwise. -/
def addToPage (p : Page) (t : Tuple) : Option Page :=
  if pageUsed p + tupLen t ≤ DATACAP then some ⟨p.tuples ++ [t], p.ov⟩ else none

/-- Modelled from the spec (§4.1, `bits.c` not among the sources):
the low `k` bits of `v`. -/
def getLower (v k : Nat) : Nat := v % 2 ^ k

/-- Modelled from the spec (§4.1): `v` with bit `i` forced on. -/
def setBit (v i : Nat) : Nat := v ||| 2 ^ i

/-- Modelled from the spec (§4.1): test bit `i` of `v`. -/
def bitIsSet (v i : Nat) : Bool := v.testBit i

/-- Number of choice-vector items (`MAXCHVEC` in `chvec.h`). -/
def MAXCHVEC : Nat := 32

/-- A choice-vector item: a pair (attribute index, bit index). -/
abbrev ChVecItem := Nat × Nat

/-- The relation descriptor together with the two page files
(`struct RelnRep` in `reln.c`; the file handles become the page lists). -/
structure Reln where
  nattrs : Nat
  depth : Nat
  sp : Nat
  npages : Nat
  ntups : Nat
  c : Nat
  insertion : Nat
  splitting : Bool
  cv : List ChVecItem
  data : List Page
  ovflow : List Page
deriving DecidableEq, Repr

/-- Read page `i` of the primary data file (`getPage(r->data, i)`). -/
def getDataPg (r : Reln) (i : Nat) : Page := r.data.getD i emptyPage

/-- Write page `i` of the primary data file (`putPage(r->data, i, pg)`). -/
def putDataPg (r : Reln) (i : Nat) (pg : Page) : Reln :=
  { r with data := r.data.set i pg }

/-- Read page `i` of the overflow file (`getPage(r->ovflow, i)`). -/
def getOvPg (r : Reln) (i : Nat) : Page := r.ovflow.getD i emptyPage

/-- Write page `i` of the overflow file (`putPage(r->ovflow, i, pg)`). -/
def putOvPg (r : Reln) (i : Nat) (pg : Page) : Reln :=
  { r with ovflow := r.ovflow.set i pg }

/-- Modelled from the spec (§4.4.1, `tuple.c` not among the sources):
the composite hash of a tuple.  Bit `i` of the result is bit `cv[i].2` of
the hash of attribute `cv[i].1`, for `i = 0 .. MAXCHVEC-1`. -/
def tupleHash (hf : String → Nat) (cv : List ChVecItem) (t : Tuple) : Nat :=
  (List.range MAXCHVEC).foldl
    (fun h i =>
      let it := cv.getD i (0, 0)
      if bitIsSet (hf (t.getD it.1 "")) it.2 then setBit h i else h)
    0

/-- The MAH bucket addressing rule (`addToRelation`, lines 150-151 of
`reln.c`): `p` is the low `d` bits of the composite hash, replaced by the
low `d+1` bits when that value is below the split pointer. -/
def bucketAddr (h d sp : Nat) : Nat :=
  let p := getLower h d
  if p < sp then getLower h (d + 1) else p

/-- The counter update after a successful placement (`reln.c` lines
156-159, 172-175, 191-194, 210-213): `ntups` and `insertion` are bumped
only when the relation is not in the middle of a split. -/
def bump (r : Reln) : Reln :=
  if r.splitting then r
  else { r with ntups := r.ntups + 1, insertion := r.insertion + 1 }

/-- The overflow-chain walk of `addToRelation` (`reln.c` lines 177-215):
scan the chain starting at overflow page `ovp` of bucket `p` for the first
page with room; if every page is full, append a fresh overflow page, place
the tuple there and link it at the tail of the chain.  Returns `NO_PAGE`
(modelled `some (none, _)`) when even the fresh page cannot hold the
tuple.  The fuel bounds the walk; `none` corresponds to the infinite loop
the C code performs on a cyclic chain. -/
def walkChain : Nat → Reln → Tuple → Nat → Nat → Option (Option Nat × Reln)
  | 0, _, _, _, _ => none
  | fuel + 1, r, t, p, ovp =>
    let ovpg := getOvPg r ovp
    match addToPage ovpg t with
    | some pg1 => some (some p, bump (putOvPg r ovp pg1))
    | none =>
      match ovpg.ov with
      | some nxt => walkChain fuel r t p nxt
      | none =>
        let newp := r.ovflow.length
        let r1 := { r with ovflow := r.ovflow ++ [emptyPage] }
        match addToPage emptyPage t with
        | none => some (none, r1)
        | some npg =>
          some (some p, bump (putOvPg (putOvPg r1 newp npg) ovp ⟨ovpg.tuples, some newp⟩))

/-- The placement part of `addToRelation` (`reln.c` lines 148-215):
address bucket `p` for the tuple and place it in the primary page, the
first overflow page with room, or a freshly appended overflow page. -/
def placeBody (hf : String → Nat) (r : Reln) (t : Tuple) : Option (Option Nat × Reln) :=
  let h := tupleHash hf r.cv t
  let p := bucketAddr h r.depth r.sp
  let pg := getDataPg r p
  match addToPage pg t with
  | some pg1 => some (some p, bump (putDataPg r p pg1))
  | none =>
    match pg.ov with
    | none =>
      let newp := r.ovflow.length
      let r1 := { r with ovflow := r.ovflow ++ [emptyPage] }
      let r2 := putDataPg r1 p ⟨pg.tuples, some newp⟩
      match addToPage emptyPage t with
      | none => some (none, r2)
      | some npg => some (some p, bump (putOvPg r2 newp npg))
    | some ovp => walkChain (r.ovflow.length + 1) r t p ovp

/-- The body of `addToRelation` (`reln.c` lines 135-216), parameterized by
the split procedure it may invoke.  If `c` tuples were inserted since the
last split, first reset `insertion`, raise the `splitting` flag, split
bucket `sp` and lower the flag again; then place the tuple. -/
def addBody (hf : String → Nat) (split : Reln → Option Reln)
    (r0 : Reln) (t : Tuple) : Option (Option Nat × Reln) :=
  if r0.insertion = r0.c then
    match split { r0 with insertion := 0, splitting := true } with
    | none => none
    | some r1 => placeBody hf { r1 with splitting := false } t
  else placeBody hf r0 t

/-- Re-insertion of a list of snapshotted tuples during a split
(the two `while (nTupleScanned < pageNTuples(...))` loops of `splitSp`):
each tuple is handed back to `addToRelation`; its return value is ignored. -/
def reinsFold (add : Reln → Tuple → Option (Option Nat × Reln)) :
    Reln → List Tuple → Option Reln
  | r, [] => some r
  | r, t :: ts =>
    match add r t with
    | none => none
    | some (_, r1) => reinsFold add r1 ts

/-- One step of the overflow phase of `splitSp` (`reln.c` lines 251-269),
parameterized by the re-insert procedure and the recursive continuation:
follow the snapshot's overflow link, snapshot the page currently on disk
there, overwrite it with an empty page that preserves its overflow link,
re-insert the snapshotted tuples, and continue along the snapshot. -/
def chphBody (reins : Reln → List Tuple → Option Reln)
    (rec : Reln → Option Nat → Option Reln)
    (r : Reln) (o : Option Nat) : Option Reln :=
  match o with
  | none => some r
  | some currId =>
    let cp := getOvPg r currId
    let r1 := putOvPg r currId ⟨[], cp.ov⟩
    match reins r1 cp.tuples with
    | none => none
    | some r2 => rec r2 cp.ov

/-- The body of `splitSp` (`reln.c` lines 218-279), parameterized by the
re-insert procedure and the overflow phase: append the buddy primary page
and count it, snapshot bucket `sp`'s primary page, overwrite it on disk
with an empty page preserving the overflow link, advance `sp`, re-insert
the snapshot (primary tuples first, then the overflow chain page by page),
and finally wrap `sp` to 0 and increment the depth when `sp` reaches
`2^depth`. -/
def splitBody (reins : Reln → List Tuple → Option Reln)
    (chph : Reln → Option Nat → Option Reln) (r0 : Reln) : Option Reln :=
  let r1 := { r0 with data := r0.data ++ [emptyPage], npages := r0.npages + 1 }
  let currPage := getDataPg r1 r1.sp
  let r2 := putDataPg r1 r1.sp ⟨[], currPage.ov⟩
  let r3 := { r2 with sp := r2.sp + 1 }
  match reins r3 currPage.tuples with
  | none => none
  | some r4 =>
    match chph r4 currPage.ov with
    | none => none
    | some r5 =>
      some (if r5.sp = 2 ^ r5.depth then { r5 with depth := r5.depth + 1, sp := 0 } else r5)

/-- The mutually recursive insert/split engine, stratified by fuel.  Level
`fuel+1` of `addToRelation` may invoke level `fuel` of `splitSp`, whose
re-inserts invoke level `fuel+1`... of `addToRelation` again; the
stratification bottoms out at level 0, which models divergence.  Each
component at level `n+1` is the corresponding C function's body applied to
the components it calls. -/
structure EngineT where
  add : Reln → Tuple → Option (Option Nat × Reln)
  split : Reln → Option Reln
  reins : Reln → List Tuple → Option Reln
  chph : Reln → Option Nat → Option Reln

def engine (hf : String → Nat) : Nat → EngineT
  | 0 => ⟨fun _ _ => none, fun _ => none, fun _ _ => none, fun _ _ => none⟩
  | n + 1 =>
    let prev := engine hf n
    let add := addBody hf prev.split
    let reins := reinsFold add
    let chph := chphBody reins prev.chph
    let split := splitBody reins chph
    ⟨add, split, reins, chph⟩

/-- `addToRelation` of `reln.c` at a given fuel level. -/
def addToRelation (hf : String → Nat) (fuel : Nat) : Reln → Tuple → Option (Option Nat × Reln) :=
  (engine hf fuel).add

/-- `splitSp` of `reln.c` at a given fuel level. -/
def splitSp (hf : String → Nat) (fuel : Nat) : Reln → Option Reln :=
  (engine hf fuel).split

/-- The tuple re-insert loops of `splitSp` at a given fuel level. -/
def reinsertList (hf : String → Nat) (fuel : Nat) : Reln → List Tuple → Option Reln :=
  (engine hf fuel).reins

/-- The overflow-chain phase of `splitSp` at a given fuel level. -/
def chainPhase (hf : String → Nat) (fuel : Nat) : Reln → Option Nat → Option Reln :=
  (engine hf fuel).chph

/-- `newRelation` of `reln.c` (the file-creation part is the two empty
page lists; the descriptor fields are initialized exactly as in lines
44-47, and `npages` empty primary pages are pre-allocated as in line 60). -/
def newRelation (na np d : Nat) (cv : List ChVecItem) : Reln :=
  { nattrs := na, depth := d, sp := 0, npages := np, ntups := 0
    c := 1024 / (10 * na), insertion := 0, splitting := false, cv := cv
    data := List.replicate np emptyPage, ovflow := [] }

/-- A sequence of top-level `addToRelation` calls, returning the final
state and the per-call results (`some p` = bucket id, `none` = `NO_PAGE`). -/
def insertAll (hf : String → Nat) (fuel : Nat) : Reln → List Tuple → Option (Reln × List (Option Nat))
  | r, [] => some (r, [])
  | r, t :: ts =>
    match addToRelation hf fuel r t with
    | none => none
    | some (res, r1) =>
      match insertAll hf fuel r1 ts with
      | none => none
      | some (r2, l) => some (r2, res :: l)

/-! ### The query engine (`query.c`) -/

/-- Modelled from the spec (§4.5.3, `tuple.c` not among the sources):
a candidate tuple matches the pattern iff for every non-wildcard attribute
`i`, the `i`-th field of the candidate equals the `i`-th field of the
pattern. -/
def tupleMatch (nattrs : Nat) (pat t : Tuple) : Bool :=
  (List.range nattrs).all fun i =>
    pat.getD i "" == "?" || pat.getD i "" == t.getD i ""

/-- The in-page scan loop of `getNextTuple` (`query.c` lines 112-120 and
133-141): starting at tuple index `k` of the page, advance until a
matching tuple is found, returning it together with the updated
`nTupleScanned`; `none` when the rest of the page has no match.  The first
argument list is the run of tuples from index `k` on. -/
def scanList (nattrs : Nat) (pat : Tuple) : List Tuple → Nat → Option (Tuple × Nat)
  | [], _ => none
  | t :: ts, k =>
    if tupleMatch nattrs pat t then some (t, k + 1) else scanList nattrs pat ts (k + 1)

/-- The query descriptor (`struct QueryRep` in `query.c`).  `curtup` is
represented by `scanned` (the number of tuples of `curpage` already
consumed), since the tuple run of a page is packed. -/
structure Query where
  query : Tuple
  known : Nat
  unknown : Nat
  nstars : Nat
  starBits : List Nat
  bitSeq : Nat
  bitSeqMax : Nat
  curpage : Page
  scanned : Nat
deriving DecidableEq, Repr

/-- The star-scatter loop (`query.c` lines 86-90 and 157-161): build the
`unknown` bits by spreading the bits of `bitSeq` across the recorded star
positions. -/
def computeUnknown (nstars : Nat) (starBits : List Nat) (bitSeq : Nat) : Nat :=
  (List.range nstars).foldl
    (fun u i => if bitIsSet bitSeq i then setBit u (starBits.getD i 0) else u) 0

/-- `startQuery` of `query.c`: compile the pattern into known bits and
star positions over choice-vector items `0 .. depth`, initialize the
bucket enumeration at `bitSeq = 0`, and fetch the first bucket's primary
page.  The second component is the page id passed to `getPage` on the data
file. -/
def startQuery (hf : String → Nat) (r : Reln) (pat : Tuple) : Query × Nat :=
  let clause := (List.range (r.depth + 1)).foldl
    (fun (acc : Nat × List Nat) i =>
      let it := r.cv.getD i (0, 0)
      if pat.getD it.1 "" == "?" then (acc.1, acc.2 ++ [i])
      else if bitIsSet (hf (pat.getD it.1 "")) it.2 then (setBit acc.1 i, acc.2)
      else (acc.1, acc.2))
    (0, [])
  let known := clause.1
  let starBits := clause.2
  let nstars := starBits.length
  let bitSeqMax := (List.range nstars).foldl (fun m i => setBit m i) 0
  let unknown := computeUnknown nstars starBits 0
  let malHash := unknown ||| known
  let p := bucketAddr malHash r.depth r.sp
  (⟨pat, known, unknown, nstars, starBits, 0, bitSeqMax, getDataPg r p, 0⟩, p)

/-- `getNextTuple` of `query.c` (lines 106-191).  One call returns either
the next matching tuple with the updated query state, or `none` (the
`NULL` result) when the scan is exhausted.  The second component of a
successful call is the list of page ids the call passed to `getPage` on
the primary data file (the ghost fetch trace; overflow-file fetches are
not recorded).  The C `while (TRUE)` loop becomes recursion on the fuel;
the overflow-page loop of lines 125-142 re-enters the top of the loop with
the fetched page as `curpage` and `nTupleScanned = 0`, which performs the
identical scan. -/
def gnt (r : Reln) : Nat → Query → Option (Option (Tuple × Query) × List Nat)
  | 0, _ => none
  | fuel + 1, q =>
    match scanList r.nattrs q.query (q.curpage.tuples.drop q.scanned) q.scanned with
    | some (t, k) => some (some (t, { q with scanned := k }), [])
    | none =>
      match q.curpage.ov with
      | some ovid => gnt r fuel { q with curpage := getOvPg r ovid, scanned := 0 }
      | none =>
        if q.bitSeq = q.bitSeqMax then some (none, [])
        else
          let bs := q.bitSeq + 1
          let unknown := computeUnknown q.nstars q.starBits bs
          let malHash := unknown ||| q.known
          if q.starBits.getD (q.nstars - 1) 0 ≠ r.depth then
            let p := bucketAddr malHash r.depth r.sp
            match gnt r fuel { q with bitSeq := bs, unknown := unknown,
                                      curpage := getDataPg r p, scanned := 0 } with
            | none => none
            | some (res, tr) => some (res, p :: tr)
          else
            let p := getLower malHash (r.depth + 1)
            if p < r.npages then
              match gnt r fuel { q with bitSeq := bs, unknown := unknown,
                                        curpage := getDataPg r p, scanned := 0 } with
              | none => none
              | some (res, tr) => some (res, p :: tr)
            else
              gnt r fuel { q with bitSeq := bs, unknown := unknown }

/-- Repeated `getNextTuple` until the `NULL` result: the list of returned
tuples in order, together with the accumulated data-file fetch trace. -/
def collectRun (r : Reln) (gfuel : Nat) : Nat → Query → Option (List Tuple × List Nat)
  | 0, _ => none
  | n + 1, q =>
    match gnt r gfuel q with
    | none => none
    | some (none, tr) => some ([], tr)
    | some (some (t, q1), tr) =>
      match collectRun r gfuel n q1 with
      | none => none
      | some (ts, tr1) => some (t :: ts, tr ++ tr1)


/-! ### Chains, well-formedness and content of a relation

The following definitions support the statements about bucket chains and
the global content of a relation.  A bucket `b` consists of primary page
`b` plus the overflow pages reachable through `ov` links; `chainFrom`
follows links with explicit fuel (`r.ovflow.length` steps always suffice
in a well-formed state, where links strictly increase). -/

/-- Overflow page ids reachable from an overflow link, fuel-bounded. -/
def chainFrom (r : Reln) : Nat → Option Nat → List Nat
  | _, none => []
  | 0, some _ => []
  | fuel + 1, some j => j :: chainFrom r fuel (getOvPg r j).ov

/-- The overflow chain of bucket `b` in walk order. -/
def bucketChain (r : Reln) (b : Nat) : List Nat :=
  chainFrom r r.ovflow.length (getDataPg r b).ov

/-- All tuples of bucket `b`: primary page first, then the chain pages in
walk order (the scan order of `relationStats` and of the query engine). -/
def bucketTuples (r : Reln) (b : Nat) : List Tuple :=
  (getDataPg r b).tuples ++ ((bucketChain r b).map (fun j => (getOvPg r j).tuples)).flatten

/-- The tuples of all buckets, in bucket order. -/
def allBuckets (r : Reln) : List Tuple :=
  ((List.range r.npages).map (bucketTuples r)).flatten

/-- The multiset of tuples held by a list of pages. -/
def pagesM (l : List Page) : Multiset Tuple :=
  ((l.map Page.tuples).flatten : List Tuple)

/-- The multiset of every tuple stored anywhere in the two page files. -/
def allTuplesM (r : Reln) : Multiset Tuple :=
  pagesM r.data + pagesM r.ovflow

/-- Structural link sanity: data-page links point into the overflow file,
and overflow-page links point strictly forward (a new overflow page is
always appended at the end of the file, so every link ever written points
to a higher id) and into the file. -/
def LinksOk (r : Reln) : Prop :=
  (∀ b < r.data.length, ∀ k ∈ (getDataPg r b).ov, k < r.ovflow.length) ∧
  (∀ j < r.ovflow.length, ∀ k ∈ (getOvPg r j).ov, j < k ∧ k < r.ovflow.length)

/-- Data pages whose overflow link is `k`. -/
def predsD (r : Reln) (k : Nat) : List Nat :=
  (List.range r.data.length).filter (fun b => (getDataPg r b).ov == some k)

/-- Overflow pages whose overflow link is `k`. -/
def predsO (r : Reln) (k : Nat) : List Nat :=
  (List.range r.ovflow.length).filter (fun j => (getOvPg r j).ov == some k)

/-- Every overflow page has exactly one predecessor (the page, primary or
overflow, that links to it): chains never share or orphan pages. -/
def InDegOne (r : Reln) : Prop :=
  ∀ k < r.ovflow.length, (predsD r k).length + (predsO r k).length = 1

/-- Every stored tuple fits in an empty page (it was placed by
`addToPage`, which enforces this). -/
def SizeOk (r : Reln) : Prop :=
  (∀ pg ∈ r.data, ∀ t ∈ pg.tuples, tupLen t ≤ DATACAP) ∧
  (∀ pg ∈ r.ovflow, ∀ t ∈ pg.tuples, tupLen t ≤ DATACAP)

/-- The structural well-formedness invariant of a relation at rest and
between the individual steps of a split. -/
def WF (r : Reln) : Prop :=
  r.npages = 2 ^ r.depth + r.sp ∧ r.sp ≤ 2 ^ r.depth ∧
  r.data.length = r.npages ∧ LinksOk r ∧ InDegOne r ∧ SizeOk r


/-- The tuples of the overflow pages reachable from a link, in walk order. -/
def chainTuplesFrom (r : Reln) (o : Option Nat) : List Tuple :=
  ((chainFrom r r.ovflow.length o).map (fun j => (getOvPg r j).tuples)).flatten

/-- The tuples of the existing buckets among values `w .. m` of the
enumeration counter (values at least `npages` contribute nothing). -/
def bucketsFrom (r : Reln) (w m : Nat) : List Tuple :=
  (((List.range' w (m + 1 - w)).filter (fun v => v < r.npages)).map (bucketTuples r)).flatten

/-- The tuples a full-wildcard scan still has to deliver from query state
`q`: the rest of the current page, then the rest of the current chain,
then the buckets of the remaining enumeration values. -/
def specRem (r : Reln) (q : Query) : List Tuple :=
  q.curpage.tuples.drop q.scanned ++ chainTuplesFrom r q.curpage.ov ++
    bucketsFrom r (q.bitSeq + 1) q.bitSeqMax

/-- Shape of a query state during a full-wildcard scan: every choice-vector
position `0 .. depth` is a star, the pattern matches every tuple, the
current page's link is within the overflow file, and the enumeration
counter is in range. -/
def QShape (r : Reln) (q : Query) : Prop :=
  q.nstars = r.depth + 1 ∧ q.starBits = List.range (r.depth + 1) ∧ q.known = 0 ∧
  q.bitSeqMax = 2 ^ (r.depth + 1) - 1 ∧
  (∀ t, tupleMatch r.nattrs q.query t = true) ∧
  (∀ k ∈ q.curpage.ov, k < r.ovflow.length) ∧ q.bitSeq ≤ q.bitSeqMax


/-- The query state `startQuery` builds for a full-wildcard pattern. -/
def fullWildStart (r : Reln) : Query :=
  { query := List.replicate r.nattrs "?", known := 0, unknown := 0
    nstars := r.depth + 1, starBits := List.range (r.depth + 1), bitSeq := 0
    bitSeqMax := 2 ^ (r.depth + 1) - 1, curpage := getDataPg r 0, scanned := 0 }

/-! ### Unfolding lemmas for the stratified engine -/

theorem addToRelation_zero (hf : String → Nat) (r : Reln) (t : Tuple) :
    addToRelation hf 0 r t = none := rfl

theorem splitSp_zero (hf : String → Nat) (r : Reln) : splitSp hf 0 r = none := rfl

theorem reinsertList_zero (hf : String → Nat) (r : Reln) (ts : List Tuple) :
    reinsertList hf 0 r ts = none := rfl

theorem chainPhase_zero (hf : String → Nat) (r : Reln) (o : Option Nat) :
    chainPhase hf 0 r o = none := rfl

theorem addToRelation_succ (hf : String → Nat) (n : Nat) :
    addToRelation hf (n + 1) = addBody hf (splitSp hf n) := rfl

theorem reinsertList_succ (hf : String → Nat) (n : Nat) :
    reinsertList hf (n + 1) = reinsFold (addToRelation hf (n + 1)) := rfl

theorem chainPhase_succ (hf : String → Nat) (n : Nat) :
    chainPhase hf (n + 1) = chphBody (reinsertList hf (n + 1)) (chainPhase hf n) := rfl

theorem splitSp_succ (hf : String → Nat) (n : Nat) :
    splitSp hf (n + 1) = splitBody (reinsertList hf (n + 1)) (chainPhase hf (n + 1)) := rfl

/-! ### Field-projection simp lemmas -/

@[simp] theorem bump_nattrs (r : Reln) : (bump r).nattrs = r.nattrs := by unfold bump; split <;> rfl
@[simp] theorem bump_depth (r : Reln) : (bump r).depth = r.depth := by unfold bump; split <;> rfl
@[simp] theorem bump_sp (r : Reln) : (bump r).sp = r.sp := by unfold bump; split <;> rfl
@[simp] theorem bump_npages (r : Reln) : (bump r).npages = r.npages := by unfold bump; split <;> rfl
@[simp] theorem bump_c (r : Reln) : (bump r).c = r.c := by unfold bump; split <;> rfl
@[simp] theorem bump_splitting (r : Reln) : (bump r).splitting = r.splitting := by unfold bump; split <;> rfl
@[simp] theorem bump_cv (r : Reln) : (bump r).cv = r.cv := by unfold bump; split <;> rfl
@[simp] theorem bump_data (r : Reln) : (bump r).data = r.data := by unfold bump; split <;> rfl
@[simp] theorem bump_ovflow (r : Reln) : (bump r).ovflow = r.ovflow := by unfold bump; split <;> rfl

@[simp] theorem putOvPg_nattrs (r : Reln) (i : Nat) (pg : Page) : (putOvPg r i pg).nattrs = r.nattrs := rfl
@[simp] theorem putOvPg_depth (r : Reln) (i : Nat) (pg : Page) : (putOvPg r i pg).depth = r.depth := rfl
@[simp] theorem putOvPg_sp (r : Reln) (i : Nat) (pg : Page) : (putOvPg r i pg).sp = r.sp := rfl
@[simp] theorem putOvPg_npages (r : Reln) (i : Nat) (pg : Page) : (putOvPg r i pg).npages = r.npages := rfl
@[simp] theorem putOvPg_c (r : Reln) (i : Nat) (pg : Page) : (putOvPg r i pg).c = r.c := rfl
@[simp] theorem putOvPg_ntups (r : Reln) (i : Nat) (pg : Page) : (putOvPg r i pg).ntups = r.ntups := rfl
@[simp] theorem putOvPg_insertion (r : Reln) (i : Nat) (pg : Page) : (putOvPg r i pg).insertion = r.insertion := rfl
@[simp] theorem putOvPg_splitting (r : Reln) (i : Nat) (pg : Page) : (putOvPg r i pg).splitting = r.splitting := rfl
@[simp] theorem putOvPg_cv (r : Reln) (i : Nat) (pg : Page) : (putOvPg r i pg).cv = r.cv := rfl
@[simp] theorem putOvPg_data (r : Reln) (i : Nat) (pg : Page) : (putOvPg r i pg).data = r.data := rfl
@[simp] theorem putOvPg_ovflow (r : Reln) (i : Nat) (pg : Page) : (putOvPg r i pg).ovflow = r.ovflow.set i pg := rfl

@[simp] theorem putDataPg_nattrs (r : Reln) (i : Nat) (pg : Page) : (putDataPg r i pg).nattrs = r.nattrs := rfl
@[simp] theorem putDataPg_depth (r : Reln) (i : Nat) (pg : Page) : (putDataPg r i pg).depth = r.depth := rfl
@[simp] theorem putDataPg_sp (r : Reln) (i : Nat) (pg : Page) : (putDataPg r i pg).sp = r.sp := rfl
@[simp] theorem putDataPg_npages (r : Reln) (i : Nat) (pg : Page) : (putDataPg r i pg).npages = r.npages := rfl
@[simp] theorem putDataPg_c (r : Reln) (i : Nat) (pg : Page) : (putDataPg r i pg).c = r.c := rfl
@[simp] theorem putDataPg_ntups (r : Reln) (i : Nat) (pg : Page) : (putDataPg r i pg).ntups = r.ntups := rfl
@[simp] theorem putDataPg_insertion (r : Reln) (i : Nat) (pg : Page) : (putDataPg r i pg).insertion = r.insertion := rfl
@[simp] theorem putDataPg_splitting (r : Reln) (i : Nat) (pg : Page) : (putDataPg r i pg).splitting = r.splitting := rfl
@[simp] theorem putDataPg_cv (r : Reln) (i : Nat) (pg : Page) : (putDataPg r i pg).cv = r.cv := rfl
@[simp] theorem putDataPg_data (r : Reln) (i : Nat) (pg : Page) : (putDataPg r i pg).data = r.data.set i pg := rfl
@[simp] theorem putDataPg_ovflow (r : Reln) (i : Nat) (pg : Page) : (putDataPg r i pg).ovflow = r.ovflow := rfl

theorem walkChain_frame : ∀ fuel r t p ovp res r',
    walkChain fuel r t p ovp = some (res, r') →
    r'.nattrs = r.nattrs ∧ r'.depth = r.depth ∧ r'.sp = r.sp ∧
    r'.npages = r.npages ∧ r'.c = r.c ∧ r'.cv = r.cv ∧
    r'.splitting = r.splitting ∧ r'.data = r.data := by
  intro fuel
  induction fuel with
  | zero => intro r t p ovp res r' h; simp [walkChain] at h
  | succ n ih =>
    intro r t p ovp res r' h
    simp only [walkChain] at h
    split at h
    · simp only [Option.some.injEq, Prod.mk.injEq] at h
      obtain ⟨h1, h2⟩ := h
      subst h2
      simp
    · split at h
      · exact ih _ _ _ _ _ _ h
      · split at h
        · simp only [Option.some.injEq, Prod.mk.injEq] at h
          obtain ⟨h1, h2⟩ := h
          subst h2
          simp
        · simp only [Option.some.injEq, Prod.mk.injEq] at h
          obtain ⟨h1, h2⟩ := h
          subst h2
          simp

/-! ### C3: count consistency -/

/-- Invariant: the primary-page count equals `2^depth + sp`. -/
def CountInv (r : Reln) : Prop := r.npages = 2 ^ r.depth + r.sp

theorem placeBody_frame {hf : String → Nat} {r : Reln} {t : Tuple} {res : Option Nat} {r' : Reln}
    (h : placeBody hf r t = some (res, r')) :
    r'.nattrs = r.nattrs ∧ r'.depth = r.depth ∧ r'.sp = r.sp ∧
    r'.npages = r.npages ∧ r'.c = r.c ∧ r'.cv = r.cv ∧
    r'.splitting = r.splitting ∧ r'.data.length = r.data.length := by
  simp only [placeBody] at h
  split at h
  · simp only [Option.some.injEq, Prod.mk.injEq] at h
    obtain ⟨h1, h2⟩ := h
    subst h2
    simp
  · split at h
    · split at h
      · simp only [Option.some.injEq, Prod.mk.injEq] at h
        obtain ⟨h1, h2⟩ := h
        subst h2
        simp
      · simp only [Option.some.injEq, Prod.mk.injEq] at h
        obtain ⟨h1, h2⟩ := h
        subst h2
        simp
    · have := walkChain_frame _ _ _ _ _ _ _ h
      simp_all

theorem engine_countInv (hf : String → Nat) : ∀ n : Nat,
    (∀ r t res r', addToRelation hf n r t = some (res, r') → CountInv r → CountInv r') ∧
    (∀ r r', splitSp hf n r = some r' → CountInv r → CountInv r') ∧
    (∀ r ts r', reinsertList hf n r ts = some r' → CountInv r → CountInv r') ∧
    (∀ r o r', chainPhase hf n r o = some r' → CountInv r → CountInv r') := by
  intro n
  induction n with
  | zero =>
    refine ⟨?_, ?_, ?_, ?_⟩ <;> intros <;> simp_all [addToRelation_zero, splitSp_zero,
      reinsertList_zero, chainPhase_zero]
  | succ n ih =>
    obtain ⟨ihA, ihS, ihR, ihC⟩ := ih
    have hPlace : ∀ r t res r', placeBody hf r t = some (res, r') → CountInv r → CountInv r' := by
      intro r t res r' h hI
      obtain ⟨-, hd, hsp2, hnp, -, -, -, -⟩ := placeBody_frame h
      unfold CountInv at *
      rw [hnp, hd, hsp2]
      exact hI
    have hA : ∀ r t res r', addToRelation hf (n+1) r t = some (res, r') → CountInv r → CountInv r' := by
      intro r t res r' h hI
      rw [addToRelation_succ] at h
      unfold addBody at h
      split at h
      · split at h
        · exact absurd h (by simp)
        · rename_i r1 hs
          have h1 : CountInv r1 := ihS _ _ hs hI
          exact hPlace _ _ _ _ h h1
      · exact hPlace _ _ _ _ h hI
    have hR : ∀ r ts r', reinsertList hf (n+1) r ts = some r' → CountInv r → CountInv r' := by
      intro r ts
      induction ts generalizing r with
      | nil => intro r' h hI; rw [reinsertList_succ] at h; unfold reinsFold at h;
               simp only [Option.some.injEq] at h; subst h; exact hI
      | cons t ts iht =>
        intro r' h hI
        rw [reinsertList_succ] at h
        unfold reinsFold at h
        split at h
        · exact absurd h (by simp)
        · rename_i st r1 hadd
          rw [← reinsertList_succ] at h
          exact iht _ _ h (hA _ _ _ _ hadd hI)
    have hC : ∀ r o r', chainPhase hf (n+1) r o = some r' → CountInv r → CountInv r' := by
      intro r o r' h hI
      rw [chainPhase_succ] at h
      unfold chphBody at h
      cases o with
      | none => simp only [Option.some.injEq] at h; subst h; exact hI
      | some currId =>
        simp only at h
        split at h
        · exact absurd h (by simp)
        · rename_i r2 hre
          have h2 : CountInv r2 := hR _ _ _ hre (by unfold CountInv at *; simp_all)
          exact ihC _ _ _ h h2
    have hS : ∀ r r', splitSp hf (n+1) r = some r' → CountInv r → CountInv r' := by
      intro r r' h hI
      rw [splitSp_succ] at h
      unfold splitBody at h
      simp only at h
      split at h
      · exact absurd h (by simp)
      · rename_i r4 hre
        split at h
        · exact absurd h (by simp)
        · rename_i r5 hch
          have h4 : CountInv r4 := by
            refine hR _ _ _ hre ?_
            unfold CountInv at *
            simp
            omega
          have h5 : CountInv r5 := hC _ _ _ hch h4
          simp only [Option.some.injEq] at h
          subst h
          unfold CountInv at *
          split
          · rename_i hsp
            simp [hsp, pow_succ]
            omega
          · exact h5
    exact ⟨hA, hS, hR, hC⟩

theorem insertAll_countInv {hf : String → Nat} {fuel : Nat} :
    ∀ {r : Reln} {ts : List Tuple} {r' : Reln} {rs : List (Option Nat)},
    insertAll hf fuel r ts = some (r', rs) → CountInv r → CountInv r' := by
  intro r ts
  induction ts generalizing r with
  | nil =>
    intro r' rs h hI
    unfold insertAll at h
    simp only [Option.some.injEq, Prod.mk.injEq] at h
    obtain ⟨h1, -⟩ := h
    subst h1
    exact hI
  | cons t ts iht =>
    intro r' rs h hI
    unfold insertAll at h
    split at h
    · exact absurd h (by simp)
    · rename_i st res r1 hadd
      split at h
      · exact absurd h (by simp)
      · rename_i st2 r2 l hrec
        simp only [Option.some.injEq, Prod.mk.injEq] at h
        obtain ⟨h1, -⟩ := h
        subst h1
        exact iht hrec ((engine_countInv hf fuel).1 _ _ _ _ hadd hI)

/-- C3: for every relation state with `sp = 0` and `npages = 2^depth`
(the shape `newRelation` creates), after any sequence of `addToRelation`
calls that runs to completion the equality `npages = 2^depth + sp` holds:
each split adds one primary page and advances `sp`, wrapping `sp` to 0 and
incrementing `depth` when `sp` reaches `2^depth`. -/
theorem c3_count_consistency (hf : String → Nat) (fuel : Nat) (r0 : Reln)
    (ts : List Tuple) (r' : Reln) (rs : List (Option Nat))
    (hsp : r0.sp = 0) (hnp : r0.npages = 2 ^ r0.depth)
    (h : insertAll hf fuel r0 ts = some (r', rs)) :
    r'.npages = 2 ^ r'.depth + r'.sp :=
  insertAll_countInv h (by unfold CountInv; omega)

def hfZero : String → Nat := fun _ => 0

def relnC3 : Reln :=
  { nattrs := 1, depth := 0, sp := 0, npages := 1, ntups := 1, c := 102
    insertion := 1, splitting := false, cv := [], data := [⟨[["x"]], none⟩], ovflow := [] }

theorem c3_count_consistency_witness :
    (newRelation 1 1 0 []).sp = 0 ∧ (newRelation 1 1 0 []).npages = 2 ^ (newRelation 1 1 0 []).depth ∧
    insertAll hfZero 5 (newRelation 1 1 0 []) [["x"]] = some (relnC3, [some 0]) ∧
    relnC3.npages = 2 ^ relnC3.depth + relnC3.sp :=
  ⟨rfl, by decide, by decide,
   c3_count_consistency hfZero 5 (newRelation 1 1 0 []) [["x"]] relnC3 [some 0]
     rfl (by decide) (by decide)⟩

/-! ### C9: the NoSpace condition -/

theorem addToPage_some_fits {p : Page} {t : Tuple} {pg' : Page} (h : addToPage p t = some pg') :
    tupLen t ≤ DATACAP := by
  unfold addToPage at h
  split at h
  · omega
  · exact absurd h (by simp)

theorem addToPage_empty_none {t : Tuple} (h : addToPage emptyPage t = none) :
    DATACAP < tupLen t := by
  unfold addToPage at h
  split at h
  · exact absurd h (by simp)
  · rename_i hgt
    simp [emptyPage, pageUsed] at hgt
    omega

theorem addToPage_empty_some {t : Tuple} {pg : Page} (h : addToPage emptyPage t = some pg) :
    ¬ DATACAP < tupLen t := by
  have := addToPage_some_fits h
  omega

theorem walkChain_noSpace : ∀ fuel r t p ovp res r',
    walkChain fuel r t p ovp = some (res, r') → (res = none ↔ DATACAP < tupLen t) := by
  intro fuel
  induction fuel with
  | zero => intro r t p ovp res r' h; simp [walkChain] at h
  | succ n ih =>
    intro r t p ovp res r' h
    simp only [walkChain] at h
    split at h
    · rename_i pg1 hadd
      simp only [Option.some.injEq, Prod.mk.injEq] at h
      obtain ⟨h1, -⟩ := h
      subst h1
      have := addToPage_some_fits hadd
      simp
      omega
    · split at h
      · exact ih _ _ _ _ _ _ h
      · split at h
        · rename_i hfail
          simp only [Option.some.injEq, Prod.mk.injEq] at h
          obtain ⟨h1, -⟩ := h
          subst h1
          simp [addToPage_empty_none hfail]
        · rename_i npg hok
          simp only [Option.some.injEq, Prod.mk.injEq] at h
          obtain ⟨h1, -⟩ := h
          subst h1
          simp [addToPage_empty_some hok]

theorem placeBody_noSpace {hf : String → Nat} {r : Reln} {t : Tuple} {res : Option Nat} {r' : Reln}
    (h : placeBody hf r t = some (res, r')) : res = none ↔ DATACAP < tupLen t := by
  simp only [placeBody] at h
  split at h
  · rename_i pg1 hadd
    simp only [Option.some.injEq, Prod.mk.injEq] at h
    obtain ⟨h1, -⟩ := h
    subst h1
    have := addToPage_some_fits hadd
    simp
    omega
  · split at h
    · split at h
      · rename_i hfail
        simp only [Option.some.injEq, Prod.mk.injEq] at h
        obtain ⟨h1, -⟩ := h
        subst h1
        simp [addToPage_empty_none hfail]
      · rename_i npg hok
        simp only [Option.some.injEq, Prod.mk.injEq] at h
        obtain ⟨h1, -⟩ := h
        subst h1
        simp [addToPage_empty_some hok]
    · exact walkChain_noSpace _ _ _ _ _ _ _ h

/-- C9: a completed `addToRelation` call returns `NO_PAGE` if and only if
the tuple's serialized length exceeds the data capacity of a fresh empty
page; every tuple that fits in an empty page is placed successfully (in
the primary page, an overflow page with room, or a freshly appended one). -/
theorem c9_noSpace_iff (hf : String → Nat) (fuel : Nat) (r : Reln) (t : Tuple)
    (res : Option Nat) (r' : Reln)
    (h : addToRelation hf fuel r t = some (res, r')) :
    res = none ↔ DATACAP < tupLen t := by
  cases fuel with
  | zero => exact absurd h (by simp [addToRelation_zero])
  | succ n =>
    rw [addToRelation_succ] at h
    unfold addBody at h
    split at h
    · split at h
      · exact absurd h (by simp)
      · exact placeBody_noSpace h
    · exact placeBody_noSpace h

def relnC9 : Reln :=
  { nattrs := 1, depth := 0, sp := 0, npages := 1, ntups := 1, c := 102
    insertion := 1, splitting := false, cv := [], data := [⟨[["x"]], none⟩], ovflow := [] }

theorem c9_noSpace_iff_witness :
    addToRelation hfZero 5 (newRelation 1 1 0 []) ["x"] = some (some 0, relnC9) ∧
    ((some 0 : Option Nat) = none ↔ DATACAP < tupLen ["x"]) := by
  refine ⟨by decide, ?_⟩
  exact c9_noSpace_iff hfZero 5 (newRelation 1 1 0 []) ["x"] (some 0) relnC9 (by decide)

/-! ### C6: tuple counting -/

/-- The counter increment a placement applies: nothing during a split,
one per successful placement otherwise. -/
def countInc (b : Bool) (res : Option Nat) : Nat :=
  if b then 0 else if res.isSome then 1 else 0

theorem bump_ntups_eq (r : Reln) :
    (bump r).ntups = r.ntups + (if r.splitting then 0 else 1) := by
  unfold bump
  split <;> simp_all

theorem bump_insertion_eq (r : Reln) :
    (bump r).insertion = r.insertion + (if r.splitting then 0 else 1) := by
  unfold bump
  split <;> simp_all

theorem walkChain_count : ∀ fuel r t p ovp res r',
    walkChain fuel r t p ovp = some (res, r') →
    r'.ntups = r.ntups + countInc r.splitting res ∧
    r'.insertion = r.insertion + countInc r.splitting res := by
  intro fuel
  induction fuel with
  | zero => intro r t p ovp res r' h; simp [walkChain] at h
  | succ n ih =>
    intro r t p ovp res r' h
    simp only [walkChain] at h
    split at h
    · rename_i pg1 hadd
      simp only [Option.some.injEq, Prod.mk.injEq] at h
      obtain ⟨h1, h2⟩ := h
      subst h2 h1
      refine ⟨?_, ?_⟩ <;> simp [bump_ntups_eq, bump_insertion_eq, countInc]
    · split at h
      · exact ih _ _ _ _ _ _ h
      · split at h
        · simp only [Option.some.injEq, Prod.mk.injEq] at h
          obtain ⟨h1, h2⟩ := h
          subst h2 h1
          simp [countInc]
        · simp only [Option.some.injEq, Prod.mk.injEq] at h
          obtain ⟨h1, h2⟩ := h
          subst h2 h1
          refine ⟨?_, ?_⟩ <;> simp [bump_ntups_eq, bump_insertion_eq, countInc]

theorem placeBody_count {hf : String → Nat} {r : Reln} {t : Tuple} {res : Option Nat} {r' : Reln}
    (h : placeBody hf r t = some (res, r')) :
    r'.ntups = r.ntups + countInc r.splitting res ∧
    r'.insertion = r.insertion + countInc r.splitting res := by
  simp only [placeBody] at h
  split at h
  · rename_i pg1 hadd
    simp only [Option.some.injEq, Prod.mk.injEq] at h
    obtain ⟨h1, h2⟩ := h
    subst h2 h1
    refine ⟨?_, ?_⟩ <;> simp [bump_ntups_eq, bump_insertion_eq, countInc]
  · split at h
    · split at h
      · simp only [Option.some.injEq, Prod.mk.injEq] at h
        obtain ⟨h1, h2⟩ := h
        subst h2 h1
        simp [countInc]
      · simp only [Option.some.injEq, Prod.mk.injEq] at h
        obtain ⟨h1, h2⟩ := h
        subst h2 h1
        rename_i npg _
        refine ⟨?_, ?_⟩ <;> simp [bump_ntups_eq, bump_insertion_eq, countInc]
    · exact walkChain_count _ _ _ _ _ _ _ h

/-- During a split (flag raised, `insertion = 0`, `c ≠ 0`) a re-insert
performed by `addToRelation` leaves `ntups` and `insertion` untouched and
the flag raised. -/
theorem addToRelation_during_split {hf : String → Nat} {fuel : Nat} {r : Reln} {t : Tuple}
    {res : Option Nat} {r' : Reln}
    (h : addToRelation hf fuel r t = some (res, r'))
    (hsp : r.splitting = true) (hins : r.insertion = 0) (hc : r.c ≠ 0) :
    r'.ntups = r.ntups ∧ r'.insertion = 0 ∧ r'.splitting = true ∧ r'.c = r.c := by
  cases fuel with
  | zero => exact absurd h (by simp [addToRelation_zero])
  | succ n =>
    rw [addToRelation_succ] at h
    unfold addBody at h
    rw [if_neg (by omega)] at h
    obtain ⟨hcnt, hinc⟩ := placeBody_count h
    obtain ⟨-, -, -, -, hcc, -, hsp', -⟩ := placeBody_frame h
    simp [countInc, hsp] at hcnt hinc
    exact ⟨hcnt, by omega, by rw [hsp', hsp], by rw [hcc]⟩

theorem reinsertList_during_split {hf : String → Nat} {fuel : Nat} :
    ∀ {r : Reln} {ts : List Tuple} {r' : Reln},
    reinsertList hf fuel r ts = some r' →
    r.splitting = true → r.insertion = 0 → r.c ≠ 0 →
    r'.ntups = r.ntups ∧ r'.insertion = 0 ∧ r'.splitting = true ∧ r'.c = r.c := by
  cases fuel with
  | zero => intro r ts r' h; exact absurd h (by simp [reinsertList_zero])
  | succ n =>
    intro r ts
    induction ts generalizing r with
    | nil =>
      intro r' h hs hi hc
      rw [reinsertList_succ] at h
      unfold reinsFold at h
      simp only [Option.some.injEq] at h
      subst h
      exact ⟨rfl, hi, hs, rfl⟩
    | cons t ts iht =>
      intro r' h hs hi hc
      rw [reinsertList_succ] at h
      unfold reinsFold at h
      split at h
      · exact absurd h (by simp)
      · rename_i st r1 hadd
        rw [← reinsertList_succ] at h
        obtain ⟨h1, h2, h3, h4⟩ := addToRelation_during_split hadd hs hi hc
        obtain ⟨g1, g2, g3, g4⟩ := iht h h3 h2 (by omega)
        exact ⟨by omega, g2, g3, by omega⟩

theorem chainPhase_during_split {hf : String → Nat} : ∀ {fuel : Nat} {r : Reln} {o : Option Nat} {r' : Reln},
    chainPhase hf fuel r o = some r' →
    r.splitting = true → r.insertion = 0 → r.c ≠ 0 →
    r'.ntups = r.ntups ∧ r'.insertion = 0 ∧ r'.splitting = true ∧ r'.c = r.c := by
  intro fuel
  induction fuel with
  | zero => intro r o r' h; exact absurd h (by simp [chainPhase_zero])
  | succ n ih =>
    intro r o r' h hs hi hc
    rw [chainPhase_succ] at h
    unfold chphBody at h
    cases o with
    | none =>
      simp only [Option.some.injEq] at h
      subst h
      exact ⟨rfl, hi, hs, rfl⟩
    | some currId =>
      simp only at h
      split at h
      · exact absurd h (by simp)
      · rename_i r2 hre
        obtain ⟨h1, h2, h3, h4⟩ := reinsertList_during_split hre (by simpa using hs)
          (by simpa using hi) (by simpa using hc)
        obtain ⟨g1, g2, g3, g4⟩ := ih h h3 h2 (by simp at h4; omega)
        simp only [putOvPg_ntups] at h1
        simp only [putOvPg_c] at h4
        exact ⟨by omega, g2, g3, by omega⟩

theorem splitSp_count {hf : String → Nat} {fuel : Nat} {r : Reln} {r' : Reln}
    (h : splitSp hf fuel r = some r')
    (hs : r.splitting = true) (hi : r.insertion = 0) (hc : r.c ≠ 0) :
    r'.ntups = r.ntups ∧ r'.insertion = 0 ∧ r'.splitting = true ∧ r'.c = r.c := by
  cases fuel with
  | zero => exact absurd h (by simp [splitSp_zero])
  | succ n =>
    rw [splitSp_succ] at h
    unfold splitBody at h
    simp only at h
    split at h
    · exact absurd h (by simp)
    · rename_i r4 hre
      split at h
      · exact absurd h (by simp)
      · rename_i r5 hch
        obtain ⟨h1, h2, h3, h4⟩ := reinsertList_during_split hre (by simpa using hs)
          (by simpa using hi) (by simpa using hc)
        obtain ⟨g1, g2, g3, g4⟩ := chainPhase_during_split hch h3 h2 (by simp at h4; omega)
        simp only [putDataPg_ntups, putDataPg_c] at h1 h4
        simp only [Option.some.injEq] at h
        subst h
        have e1 : ∀ r6 : Reln, (if r6.sp = 2 ^ r6.depth then { r6 with depth := r6.depth + 1, sp := 0 } else r6).ntups = r6.ntups := by
          intro r6; split <;> rfl
        have e2 : ∀ r6 : Reln, (if r6.sp = 2 ^ r6.depth then { r6 with depth := r6.depth + 1, sp := 0 } else r6).insertion = r6.insertion := by
          intro r6; split <;> rfl
        have e3 : ∀ r6 : Reln, (if r6.sp = 2 ^ r6.depth then { r6 with depth := r6.depth + 1, sp := 0 } else r6).splitting = r6.splitting := by
          intro r6; split <;> rfl
        have e4 : ∀ r6 : Reln, (if r6.sp = 2 ^ r6.depth then { r6 with depth := r6.depth + 1, sp := 0 } else r6).c = r6.c := by
          intro r6; split <;> rfl
        rw [e1, e2, e3, e4]
        exact ⟨by omega, g2, g3, by omega⟩

/-- C6: completed top-level `addToRelation` calls bump `ntups` exactly on
success.  First conjunct: over any completed sequence of calls from a
state not inside a split, the final `ntups` is the initial one plus the
number of calls that returned a bucket id (did not fail with `NO_PAGE`).
Second conjunct: a re-insert during a split leaves `ntups` and `insertion`
unchanged.  Third conjunct: a successful top-level call that does not
trigger a split increments both `ntups` and `insertion` by one. -/
theorem c6_tuple_count (hf : String → Nat) (fuel : Nat) :
    (∀ r ts r' rs, insertAll hf fuel r ts = some (r', rs) →
      r.splitting = false → r.c ≠ 0 →
      r'.ntups = r.ntups + (rs.filter Option.isSome).length) ∧
    (∀ r t res r', addToRelation hf fuel r t = some (res, r') →
      r.splitting = true → r.insertion = 0 → r.c ≠ 0 →
      r'.ntups = r.ntups ∧ r'.insertion = r.insertion) ∧
    (∀ r t p r', addToRelation hf fuel r t = some (some p, r') →
      r.splitting = false → r.insertion ≠ r.c →
      r'.ntups = r.ntups + 1 ∧ r'.insertion = r.insertion + 1) := by
  refine ⟨?_, ?_, ?_⟩
  · intro r ts
    induction ts generalizing r with
    | nil =>
      intro r' rs h hs hc
      unfold insertAll at h
      simp only [Option.some.injEq, Prod.mk.injEq] at h
      obtain ⟨h1, h2⟩ := h
      subst h1 h2
      simp
    | cons t ts iht =>
      intro r' rs h hs hc
      unfold insertAll at h
      split at h
      · exact absurd h (by simp)
      · rename_i st res r1 hadd
        split at h
        · exact absurd h (by simp)
        · rename_i st2 r2 l hrec
          simp only [Option.some.injEq, Prod.mk.injEq] at h
          obtain ⟨h1, h2⟩ := h
          subst h1 h2
          -- count for the head call
          have hhead : r1.ntups = r.ntups + countInc false res ∧ r1.splitting = false ∧ r1.c ≠ 0 := by
            cases fuel with
            | zero => exact absurd hadd (by simp [addToRelation_zero])
            | succ n =>
              rw [addToRelation_succ] at hadd
              unfold addBody at hadd
              split at hadd
              · split at hadd
                · exact absurd hadd (by simp)
                · rename_i r1' hsplit
                  obtain ⟨hn1, hi1, hs1, hc1⟩ := splitSp_count hsplit (by simp) (by simp) (by simpa using hc)
                  obtain ⟨hcnt, -⟩ := placeBody_count hadd
                  obtain ⟨-, -, -, -, hcc, -, hsp', -⟩ := placeBody_frame hadd
                  simp only at hn1 hi1 hc1
                  constructor
                  · rw [hcnt]
                    simp only [hs1]
                    simp [countInc, hs, hn1]
                  constructor
                  · simpa [hs1] using hsp'
                  · simp at hcc hc1
                    omega
              · obtain ⟨hcnt, -⟩ := placeBody_count hadd
                obtain ⟨-, -, -, -, hcc, -, hsp', -⟩ := placeBody_frame hadd
                rw [hs] at hcnt
                refine ⟨hcnt, by rwa [hs] at hsp', by omega⟩
          obtain ⟨hn, hs1, hc1⟩ := hhead
          have := iht _ _ _ hrec hs1 hc1
          rw [this, hn]
          rcases res with - | pv <;> simp [countInc] <;> omega
  · intro r t res r' h hs hi hc
    obtain ⟨h1, h2, -, -⟩ := addToRelation_during_split h hs hi hc
    exact ⟨h1, by omega⟩
  · intro r t p r' h hs hins
    cases fuel with
    | zero => exact absurd h (by simp [addToRelation_zero])
    | succ n =>
      rw [addToRelation_succ] at h
      unfold addBody at h
      rw [if_neg hins] at h
      obtain ⟨hcnt, hinc⟩ := placeBody_count h
      rw [hs] at hcnt hinc
      simpa [countInc] using ⟨hcnt, hinc⟩

def relnC6 : Reln :=
  { nattrs := 1, depth := 0, sp := 0, npages := 1, ntups := 2, c := 102
    insertion := 2, splitting := false, cv := [], data := [⟨[["x"], ["y"]], none⟩], ovflow := [] }

theorem c6_tuple_count_witness :
    insertAll hfZero 5 (newRelation 1 1 0 []) ([["x"], ["y"]] : List Tuple) = some (relnC6, [some 0, some 0]) ∧
    relnC6.ntups = (newRelation 1 1 0 []).ntups +
      (([some 0, some 0] : List (Option Nat)).filter Option.isSome).length :=
  ⟨by decide, (c6_tuple_count hfZero 5).1 (newRelation 1 1 0 []) [["x"], ["y"]] relnC6
    [some 0, some 0] (by decide) rfl (by decide)⟩

/-! ### C7: split destination restriction -/

theorem mod_pow_succ_cases (h d : Nat) :
    h % 2 ^ (d + 1) = h % 2 ^ d ∨ h % 2 ^ (d + 1) = h % 2 ^ d + 2 ^ d := by
  have hp : 0 < 2 ^ d := Nat.pos_pow_of_pos d (by omega)
  have h1 : (h % 2 ^ (d + 1)) % 2 ^ d = h % 2 ^ d :=
    Nat.mod_mod_of_dvd h (pow_dvd_pow 2 (Nat.le_succ d))
  have h2 : h % 2 ^ (d + 1) < 2 ^ (d + 1) := Nat.mod_lt _ (Nat.pos_pow_of_pos _ (by omega))
  have h3 : (h % 2 ^ (d + 1)) % 2 ^ d + 2 ^ d * (h % 2 ^ (d + 1) / 2 ^ d) = h % 2 ^ (d + 1) :=
    Nat.mod_add_div _ _
  have h4 : h % 2 ^ (d + 1) / 2 ^ d < 2 := by
    rw [Nat.div_lt_iff_lt_mul hp]
    calc h % 2 ^ (d + 1) < 2 ^ (d + 1) := h2
    _ = 2 ^ d * 2 := by ring
    _ ≤ 2 * 2 ^ d := by omega
  interval_cases hq : h % 2 ^ (d + 1) / 2 ^ d <;> omega

theorem walkChain_pid : ∀ fuel r t p ovp p' r',
    walkChain fuel r t p ovp = some (some p', r') → p' = p := by
  intro fuel
  induction fuel with
  | zero => intro r t p ovp p' r' h; simp [walkChain] at h
  | succ n ih =>
    intro r t p ovp p' r' h
    simp only [walkChain] at h
    split at h
    · simp only [Option.some.injEq, Prod.mk.injEq] at h
      obtain ⟨h1, -⟩ := h
      omega
    · split at h
      · exact ih _ _ _ _ _ _ h
      · split at h
        · simp at h
        · simp only [Option.some.injEq, Prod.mk.injEq] at h
          obtain ⟨h1, -⟩ := h
          omega

theorem placeBody_addr {hf : String → Nat} {r : Reln} {t : Tuple} {p : Nat} {r' : Reln}
    (h : placeBody hf r t = some (some p, r')) :
    p = bucketAddr (tupleHash hf r.cv t) r.depth r.sp := by
  simp only [placeBody] at h
  split at h
  · simp only [Option.some.injEq, Prod.mk.injEq] at h
    obtain ⟨h1, -⟩ := h
    omega
  · split at h
    · split at h
      · simp at h
      · simp only [Option.some.injEq, Prod.mk.injEq] at h
        obtain ⟨h1, -⟩ := h
        omega
    · exact walkChain_pid _ _ _ _ _ _ _ h

/-- A successful `addToRelation` returns exactly the bucket id computed by
the MAH addressing rule at the placement-time depth and split pointer,
which the placement leaves in the final state. -/
theorem addToRelation_addr {hf : String → Nat} {fuel : Nat} {r : Reln} {t : Tuple}
    {p : Nat} {r' : Reln} (h : addToRelation hf fuel r t = some (some p, r')) :
    p = bucketAddr (tupleHash hf r'.cv t) r'.depth r'.sp := by
  cases fuel with
  | zero => exact absurd h (by simp [addToRelation_zero])
  | succ n =>
    rw [addToRelation_succ] at h
    unfold addBody at h
    split at h
    · split at h
      · exact absurd h (by simp)
      · rename_i r1 hs
        obtain ⟨-, hd, hsp2, -, -, hcv, -, -⟩ := placeBody_frame h
        have hp := placeBody_addr h
        simp only at hd hsp2 hcv hp
        rw [hd, hsp2, hcv]
        exact hp
    · obtain ⟨-, hd, hsp2, -, -, hcv, -, -⟩ := placeBody_frame h
      have hp := placeBody_addr h
      rw [hd, hsp2, hcv]
      exact hp

/-- C7: during a split of bucket `sp0` the split pointer has been advanced
to `sp0 + 1` before the snapshot tuples are re-inserted; any such
re-insert of a tuple whose `depth`-bit address is `sp0` (every tuple of
the split source, by the residence invariant) is placed either in bucket
`sp0` or in its buddy `sp0 + 2^depth`, and nowhere else. -/
theorem c7_split_destinations (hf : String → Nat) (fuel : Nat) (r : Reln) (t : Tuple)
    (sp0 p : Nat) (r' : Reln)
    (hins : r.insertion ≠ r.c) (hsp : r.sp = sp0 + 1) (hd0 : sp0 < 2 ^ r.depth)
    (hh : getLower (tupleHash hf r.cv t) r.depth = sp0)
    (h : addToRelation hf fuel r t = some (some p, r')) :
    p = sp0 ∨ p = sp0 + 2 ^ r.depth := by
  cases fuel with
  | zero => exact absurd h (by simp [addToRelation_zero])
  | succ n =>
    rw [addToRelation_succ] at h
    unfold addBody at h
    rw [if_neg hins] at h
    have hp := placeBody_addr h
    unfold bucketAddr at hp
    rw [hh, hsp] at hp
    rw [if_pos (by omega)] at hp
    unfold getLower at hp
    unfold getLower at hh
    rcases mod_pow_succ_cases (tupleHash hf r.cv t) r.depth with hc | hc
    · left; omega
    · right; omega

def relnC7 : Reln :=
  { nattrs := 1, depth := 1, sp := 1, npages := 3, ntups := 0, c := 102
    insertion := 0, splitting := true, cv := [], data := [emptyPage, emptyPage, emptyPage]
    ovflow := [] }

theorem c7_split_destinations_witness :
    (addToRelation hfZero 2 relnC7 ["x"]).map Prod.fst = some (some 0) ∧ ((0 : Nat) = 0 ∨ (0 : Nat) = 0 + 2 ^ relnC7.depth) := by
  refine ⟨by decide, ?_⟩
  refine c7_split_destinations hfZero 2 relnC7 ["x"] 0 0
    { relnC7 with ntups := 0, data := [⟨[["x"]], none⟩, emptyPage, emptyPage] }
    (by decide) rfl (by decide) (by decide) (by decide)

/-! ### C8: failed-insert atomicity -/

theorem walkChain_fail_state : ∀ fuel r t p ovp r',
    walkChain fuel r t p ovp = some (none, r') →
    r' = { r with ovflow := r.ovflow ++ [emptyPage] } := by
  intro fuel
  induction fuel with
  | zero => intro r t p ovp r' h; simp [walkChain] at h
  | succ n ih =>
    intro r t p ovp r' h
    simp only [walkChain] at h
    split at h
    · simp only [Option.some.injEq, Prod.mk.injEq] at h
      obtain ⟨h1, -⟩ := h
      simp at h1
    · split at h
      · exact ih _ _ _ _ _ h
      · split at h
        · simp only [Option.some.injEq, Prod.mk.injEq] at h
          exact h.2.symm
        · simp only [Option.some.injEq, Prod.mk.injEq] at h
          obtain ⟨h1, -⟩ := h
          simp at h1

/-- C8 (amended): when a completed `addToRelation` call that did not
trigger a split returns `NO_PAGE`, all descriptor counters are unchanged
and exactly one empty overflow page has been appended to the overflow
file; all page contents are unchanged except that, when the target
bucket's primary page had no overflow chain, its overflow link now points
at the freshly appended (empty) page. -/
theorem c8_failed_insert_amended (hf : String → Nat) (fuel : Nat) (r : Reln) (t : Tuple)
    (r' : Reln) (hnos : r.insertion ≠ r.c)
    (h : addToRelation hf fuel r t = some (none, r')) :
    r'.ntups = r.ntups ∧ r'.insertion = r.insertion ∧ r'.depth = r.depth ∧
    r'.sp = r.sp ∧ r'.npages = r.npages ∧
    r'.ovflow = r.ovflow ++ [emptyPage] ∧
    (r'.data = r.data ∨
      ((getDataPg r (bucketAddr (tupleHash hf r.cv t) r.depth r.sp)).ov = none ∧
        r'.data = r.data.set (bucketAddr (tupleHash hf r.cv t) r.depth r.sp)
          ⟨(getDataPg r (bucketAddr (tupleHash hf r.cv t) r.depth r.sp)).tuples,
            some r.ovflow.length⟩)) := by
  cases fuel with
  | zero => exact absurd h (by simp [addToRelation_zero])
  | succ n =>
    rw [addToRelation_succ] at h
    unfold addBody at h
    rw [if_neg hnos] at h
    simp only [placeBody] at h
    split at h
    · simp only [Option.some.injEq, Prod.mk.injEq] at h
      obtain ⟨h1, -⟩ := h
      simp at h1
    · split at h
      · rename_i hov
        split at h
        · simp only [Option.some.injEq, Prod.mk.injEq] at h
          obtain ⟨-, h2⟩ := h
          subst h2
          refine ⟨rfl, rfl, rfl, rfl, rfl, rfl, Or.inr ⟨hov, rfl⟩⟩
        · simp only [Option.some.injEq, Prod.mk.injEq] at h
          obtain ⟨h1, -⟩ := h
          simp at h1
      · have := walkChain_fail_state _ _ _ _ _ _ h
        subst this
        exact ⟨rfl, rfl, rfl, rfl, rfl, rfl, Or.inl rfl⟩

def bigTuple : Tuple := [String.mk (List.replicate 1008 'a')]

def relnC8 : Reln := newRelation 1 1 0 []

set_option maxRecDepth 40000 in
/-- C8 fails as stated: on this failed insert (a tuple larger than a
page), the primary page of bucket 0 is changed on disk — its overflow
link is rewritten from `NO_PAGE` to the id of the freshly appended
overflow page — which is more than the claim's allowance of a leftover
appended empty overflow page. -/
theorem c8_counterexample :
    addToRelation hfZero 1 relnC8 bigTuple =
      some (none, { relnC8 with data := [⟨[], some 0⟩], ovflow := [emptyPage] }) ∧
    (getDataPg relnC8 0).ov = none ∧
    ({ relnC8 with data := [⟨[], some 0⟩], ovflow := [emptyPage] } : Reln).data ≠ relnC8.data := by
  refine ⟨by decide, by decide, by decide⟩

set_option maxRecDepth 40000 in
theorem c8_failed_insert_amended_witness :
    addToRelation hfZero 1 relnC8 bigTuple =
      some (none, { relnC8 with data := [⟨[], some 0⟩], ovflow := [emptyPage] }) ∧
    ({ relnC8 with data := [⟨[], some 0⟩], ovflow := [emptyPage] } : Reln).ovflow =
      relnC8.ovflow ++ [emptyPage] := by
  refine ⟨by decide, ?_⟩
  exact (c8_failed_insert_amended hfZero 1 relnC8 bigTuple
    { relnC8 with data := [⟨[], some 0⟩], ovflow := [emptyPage] } (by decide) (by decide)).2.2.2.2.2.1

/-! ### C4, C5, C10: the query engine -/

theorem scanList_match {nattrs : Nat} {pat : Tuple} :
    ∀ {l : List Tuple} {k : Nat} {t : Tuple} {k' : Nat},
    scanList nattrs pat l k = some (t, k') → tupleMatch nattrs pat t = true := by
  intro l
  induction l with
  | nil => intro k t k' h; simp [scanList] at h
  | cons x xs ih =>
    intro k t k' h
    unfold scanList at h
    split at h
    · simp only [Option.some.injEq, Prod.mk.injEq] at h
      obtain ⟨h1, -⟩ := h
      subst h1
      assumption
    · exact ih h

theorem gnt_query_stable {r : Reln} : ∀ {fuel : Nat} {q : Query} {t : Tuple} {q' : Query} {tr : List Nat},
    gnt r fuel q = some (some (t, q'), tr) → q'.query = q.query := by
  intro fuel
  induction fuel with
  | zero => intro q t q' tr h; simp [gnt] at h
  | succ n ih =>
    intro q t q' tr h
    simp only [gnt] at h
    split at h
    · simp only [Option.some.injEq, Prod.mk.injEq] at h
      obtain ⟨⟨-, h2⟩, -⟩ := h
      subst h2
      rfl
    · split at h
      · have hx := ih h
        simpa using hx
      · split at h
        · simp at h
        · split at h
          · split at h
            · exact absurd h (by simp)
            · rename_i o tr2 hrec
              simp only [Option.some.injEq, Prod.mk.injEq] at h
              obtain ⟨h1, -⟩ := h
              subst h1
              have hx := ih hrec
              simpa using hx
          · split at h
            · split at h
              · exact absurd h (by simp)
              · rename_i o tr2 hrec
                simp only [Option.some.injEq, Prod.mk.injEq] at h
                obtain ⟨h1, -⟩ := h
                subst h1
                have hx := ih hrec
                simpa using hx
            · have hx := ih h
              simpa using hx

theorem gnt_sound {r : Reln} : ∀ {fuel : Nat} {q : Query} {t : Tuple} {q' : Query} {tr : List Nat},
    gnt r fuel q = some (some (t, q'), tr) → tupleMatch r.nattrs q.query t = true := by
  intro fuel
  induction fuel with
  | zero => intro q t q' tr h; simp [gnt] at h
  | succ n ih =>
    intro q t q' tr h
    simp only [gnt] at h
    split at h
    · rename_i pr hscan
      simp only [Option.some.injEq, Prod.mk.injEq] at h
      obtain ⟨⟨h1, -⟩, -⟩ := h
      subst h1
      exact scanList_match hscan
    · split at h
      · have hx := ih h
        simpa using hx
      · split at h
        · simp at h
        · split at h
          · split at h
            · exact absurd h (by simp)
            · rename_i o tr2 hrec
              simp only [Option.some.injEq, Prod.mk.injEq] at h
              obtain ⟨h1, -⟩ := h
              subst h1
              have hx := ih hrec
              simpa using hx
          · split at h
            · split at h
              · exact absurd h (by simp)
              · rename_i o tr2 hrec
                simp only [Option.some.injEq, Prod.mk.injEq] at h
                obtain ⟨h1, -⟩ := h
                subst h1
                have hx := ih hrec
                simpa using hx
            · have hx := ih h
              simpa using hx

/-- C4: query soundness.  Any tuple returned by a completed `getNextTuple`
call matches the query's pattern: for every non-wildcard attribute `i`
(below the schema arity), the `i`-th field of the returned tuple equals
the `i`-th field of the pattern. -/
theorem c4_query_soundness (r : Reln) (fuel : Nat) (q : Query) (t : Tuple) (q' : Query)
    (tr : List Nat) (h : gnt r fuel q = some (some (t, q'), tr)) :
    ∀ i < r.nattrs, q.query.getD i "" ≠ "?" → t.getD i "" = q.query.getD i "" := by
  have hm := gnt_sound h
  unfold tupleMatch at hm
  rw [List.all_eq_true] at hm
  intro i hi hnw
  have := hm i (List.mem_range.mpr hi)
  simp only [Bool.or_eq_true, beq_iff_eq] at this
  rcases this with h1 | h1
  · exact absurd h1 hnw
  · exact h1.symm

def relnC4 : Reln := newRelation 2 1 0 []

def queryC4 : Query :=
  { query := ["a", "?"], known := 0, unknown := 0, nstars := 0, starBits := []
    bitSeq := 0, bitSeqMax := 0, curpage := ⟨[["a", "b"]], none⟩, scanned := 0 }

theorem c4_query_soundness_witness :
    gnt relnC4 1 queryC4 = some (some (["a", "b"], { queryC4 with scanned := 1 }), []) ∧
    (["a", "b"] : Tuple).getD 0 "" = queryC4.query.getD 0 "" :=
  ⟨by decide,
   c4_query_soundness relnC4 1 queryC4 ["a", "b"] { queryC4 with scanned := 1 } []
     (by decide) 0 (by decide) (by decide)⟩

theorem lor_two_pow_of_lt {a n : Nat} (h : a < 2 ^ n) : a ||| 2 ^ n = a + 2 ^ n := by
  apply Nat.eq_of_testBit_eq
  intro j
  have hsum : a + 2 ^ n = 2 ^ n * 1 + a := by ring
  rw [hsum, Nat.testBit_mul_pow_two_add 1 h j, Nat.testBit_or]
  rcases lt_trichotomy j n with hj | hj | hj
  · rw [if_pos hj, Nat.testBit_two_pow_of_ne (by omega)]
    simp
  · subst hj
    rw [if_neg (by omega)]
    simp [Nat.testBit_two_pow_self, Nat.testBit_lt_two_pow h]
  · rw [if_neg (by omega), Nat.testBit_two_pow_of_ne (by omega)]
    have h1 : a.testBit j = false :=
      Nat.testBit_lt_two_pow (lt_of_lt_of_le h (Nat.pow_le_pow_right (by omega) (by omega)))
    have h2 : Nat.testBit 1 (j - n) = false := by
      have hne : j - n ≠ 0 := by omega
      rcases Nat.exists_eq_succ_of_ne_zero hne with ⟨k, hk⟩
      rw [hk]
      simp [Nat.testBit_succ]
    rw [h1, h2]
    simp

theorem foldl_setBit_range : ∀ n : Nat, (List.range n).foldl (fun m i => setBit m i) 0 = 2 ^ n - 1 := by
  intro n
  induction n with
  | zero => rfl
  | succ n ih =>
    rw [List.range_succ, List.foldl_append, ih]
    show setBit (2 ^ n - 1) n = 2 ^ (n + 1) - 1
    unfold setBit
    rw [lor_two_pow_of_lt (by have := Nat.pos_pow_of_pos n (show 0 < 2 by omega); omega)]
    have := Nat.pos_pow_of_pos n (show 0 < 2 by omega)
    rw [pow_succ]
    omega

theorem gnt_fetch_bound {r : Reln} : ∀ {fuel : Nat} {q : Query} {res : Option (Tuple × Query)} {tr : List Nat},
    gnt r fuel q = some (res, tr) → q.bitSeq ≤ q.bitSeqMax →
    (res = none → tr.length ≤ q.bitSeqMax - q.bitSeq) ∧
    (∀ t q', res = some (t, q') →
      tr.length + (q.bitSeqMax - q'.bitSeq) ≤ q.bitSeqMax - q.bitSeq ∧
      q'.bitSeq ≤ q'.bitSeqMax ∧ q'.bitSeqMax = q.bitSeqMax) := by
  intro fuel
  induction fuel with
  | zero => intro q res tr h; simp [gnt] at h
  | succ n ih =>
    intro q res tr h hle
    simp only [gnt] at h
    split at h
    · rename_i pr hscan
      simp only [Option.some.injEq, Prod.mk.injEq] at h
      obtain ⟨h1, h2⟩ := h
      subst h1 h2
      refine ⟨by simp, ?_⟩
      intro t q' he
      simp only [Option.some.injEq, Prod.mk.injEq] at he
      obtain ⟨-, he2⟩ := he
      subst he2
      simp
      omega
    · split at h
      · have hx := ih h (by simpa using hle)
        simpa using hx
      · split at h
        · rename_i hmax
          simp only [Option.some.injEq, Prod.mk.injEq] at h
          obtain ⟨h1, h2⟩ := h
          subst h1 h2
          exact ⟨fun _ => by simp, fun t q' he => by simp at he⟩
        · rename_i hmax
          split at h
          · split at h
            · exact absurd h (by simp)
            · rename_i o tr2 hrec
              simp only [Option.some.injEq, Prod.mk.injEq] at h
              obtain ⟨h1, h2⟩ := h
              subst h1 h2
              have hx := ih hrec (by simp; omega)
              simp only at hx
              obtain ⟨hx1, hx2⟩ := hx
              refine ⟨?_, ?_⟩
              · intro he
                have := hx1 he
                simp
                omega
              · intro t q' he
                obtain ⟨g1, g2, g3⟩ := hx2 t q' he
                try simp at g3
                refine ⟨by rw [List.length_cons]; omega, g2, by omega⟩
          · split at h
            · split at h
              · exact absurd h (by simp)
              · rename_i o tr2 hrec
                simp only [Option.some.injEq, Prod.mk.injEq] at h
                obtain ⟨h1, h2⟩ := h
                subst h1 h2
                have hx := ih hrec (by simp; omega)
                simp only at hx
                obtain ⟨hx1, hx2⟩ := hx
                refine ⟨?_, ?_⟩
                · intro he
                  have := hx1 he
                  simp
                  omega
                · intro t q' he
                  obtain ⟨g1, g2, g3⟩ := hx2 t q' he
                  try simp at g3
                  refine ⟨by rw [List.length_cons]; omega, g2, by omega⟩
            · have hx := ih h (by simp; omega)
              simp only at hx
              obtain ⟨hx1, hx2⟩ := hx
              refine ⟨?_, ?_⟩
              · intro he
                have := hx1 he
                omega
              · intro t q' he
                obtain ⟨g1, g2, g3⟩ := hx2 t q' he
                try simp at g3
                refine ⟨by omega, g2, by omega⟩

theorem collectRun_fetch_bound {r : Reln} {gfuel : Nat} :
    ∀ {n : Nat} {q : Query} {l : List Tuple} {tr : List Nat},
    collectRun r gfuel n q = some (l, tr) → q.bitSeq ≤ q.bitSeqMax →
    tr.length ≤ q.bitSeqMax - q.bitSeq := by
  intro n
  induction n with
  | zero => intro q l tr h; simp [collectRun] at h
  | succ n ih =>
    intro q l tr h hle
    unfold collectRun at h
    split at h
    · exact absurd h (by simp)
    · rename_i tr1 hg
      simp only [Option.some.injEq, Prod.mk.injEq] at h
      obtain ⟨-, h2⟩ := h
      subst h2
      exact ((gnt_fetch_bound hg hle).1 rfl)
    · rename_i t q1 tr1 hg
      split at h
      · exact absurd h (by simp)
      · rename_i pr2 l2 tr2 hc
        simp only [Option.some.injEq, Prod.mk.injEq] at h
        obtain ⟨-, h2⟩ := h
        subst h2
        obtain ⟨g1, g2, g3⟩ := (gnt_fetch_bound hg hle).2 t q1 rfl
        have := ih hc g2
        rw [List.length_append]
        omega

/-- C5: wildcard bucket enumeration is bounded.  A fresh query starts the
enumeration at `bitSeq = 0` with `bitSeqMax = 2^nstars - 1`, and a full
run of `getNextTuple` until exhaustion issues at most `2^nstars` fetches
on the primary data file (the one performed by `startQuery` plus at most
one per remaining `bitSeq` value; a `bitSeq` whose `d+1`-bit bucket value
is at least `npages` is skipped without any fetch). -/
theorem c5_fetch_bound (hf : String → Nat) (r : Reln) (pat : Tuple) (gfuel n : Nat)
    (l : List Tuple) (tr : List Nat)
    (h : collectRun r gfuel n (startQuery hf r pat).1 = some (l, tr)) :
    (startQuery hf r pat).1.bitSeq = 0 ∧
    (startQuery hf r pat).1.bitSeqMax = 2 ^ (startQuery hf r pat).1.nstars - 1 ∧
    tr.length + 1 ≤ 2 ^ (startQuery hf r pat).1.nstars := by
  have hmax : (startQuery hf r pat).1.bitSeqMax = 2 ^ (startQuery hf r pat).1.nstars - 1 := by
    show (List.range _).foldl (fun m i => setBit m i) 0 = _
    exact foldl_setBit_range _
  refine ⟨rfl, hmax, ?_⟩
  have hb0 : (startQuery hf r pat).1.bitSeq = 0 := rfl
  have hb := collectRun_fetch_bound h (by rw [hmax, hb0]; omega)
  rw [hmax, hb0] at hb
  have hpos := Nat.pos_pow_of_pos ((startQuery hf r pat).1.nstars) (show 0 < 2 by omega)
  omega

theorem bucketAddr_lt {h d sp : Nat} (hsp : sp ≤ 2 ^ d) : bucketAddr h d sp < 2 ^ d + sp := by
  have h1 : h % 2 ^ d < 2 ^ d := Nat.mod_lt _ (Nat.pos_pow_of_pos _ (by omega))
  show (if h % 2 ^ d < sp then h % 2 ^ (d + 1) else h % 2 ^ d) < 2 ^ d + sp
  split
  · rename_i hlt
    rcases mod_pow_succ_cases h d with hc | hc <;> omega
  · omega

theorem gnt_trace_lt {r : Reln} (hsp : r.sp ≤ 2 ^ r.depth) (hnp : r.npages = 2 ^ r.depth + r.sp) :
    ∀ {fuel : Nat} {q : Query} {res : Option (Tuple × Query)} {tr : List Nat},
    gnt r fuel q = some (res, tr) → ∀ x ∈ tr, x < r.npages := by
  intro fuel
  induction fuel with
  | zero => intro q res tr h; simp [gnt] at h
  | succ n ih =>
    intro q res tr h
    simp only [gnt] at h
    split at h
    · simp only [Option.some.injEq, Prod.mk.injEq] at h
      obtain ⟨-, h2⟩ := h
      subst h2
      simp
    · split at h
      · exact ih h
      · split at h
        · simp only [Option.some.injEq, Prod.mk.injEq] at h
          obtain ⟨-, h2⟩ := h
          subst h2
          simp
        · split at h
          · split at h
            · exact absurd h (by simp)
            · rename_i o tr2 hrec
              simp only [Option.some.injEq, Prod.mk.injEq] at h
              obtain ⟨-, h2⟩ := h
              subst h2
              intro x hx
              rcases List.mem_cons.mp hx with hx | hx
              · subst hx
                rw [hnp]
                exact bucketAddr_lt hsp
              · exact ih hrec x hx
          · split at h
            · rename_i hplt
              split at h
              · exact absurd h (by simp)
              · rename_i o tr2 hrec
                simp only [Option.some.injEq, Prod.mk.injEq] at h
                obtain ⟨-, h2⟩ := h
                subst h2
                intro x hx
                rcases List.mem_cons.mp hx with hx | hx
                · subst hx
                  exact hplt
                · exact ih hrec x hx
            · exact ih h

/-- C10: under the relation invariants `sp < 2^depth` and
`npages = 2^depth + sp`, every page id that `startQuery` or `getNextTuple`
passes to `getPage` on the primary data file is strictly below `npages`:
the normal-rule addresses are below `2^depth + sp` by the addressing
arithmetic, and the star-at-bit-`depth` addresses are explicitly gated by
the `p < npages` test. -/
theorem c10_fetch_safety (hf : String → Nat) (r : Reln) (pat : Tuple)
    (hsp : r.sp < 2 ^ r.depth) (hnp : r.npages = 2 ^ r.depth + r.sp) :
    (startQuery hf r pat).2 < r.npages ∧
    (∀ fuel q res tr, gnt r fuel q = some (res, tr) → ∀ x ∈ tr, x < r.npages) := by
  constructor
  · show bucketAddr _ r.depth r.sp < r.npages
    rw [hnp]
    exact bucketAddr_lt (by omega)
  · intro fuel q res tr h
    exact gnt_trace_lt (by omega) hnp h

def relnC10 : Reln := newRelation 1 2 1 [(0, 0)]

theorem c10_fetch_safety_witness :
    (startQuery hfZero relnC10 (["?"] : Tuple)).2 < relnC10.npages :=
  (c10_fetch_safety hfZero relnC10 ["?"] (by decide) (by decide)).1

def relnC5 : Reln := newRelation 1 1 0 []

theorem c5_fetch_bound_witness :
    collectRun relnC5 10 10 (startQuery hfZero relnC5 (["?"] : Tuple)).1 = some ([], []) ∧
    ([] : List Nat).length + 1 ≤ 2 ^ (startQuery hfZero relnC5 (["?"] : Tuple)).1.nstars :=
  ⟨by decide, (c5_fetch_bound hfZero relnC5 ["?"] 10 10 [] [] (by decide)).2.2⟩

/-! ### Page-access and multiset infrastructure -/

theorem getDataPg_set_same {r : Reln} {i : Nat} {pg : Page} (h : i < r.data.length) :
    getDataPg (putDataPg r i pg) i = pg := by
  unfold getDataPg putDataPg
  simp [List.getD_eq_getElem?_getD, List.getElem?_set_self h]

theorem getDataPg_set_ne {r : Reln} {i b : Nat} {pg : Page} (h : i ≠ b) :
    getDataPg (putDataPg r i pg) b = getDataPg r b := by
  unfold getDataPg putDataPg
  simp [List.getD_eq_getElem?_getD, List.getElem?_set_ne h]

theorem getOvPg_set_same {r : Reln} {i : Nat} {pg : Page} (h : i < r.ovflow.length) :
    getOvPg (putOvPg r i pg) i = pg := by
  unfold getOvPg putOvPg
  simp [List.getD_eq_getElem?_getD, List.getElem?_set_self h]

theorem getOvPg_set_ne {r : Reln} {i j : Nat} {pg : Page} (h : i ≠ j) :
    getOvPg (putOvPg r i pg) j = getOvPg r j := by
  unfold getOvPg putOvPg
  simp [List.getD_eq_getElem?_getD, List.getElem?_set_ne h]

theorem getOvPg_putDataPg (r : Reln) (i : Nat) (pg : Page) (j : Nat) :
    getOvPg (putDataPg r i pg) j = getOvPg r j := rfl

theorem getDataPg_putOvPg (r : Reln) (i : Nat) (pg : Page) (b : Nat) :
    getDataPg (putOvPg r i pg) b = getDataPg r b := rfl

theorem getDataPg_lt_mem {r : Reln} {b : Nat} (h : b < r.data.length) :
    getDataPg r b ∈ r.data := by
  unfold getDataPg
  rw [List.getD_eq_getElem?_getD, List.getElem?_eq_getElem h]
  exact List.getElem_mem h

theorem getOvPg_lt_mem {r : Reln} {j : Nat} (h : j < r.ovflow.length) :
    getOvPg r j ∈ r.ovflow := by
  unfold getOvPg
  rw [List.getD_eq_getElem?_getD, List.getElem?_eq_getElem h]
  exact List.getElem_mem h

theorem getDataPg_ge {r : Reln} {b : Nat} (h : r.data.length ≤ b) :
    getDataPg r b = emptyPage := by
  unfold getDataPg
  rw [List.getD_eq_getElem?_getD, List.getElem?_eq_none (by omega)]
  rfl

theorem getOvPg_ge {r : Reln} {j : Nat} (h : r.ovflow.length ≤ j) :
    getOvPg r j = emptyPage := by
  unfold getOvPg
  rw [List.getD_eq_getElem?_getD, List.getElem?_eq_none (by omega)]
  rfl

theorem pagesM_nil : pagesM [] = 0 := rfl

theorem pagesM_cons (x : Page) (xs : List Page) :
    pagesM (x :: xs) = (x.tuples : Multiset Tuple) + pagesM xs := by
  unfold pagesM
  simp

theorem pagesM_append (l : List Page) (pg : Page) :
    pagesM (l ++ [pg]) = pagesM l + (pg.tuples : Multiset Tuple) := by
  unfold pagesM
  simp

theorem pagesM_set : ∀ {l : List Page} {j : Nat}, j < l.length → ∀ pg : Page,
    pagesM (l.set j pg) + ((l.getD j emptyPage).tuples : Multiset Tuple) =
    pagesM l + (pg.tuples : Multiset Tuple) := by
  intro l
  induction l with
  | nil => intro j h; simp at h
  | cons x xs ih =>
    intro j h pg
    cases j with
    | zero =>
      simp only [List.set_cons_zero, List.getD_cons_zero, pagesM_cons]
      abel
    | succ j =>
      simp only [List.set_cons_succ, List.getD_cons_succ, pagesM_cons]
      have := ih (by simpa using h) pg
      rw [add_assoc, add_comm (pagesM (xs.set j pg)) _, add_comm (pagesM xs) _] at *
      rw [add_assoc, this]
      abel

theorem filter_range_eq_nil {n : Nat} {p : Nat → Bool} (h : ∀ b < n, p b = false) :
    (List.range n).filter p = [] := by
  apply List.filter_eq_nil_iff.mpr
  intro a ha
  rw [List.mem_range] at ha
  simp [h a ha]

theorem filter_range_eq_singleton : ∀ {n : Nat} {p : Nat → Bool} {b0 : Nat},
    b0 < n → (∀ b < n, p b = true ↔ b = b0) →
    (List.range n).filter p = [b0] := by
  intro n
  induction n with
  | zero => intro p b0 hb h; omega
  | succ n ih =>
    intro p b0 hb h
    rw [List.range_succ, List.filter_append]
    by_cases hb0 : b0 = n
    · have h1 : (List.range n).filter p = [] := by
        apply filter_range_eq_nil
        intro b hbn
        by_contra hbp
        rw [Bool.not_eq_false] at hbp
        have := (h b (by omega)).mp hbp
        omega
      have h2 : p n = true := (h n (by omega)).mpr (by omega)
      rw [h1]
      simp [h2, hb0]
    · have h1 : p n = false := by
        by_contra hbp
        rw [Bool.not_eq_false] at hbp
        have := (h n (by omega)).mp hbp
        omega
      rw [ih (by omega) (fun b hbn => h b (by omega))]
      simp [h1]

/-! ### Chain machinery -/

theorem chainFrom_none (r : Reln) (fuel : Nat) : chainFrom r fuel none = [] := by
  cases fuel <;> rfl

theorem chainFrom_mem_bounds {r : Reln} (hL : LinksOk r) :
    ∀ {fuel j x : Nat}, j < r.ovflow.length → x ∈ chainFrom r fuel (some j) →
    j ≤ x ∧ x < r.ovflow.length := by
  intro fuel
  induction fuel with
  | zero => intro j x hj hx; simp [chainFrom] at hx
  | succ n ih =>
    intro j x hj hx
    unfold chainFrom at hx
    rcases List.mem_cons.mp hx with hx | hx
    · omega
    · cases ho : (getOvPg r j).ov with
      | none => rw [ho, chainFrom_none] at hx; simp at hx
      | some k =>
        rw [ho] at hx
        obtain ⟨hjk, hk⟩ := hL.2 j hj k (by simp [ho])
        have := ih hk hx
        omega

theorem chainFrom_nodup {r : Reln} (hL : LinksOk r) :
    ∀ {fuel j : Nat}, j < r.ovflow.length → (chainFrom r fuel (some j)).Nodup := by
  intro fuel
  induction fuel with
  | zero => intro j hj; simp [chainFrom]
  | succ n ih =>
    intro j hj
    unfold chainFrom
    rw [List.nodup_cons]
    cases ho : (getOvPg r j).ov with
    | none => simp [chainFrom_none]
    | some k =>
      obtain ⟨hjk, hk⟩ := hL.2 j hj k (by simp [ho])
      refine ⟨fun hmem => ?_, ih hk⟩
      have := chainFrom_mem_bounds hL hk hmem
      omega

theorem chainFrom_ext {r : Reln} (hL : LinksOk r) :
    ∀ {f1 f2 j : Nat}, j < r.ovflow.length →
    r.ovflow.length - j ≤ f1 → r.ovflow.length - j ≤ f2 →
    chainFrom r f1 (some j) = chainFrom r f2 (some j) := by
  intro f1
  induction f1 with
  | zero => intro f2 j hj h1 h2; omega
  | succ a ih =>
    intro f2 j hj h1 h2
    cases f2 with
    | zero => omega
    | succ b =>
      show j :: chainFrom r a (getOvPg r j).ov = j :: chainFrom r b (getOvPg r j).ov
      cases ho : (getOvPg r j).ov with
      | none => rw [chainFrom_none, chainFrom_none]
      | some k =>
        obtain ⟨hjk, hk⟩ := hL.2 j hj k (by simp [ho])
        rw [@ih b k hk (by omega) (by omega)]

theorem chainFrom_cons {r : Reln} (hL : LinksOk r) {j : Nat} (hj : j < r.ovflow.length) :
    chainFrom r r.ovflow.length (some j) = j :: chainFrom r r.ovflow.length ((getOvPg r j).ov) := by
  have hlen : r.ovflow.length = (r.ovflow.length - 1) + 1 := by omega
  conv_lhs => rw [hlen]
  show j :: chainFrom r (r.ovflow.length - 1) (getOvPg r j).ov = _
  cases ho : (getOvPg r j).ov with
  | none => rw [chainFrom_none, chainFrom_none]
  | some k =>
    obtain ⟨hjk, hk⟩ := hL.2 j hj k (by simp [ho])
    rw [@chainFrom_ext r hL (r.ovflow.length - 1) r.ovflow.length k hk (by omega) (by omega)]

theorem chainFrom_next_mem {r : Reln} (hL : LinksOk r) :
    ∀ {n j0 x k : Nat}, r.ovflow.length - j0 ≤ n → j0 < r.ovflow.length →
    x ∈ chainFrom r r.ovflow.length (some j0) → (getOvPg r x).ov = some k →
    k ∈ chainFrom r r.ovflow.length (some j0) := by
  intro n
  induction n with
  | zero => intro j0 x k hn hj0; omega
  | succ n ih =>
    intro j0 x k hn hj0 hx hk
    rw [chainFrom_cons hL hj0] at hx ⊢
    rcases List.mem_cons.mp hx with hx1 | hx1
    · have hkj0 : (getOvPg r j0).ov = some k := by rw [← hx1]; exact hk
      rw [hkj0]
      refine List.mem_cons_of_mem _ ?_
      rw [chainFrom_cons hL (hL.2 j0 hj0 k (by simp [hkj0])).2]
      exact List.mem_cons_self _ _
    · cases ho : (getOvPg r j0).ov with
      | none => rw [ho, chainFrom_none] at hx1; simp at hx1
      | some k0 =>
        rw [ho] at hx1
        obtain ⟨hjk0, hk0⟩ := hL.2 j0 hj0 k0 (by simp [ho])
        exact List.mem_cons_of_mem _ (@ih k0 x k (by omega) hk0 hx1 hk)

theorem chainFrom_mem_inv {r : Reln} :
    ∀ {fuel : Nat} {o : Option Nat} {x : Nat}, x ∈ chainFrom r fuel o →
    o = some x ∨ ∃ i ∈ chainFrom r fuel o, (getOvPg r i).ov = some x := by
  intro fuel
  induction fuel with
  | zero => intro o x hx; cases o <;> simp [chainFrom] at hx
  | succ n ih =>
    intro o x hx
    cases o with
    | none => simp [chainFrom] at hx
    | some j =>
      unfold chainFrom at hx ⊢
      rcases List.mem_cons.mp hx with hx | hx
      · exact Or.inl (by rw [hx])
      · rcases ih hx with hnext | ⟨i, hi, hio⟩
        · exact Or.inr ⟨j, List.mem_cons_self _ _, hnext⟩
        · exact Or.inr ⟨i, List.mem_cons_of_mem _ hi, hio⟩

theorem bucketChain_mem_lt {r : Reln} (hL : LinksOk r) {b x : Nat}
    (hx : x ∈ bucketChain r b) : x < r.ovflow.length := by
  unfold bucketChain at hx
  cases ho : (getDataPg r b).ov with
  | none => rw [ho, chainFrom_none] at hx; simp at hx
  | some j =>
    rw [ho] at hx
    by_cases hb : b < r.data.length
    · have hj := hL.1 b hb j (by simp [ho])
      exact (chainFrom_mem_bounds hL hj hx).2
    · rw [getDataPg_ge (by omega)] at ho
      simp [emptyPage] at ho

theorem bucketChain_mem_data_lt {r : Reln} {b x : Nat}
    (hx : x ∈ bucketChain r b) : b < r.data.length := by
  by_contra hb
  unfold bucketChain at hx
  rw [getDataPg_ge (by omega)] at hx
  simp [emptyPage, chainFrom_none] at hx

/-- Each overflow page belongs to the chain of exactly one bucket. -/
theorem chain_root_exists_unique {r : Reln} (hL : LinksOk r) (hD : InDegOne r) :
    ∀ j < r.ovflow.length, ∃ b, b < r.data.length ∧ j ∈ bucketChain r b ∧
      ∀ b', j ∈ bucketChain r b' → b' = b := by
  intro j
  induction j using Nat.strong_induction_on with
  | _ j ih =>
    intro hj
    have hsum := hD j hj
    rcases Nat.add_eq_one_iff.mp hsum with ⟨hDl, hOl⟩ | ⟨hDl, hOl⟩
    · -- the unique predecessor is an overflow page i0
      obtain ⟨i0, hi0⟩ := List.length_eq_one.mp hOl
      have hi0mem : i0 ∈ predsO r j := by rw [hi0]; exact List.mem_singleton_self _
      unfold predsO at hi0mem
      rw [List.mem_filter, List.mem_range] at hi0mem
      obtain ⟨hi0lt, hi0ov⟩ := hi0mem
      rw [beq_iff_eq] at hi0ov
      have hi0j : i0 < j := (hL.2 i0 hi0lt j (by simp [hi0ov])).1
      obtain ⟨b, hb, hbmem, hbuniq⟩ := ih i0 hi0j hi0lt
      refine ⟨b, hb, ?_, ?_⟩
      · -- j is in b's chain, one step after i0
        unfold bucketChain at hbmem ⊢
        cases ho : (getDataPg r b).ov with
        | none => rw [ho, chainFrom_none] at hbmem; simp at hbmem
        | some j0 =>
          rw [ho] at hbmem
          have hj0 := hL.1 b hb j0 (by simp [ho])
          exact @chainFrom_next_mem r hL (r.ovflow.length - j0) j0 i0 j (by omega) hj0 hbmem hi0ov
      · intro b' hmem'
        rcases chainFrom_mem_inv hmem' with hhead | ⟨i, hi, hio⟩
        · -- b' links directly to j: contradicts predsD = []
          exfalso
          have hb' : b' < r.data.length := bucketChain_mem_data_lt (by
            unfold bucketChain; rw [hhead]
            rw [chainFrom_cons hL hj]
            exact List.mem_cons_self _ _)
          have : b' ∈ predsD r j := by
            unfold predsD
            rw [List.mem_filter, List.mem_range]
            exact ⟨hb', by simp [hhead]⟩
          rw [List.length_eq_zero] at hDl
          rw [hDl] at this
          simp at this
        · -- the in-chain predecessor i must be i0
          have hilt : i < r.ovflow.length := bucketChain_mem_lt hL hi
          have : i ∈ predsO r j := by
            unfold predsO
            rw [List.mem_filter, List.mem_range]
            exact ⟨hilt, by simp [hio]⟩
          rw [hi0] at this
          rw [List.mem_singleton] at this
          subst this
          exact hbuniq b' hi
    · -- the unique predecessor is a data page b0
      obtain ⟨b0, hb0⟩ := List.length_eq_one.mp hDl
      have hb0mem : b0 ∈ predsD r j := by rw [hb0]; exact List.mem_singleton_self _
      unfold predsD at hb0mem
      rw [List.mem_filter, List.mem_range] at hb0mem
      obtain ⟨hb0lt, hb0ov⟩ := hb0mem
      rw [beq_iff_eq] at hb0ov
      refine ⟨b0, hb0lt, ?_, ?_⟩
      · unfold bucketChain
        rw [hb0ov, chainFrom_cons hL hj]
        exact List.mem_cons_self _ _
      · intro b' hmem'
        rcases chainFrom_mem_inv hmem' with hhead | ⟨i, hi, hio⟩
        · have hb' : b' < r.data.length := bucketChain_mem_data_lt hmem'
          have : b' ∈ predsD r j := by
            unfold predsD
            rw [List.mem_filter, List.mem_range]
            exact ⟨hb', by simp [hhead]⟩
          rw [hb0] at this
          rw [List.mem_singleton] at this
          exact this
        · exfalso
          have hilt : i < r.ovflow.length := bucketChain_mem_lt hL hi
          have : i ∈ predsO r j := by
            unfold predsO
            rw [List.mem_filter, List.mem_range]
            exact ⟨hilt, by simp [hio]⟩
          rw [List.length_eq_zero] at hOl
          rw [hOl] at this
          simp at this

theorem sum_map_eq_one_of_unique {f : Nat → Nat} :
    ∀ {l : List Nat} {b0 : Nat}, l.Nodup → b0 ∈ l → f b0 = 1 →
    (∀ b ∈ l, b ≠ b0 → f b = 0) → (l.map f).sum = 1 := by
  intro l
  induction l with
  | nil => intro b0 hnd hmem; simp at hmem
  | cons x xs ih =>
    intro b0 hnd hmem h1 h0
    rw [List.nodup_cons] at hnd
    rcases List.mem_cons.mp hmem with hx | hx
    · subst hx
      have hz : ∀ b ∈ xs, f b = 0 := by
        intro b hb
        exact h0 b (List.mem_cons_of_mem _ hb) (fun he => hnd.1 (he ▸ hb))
      have : (xs.map f).sum = 0 := by
        rw [List.sum_eq_zero]
        intro y hy
        rw [List.mem_map] at hy
        obtain ⟨b, hb, hfb⟩ := hy
        rw [← hfb]
        exact hz b hb
      simp [h1, this]
    · have hxz : f x = 0 := h0 x (List.mem_cons_self _ _) (fun he => hnd.1 (he ▸ hx))
      have := ih hnd.2 hx h1 (fun b hb hne => h0 b (List.mem_cons_of_mem _ hb) hne)
      simp [hxz, this]

theorem sum_map_eq_zero_of_all {f : Nat → Nat} {l : List Nat}
    (h : ∀ b ∈ l, f b = 0) : (l.map f).sum = 0 := by
  rw [List.sum_eq_zero]
  intro y hy
  rw [List.mem_map] at hy
  obtain ⟨b, hb, hfb⟩ := hy
  rw [← hfb]
  exact h b hb

/-- The bucket chains partition the overflow page ids. -/
theorem bucketChains_perm {r : Reln} (hL : LinksOk r) (hD : InDegOne r) :
    (((List.range r.data.length).map (bucketChain r)).flatten).Perm
      (List.range r.ovflow.length) := by
  rw [List.perm_iff_count]
  intro x
  rw [List.count_flatten, List.map_map]
  by_cases hx : x < r.ovflow.length
  · obtain ⟨b, hb, hmem, huniq⟩ := chain_root_exists_unique hL hD x hx
    have hcnt : (List.count x ∘ bucketChain r) b = 1 := by
      show List.count x (bucketChain r b) = 1
      apply List.count_eq_one_of_mem _ hmem
      unfold bucketChain
      cases ho : (getDataPg r b).ov with
      | none => rw [chainFrom_none]; exact List.nodup_nil
      | some j0 => exact chainFrom_nodup hL (hL.1 b hb j0 (by simp [ho]))
    have hrest : ∀ b' ∈ List.range r.data.length, b' ≠ b →
        (List.count x ∘ bucketChain r) b' = 0 := by
      intro b' hb' hne
      show List.count x (bucketChain r b') = 0
      rw [List.count_eq_zero]
      intro hmem'
      exact hne (huniq b' hmem')
    rw [sum_map_eq_one_of_unique (List.nodup_range _) (List.mem_range.mpr hb) hcnt hrest]
    exact (List.count_eq_one_of_mem (List.nodup_range _) (List.mem_range.mpr hx)).symm
  · have hz : ∀ b ∈ List.range r.data.length, (List.count x ∘ bucketChain r) b = 0 := by
      intro b hb
      show List.count x (bucketChain r b) = 0
      rw [List.count_eq_zero]
      intro hmem
      exact hx (bucketChain_mem_lt hL hmem)
    rw [sum_map_eq_zero_of_all hz]
    symm
    rw [List.count_eq_zero]
    intro hmem
    rw [List.mem_range] at hmem
    omega

theorem map_range_getD {α : Type} : ∀ (l : List α) (d : α),
    (List.range l.length).map (fun j => l.getD j d) = l := by
  intro l
  induction l with
  | nil => intro d; rfl
  | cons x xs ih =>
    intro d
    rw [List.length_cons, List.range_succ_eq_map, List.map_cons, List.map_map]
    show x :: _ = x :: xs
    congr 1
    have : ((fun j => (x :: xs).getD j d) ∘ Nat.succ) = fun j => xs.getD j d := by
      funext j
      simp [List.getD_cons_succ]
    rw [this, ih]

theorem sum_map_add_distrib {α : Type} (l : List α) (f g : α → Nat) :
    (l.map (fun b => f b + g b)).sum = (l.map f).sum + (l.map g).sum := by
  induction l with
  | nil => rfl
  | cons x xs ih => simp [ih]; omega

theorem flatten_map_append_perm {α β : Type} [DecidableEq β] (l : List α) (f g : α → List β) :
    ((l.map (fun b => f b ++ g b)).flatten).Perm ((l.map f).flatten ++ (l.map g).flatten) := by
  rw [List.perm_iff_count]
  intro a
  rw [List.count_append, List.count_flatten, List.count_flatten, List.count_flatten,
      List.map_map, List.map_map, List.map_map]
  have hpt : ∀ b ∈ l, (List.count a ∘ fun b => f b ++ g b) b =
      (fun b => (List.count a ∘ f) b + (List.count a ∘ g) b) b := by
    intro b _
    simp [List.count_append]
  rw [List.map_congr_left hpt, sum_map_add_distrib]

/-- Scanning every bucket (primary page then its chain) yields exactly the
content of the two files, up to order. -/
theorem allBuckets_perm {r : Reln} (hL : LinksOk r) (hD : InDegOne r)
    (hdl : r.data.length = r.npages) :
    (allBuckets r).Perm
      ((r.data.map Page.tuples).flatten ++ (r.ovflow.map Page.tuples).flatten) := by
  unfold allBuckets bucketTuples
  rw [← hdl]
  have h1 := flatten_map_append_perm (List.range r.data.length)
    (fun b => (getDataPg r b).tuples)
    (fun b => ((bucketChain r b).map (fun j => (getOvPg r j).tuples)).flatten)
  refine h1.trans (List.Perm.append ?_ ?_)
  · have : (List.range r.data.length).map (fun b => (getDataPg r b).tuples) =
        r.data.map Page.tuples := by
      unfold getDataPg
      have : (List.range r.data.length).map (fun b => (r.data.getD b emptyPage).tuples) =
          ((List.range r.data.length).map (fun b => r.data.getD b emptyPage)).map Page.tuples := by
        rw [List.map_map]
        rfl
      rw [this, map_range_getD]
    rw [this]
  · -- the chain part: flatten of per-bucket chains, mapped to page tuples
    have hstep : ((List.range r.data.length).map
          (fun b => ((bucketChain r b).map (fun j => (getOvPg r j).tuples)).flatten)).flatten =
        ((((List.range r.data.length).map (bucketChain r)).flatten).map
          (fun j => (getOvPg r j).tuples)).flatten := by
      conv_rhs => rw [List.map_flatten, List.map_map, List.flatten_flatten, List.map_map]
      congr 1
    rw [hstep]
    have hperm := (bucketChains_perm hL hD).map (fun j => (getOvPg r j).tuples)
    refine hperm.flatten.trans ?_
    have : (List.range r.ovflow.length).map (fun j => (getOvPg r j).tuples) =
        r.ovflow.map Page.tuples := by
      unfold getOvPg
      have : (List.range r.ovflow.length).map (fun j => (r.ovflow.getD j emptyPage).tuples) =
          ((List.range r.ovflow.length).map (fun j => r.ovflow.getD j emptyPage)).map Page.tuples := by
        rw [List.map_map]
        rfl
      rw [this, map_range_getD]
    rw [this]

/-! ### Full-wildcard query simulation -/

theorem mod_pow_succ_testBit (b n : Nat) :
    b % 2 ^ (n + 1) = if b.testBit n then b % 2 ^ n + 2 ^ n else b % 2 ^ n := by
  have hpos : 0 < 2 ^ n := Nat.pos_pow_of_pos n (by omega)
  have h2 : 2 ^ (n + 1) = 2 ^ n * 2 := by rw [pow_succ]
  have hdiv : b % 2 ^ (n + 1) / 2 ^ n = b / 2 ^ n % 2 := by
    rw [h2]
    exact Nat.mod_mul_right_div_self b (2 ^ n) 2
  have hmod : b % 2 ^ (n + 1) % 2 ^ n = b % 2 ^ n :=
    Nat.mod_mod_of_dvd b (pow_dvd_pow 2 (Nat.le_succ n))
  have hrec : 2 ^ n * (b % 2 ^ (n + 1) / 2 ^ n) + b % 2 ^ (n + 1) % 2 ^ n = b % 2 ^ (n + 1) :=
    Nat.div_add_mod _ _
  have hb : b.testBit n = decide (b / 2 ^ n % 2 = 1) := Nat.testBit_to_div_mod
  rcases ht : b.testBit n with - | -
  · rw [if_neg (by simp)]
    rw [ht] at hb
    have h20 : b / 2 ^ n % 2 = 0 := by
      rcases Nat.mod_two_eq_zero_or_one (b / 2 ^ n) with h0 | h1
      · exact h0
      · rw [h1] at hb
        simp at hb
    rw [h20] at hdiv
    rw [hdiv] at hrec
    omega
  · rw [if_pos rfl]
    rw [ht] at hb
    have h21 : b / 2 ^ n % 2 = 1 := by
      rcases Nat.mod_two_eq_zero_or_one (b / 2 ^ n) with h0 | h1
      · rw [h0] at hb
        simp at hb
      · exact h1
    rw [h21] at hdiv
    rw [hdiv] at hrec
    omega

theorem computeUnknown_range (n b : Nat) :
    computeUnknown n (List.range n) b = b % 2 ^ n := by
  suffices h : ∀ m sb, (∀ i < m, List.getD sb i 0 = i) →
      (List.range m).foldl (fun u i => if bitIsSet b i then setBit u (sb.getD i 0) else u) 0 =
      b % 2 ^ m by
    exact h n (List.range n) (fun i hi => by
      rw [List.getD_eq_getElem?_getD, List.getElem?_range hi]
      rfl)
  intro m
  induction m with
  | zero => intro sb hsb; simp [Nat.mod_one]
  | succ m ih =>
    intro sb hsb
    rw [List.range_succ, List.foldl_append]
    rw [ih sb (fun i hi => hsb i (by omega))]
    show (if bitIsSet b m then setBit (b % 2 ^ m) (sb.getD m 0) else b % 2 ^ m) = b % 2 ^ (m + 1)
    rw [hsb m (by omega)]
    rw [mod_pow_succ_testBit b m]
    unfold bitIsSet setBit
    rcases ht : b.testBit m with - | -
    · simp
    · simp only [if_pos rfl]
      exact lor_two_pow_of_lt (Nat.mod_lt _ (Nat.pos_pow_of_pos _ (by omega)))

theorem bucketAddr_zero (d sp : Nat) : bucketAddr 0 d sp = 0 := by
  unfold bucketAddr getLower
  simp

theorem bucketsFrom_end {r : Reln} {w m : Nat} (h : m < w) : bucketsFrom r w m = [] := by
  unfold bucketsFrom
  have : m + 1 - w = 0 := by omega
  rw [this]
  rfl

theorem bucketsFrom_cons {r : Reln} {w m : Nat} (h : w ≤ m) :
    bucketsFrom r w m =
      (if w < r.npages then bucketTuples r w else []) ++ bucketsFrom r (w + 1) m := by
  unfold bucketsFrom
  have h1 : m + 1 - w = (m - w) + 1 := by omega
  have h2 : m + 1 - (w + 1) = m - w := by omega
  rw [h1, h2, List.range'_succ]
  rw [List.filter_cons]
  rcases hw : decide (w < r.npages) with - | -
  · rw [if_neg (by simp), if_neg (by simpa using hw)]
    rfl
  · rw [if_pos rfl, if_pos (by simpa using hw), List.map_cons, List.flatten_cons]

theorem scanList_all_none {n : Nat} {pat : Tuple} {l : List Tuple} {k : Nat}
    (hall : ∀ t, tupleMatch n pat t = true) (h : scanList n pat l k = none) : l = [] := by
  cases l with
  | nil => rfl
  | cons x xs =>
    unfold scanList at h
    rw [if_pos (hall x)] at h
    simp at h

theorem scanList_all_some {n : Nat} {pat : Tuple} {l : List Tuple} {k k' : Nat} {t : Tuple}
    (hall : ∀ t, tupleMatch n pat t = true) (h : scanList n pat l k = some (t, k')) :
    ∃ xs, l = t :: xs ∧ k' = k + 1 := by
  cases l with
  | nil => simp [scanList] at h
  | cons x xs =>
    unfold scanList at h
    rw [if_pos (hall x)] at h
    simp only [Option.some.injEq, Prod.mk.injEq] at h
    exact ⟨xs, by rw [h.1], by omega⟩

theorem chainTuplesFrom_cons {r : Reln} (hL : LinksOk r) {j : Nat} (hj : j < r.ovflow.length) :
    chainTuplesFrom r (some j) = (getOvPg r j).tuples ++ chainTuplesFrom r (getOvPg r j).ov := by
  unfold chainTuplesFrom
  rw [chainFrom_cons hL hj]
  rfl

theorem chainTuplesFrom_none (r : Reln) : chainTuplesFrom r none = [] := by
  unfold chainTuplesFrom
  rw [chainFrom_none]
  rfl

theorem getD_range_self {n i : Nat} (h : i < n) : (List.range n).getD i 0 = i := by
  rw [List.getD_eq_getElem?_getD, List.getElem?_range h]
  rfl

theorem QShape_mk {r : Reln} {q : Query} (hns : q.nstars = r.depth + 1)
    (hsb : q.starBits = List.range (r.depth + 1)) (hkn : q.known = 0)
    (hmax : q.bitSeqMax = 2 ^ (r.depth + 1) - 1)
    (hall : ∀ t, tupleMatch r.nattrs q.query t = true)
    (hcb : ∀ k ∈ q.curpage.ov, k < r.ovflow.length) (hble : q.bitSeq ≤ q.bitSeqMax) :
    QShape r q := ⟨hns, hsb, hkn, hmax, hall, hcb, hble⟩

theorem gnt_fullwild_step {r : Reln} (hL : LinksOk r) (hdl : r.data.length = r.npages) :
    ∀ {fuel : Nat} {q : Query} {res : Option (Tuple × Query)} {tr : List Nat},
    gnt r fuel q = some (res, tr) → QShape r q →
    (res = none → specRem r q = []) ∧
    (∀ t q', res = some (t, q') → specRem r q = t :: specRem r q' ∧ QShape r q') := by
  intro fuel
  induction fuel with
  | zero => intro q res tr h hQ; simp [gnt] at h
  | succ n ih =>
    intro q res tr h hQ
    obtain ⟨hns, hsb, hkn, hmax, hall, hcb, hble⟩ := hQ
    simp only [gnt] at h
    cases hscan : scanList r.nattrs q.query (List.drop q.scanned q.curpage.tuples) q.scanned with
    | some pr =>
      obtain ⟨t0, k0⟩ := pr
      simp only [hscan, Option.some.injEq, Prod.mk.injEq] at h
      obtain ⟨h1, h2⟩ := h
      subst h2
      obtain ⟨xs, hdrop, hk0⟩ := scanList_all_some hall hscan
      subst hk0
      refine ⟨fun he => by rw [← h1] at he; simp at he, ?_⟩
      intro t q' he
      rw [← h1] at he
      simp only [Option.some.injEq, Prod.mk.injEq] at he
      obtain ⟨he1, he2⟩ := he
      subst he1
      subst he2
      constructor
      · unfold specRem
        simp only
        rw [hdrop]
        have htail : q.curpage.tuples.drop (q.scanned + 1) = xs := by
          rw [← List.tail_drop, hdrop]
          rfl
        rw [htail]
        simp
      · exact QShape_mk hns hsb hkn hmax hall hcb hble
    | none =>
      simp only [hscan] at h
      have hdrop : q.curpage.tuples.drop q.scanned = [] := scanList_all_none hall hscan
      cases hov : q.curpage.ov with
      | some ovid =>
        simp only [hov] at h
        have hlt : ovid < r.ovflow.length := hcb ovid (by simp [hov])
        have hQ2 : QShape r { q with curpage := getOvPg r ovid, scanned := 0 } := by
          refine QShape_mk hns hsb hkn hmax hall ?_ hble
          intro k hk
          exact (hL.2 ovid hlt k hk).2
        have hEq : specRem r q =
            specRem r { q with curpage := getOvPg r ovid, scanned := 0 } := by
          unfold specRem
          simp only [List.drop_zero]
          rw [hdrop, hov, chainTuplesFrom_cons hL hlt]
          simp
        obtain ⟨i1, i2⟩ := ih h hQ2
        refine ⟨fun he => by rw [hEq]; exact i1 he, ?_⟩
        intro t q' he
        obtain ⟨g1, g2⟩ := i2 t q' he
        exact ⟨by rw [hEq]; exact g1, g2⟩
      | none =>
        simp only [hov] at h
        by_cases hbs : q.bitSeq = q.bitSeqMax
        · rw [if_pos hbs] at h
          simp only [Option.some.injEq, Prod.mk.injEq] at h
          obtain ⟨h1, h2⟩ := h
          subst h2
          refine ⟨fun _ => ?_, fun t q' he => by rw [← h1] at he; simp at he⟩
          unfold specRem
          rw [hdrop, hov, chainTuplesFrom_none, bucketsFrom_end (by omega)]
          rfl
        · rw [if_neg hbs] at h
          have hpow : 0 < 2 ^ (r.depth + 1) := Nat.pos_pow_of_pos _ (by omega)
          have hstar : ¬ (q.starBits.getD (q.nstars - 1) 0 ≠ r.depth) := by
            rw [hsb, hns]
            simp only [Nat.add_sub_cancel]
            rw [getD_range_self (by omega)]
            omega
          rw [if_neg hstar] at h
          have hbslt : q.bitSeq + 1 ≤ q.bitSeqMax := by omega
          have hp : getLower (computeUnknown q.nstars q.starBits (q.bitSeq + 1) ||| q.known)
              (r.depth + 1) = q.bitSeq + 1 := by
            rw [hns, hsb, hkn, computeUnknown_range, Nat.or_zero]
            unfold getLower
            rw [Nat.mod_mod_of_dvd _ (dvd_refl _)]
            exact Nat.mod_eq_of_lt (by omega)
          rw [hp] at h
          by_cases hplt : q.bitSeq + 1 < r.npages
          · rw [if_pos hplt] at h
            cases hrec : gnt r n { q with bitSeq := q.bitSeq + 1, unknown := computeUnknown q.nstars q.starBits (q.bitSeq + 1), curpage := getDataPg r (q.bitSeq + 1), scanned := 0 } with
            | none => rw [hrec] at h; simp at h
            | some pr2 =>
              obtain ⟨res2, tr2⟩ := pr2
              rw [hrec] at h
              simp only [Option.some.injEq, Prod.mk.injEq] at h
              obtain ⟨h1, h2⟩ := h
              subst h2
              have hQ2 : QShape r { q with bitSeq := q.bitSeq + 1, unknown := computeUnknown q.nstars q.starBits (q.bitSeq + 1), curpage := getDataPg r (q.bitSeq + 1), scanned := 0 } := by
                refine QShape_mk hns hsb hkn hmax hall ?_ hbslt
                intro k hk
                exact hL.1 (q.bitSeq + 1) (by omega) k hk
              have hEq : specRem r q = specRem r { q with bitSeq := q.bitSeq + 1, unknown := computeUnknown q.nstars q.starBits (q.bitSeq + 1), curpage := getDataPg r (q.bitSeq + 1), scanned := 0 } := by
                unfold specRem
                simp only [List.drop_zero]
                rw [hdrop, hov, chainTuplesFrom_none, bucketsFrom_cons hbslt, if_pos hplt]
                unfold bucketTuples bucketChain chainTuplesFrom
                simp
              obtain ⟨i1, i2⟩ := ih hrec hQ2
              refine ⟨fun he => by rw [← h1] at he; rw [hEq]; exact i1 he, ?_⟩
              intro t q' he
              rw [← h1] at he
              obtain ⟨g1, g2⟩ := i2 t q' he
              exact ⟨by rw [hEq]; exact g1, g2⟩
          · rw [if_neg hplt] at h
            have hQ2 : QShape r { q with bitSeq := q.bitSeq + 1, unknown := computeUnknown q.nstars q.starBits (q.bitSeq + 1) } := by
              refine QShape_mk hns hsb hkn hmax hall hcb hbslt
            have hEq : specRem r q = specRem r { q with bitSeq := q.bitSeq + 1, unknown := computeUnknown q.nstars q.starBits (q.bitSeq + 1) } := by
              unfold specRem
              simp only
              rw [hdrop, hov, chainTuplesFrom_none, bucketsFrom_cons hbslt, if_neg hplt]
              simp [hdrop, hov, chainTuplesFrom_none]
            obtain ⟨i1, i2⟩ := ih h hQ2
            refine ⟨fun he => by rw [hEq]; exact i1 he, ?_⟩
            intro t q' he
            obtain ⟨g1, g2⟩ := i2 t q' he
            exact ⟨by rw [hEq]; exact g1, g2⟩

theorem collect_fullwild {r : Reln} (hL : LinksOk r) (hdl : r.data.length = r.npages)
    {gfuel : Nat} : ∀ {n : Nat} {q : Query} {l : List Tuple} {tr : List Nat},
    collectRun r gfuel n q = some (l, tr) → QShape r q → l = specRem r q := by
  intro n
  induction n with
  | zero => intro q l tr h hQ; simp [collectRun] at h
  | succ n ih =>
    intro q l tr h hQ
    unfold collectRun at h
    cases hg : gnt r gfuel q with
    | none => rw [hg] at h; simp at h
    | some pr =>
      obtain ⟨res, tr1⟩ := pr
      simp only [hg] at h
      cases res with
      | none =>
        simp only [Option.some.injEq, Prod.mk.injEq] at h
        obtain ⟨h1, -⟩ := h
        rw [← h1]
        exact ((gnt_fullwild_step hL hdl hg hQ).1 rfl).symm
      | some pr2 =>
        obtain ⟨t, q1⟩ := pr2
        cases hc : collectRun r gfuel n q1 with
        | none => simp only [hc] at h; simp at h
        | some pr3 =>
          obtain ⟨ts, tr2⟩ := pr3
          simp only [hc] at h
          simp only [Option.some.injEq, Prod.mk.injEq] at h
          obtain ⟨h1, -⟩ := h
          obtain ⟨hspec, hQ1⟩ := (gnt_fullwild_step hL hdl hg hQ).2 t q1 rfl
          rw [← h1, hspec, ih hc hQ1]

theorem getD_replicate_lt {n i : Nat} {a d : String} (h : i < n) :
    (List.replicate n a).getD i d = a := by
  rw [List.getD_eq_getElem?_getD, List.getElem?_replicate]
  rw [if_pos h]
  rfl

theorem tupleMatch_all_wild (n : Nat) (t : Tuple) :
    tupleMatch n (List.replicate n "?") t = true := by
  unfold tupleMatch
  rw [List.all_eq_true]
  intro i hi
  rw [List.mem_range] at hi
  rw [getD_replicate_lt hi]
  simp

theorem startQuery_fold (hf : String → Nat) (r : Reln) (pat : Tuple) :
    ∀ m : Nat, (∀ i < m, pat.getD ((r.cv.getD i (0, 0)).1) "" = "?") →
    (List.range m).foldl
      (fun (acc : Nat × List Nat) i =>
        let it := r.cv.getD i (0, 0)
        if pat.getD it.1 "" == "?" then (acc.1, acc.2 ++ [i])
        else if bitIsSet (hf (pat.getD it.1 "")) it.2 then (setBit acc.1 i, acc.2)
        else (acc.1, acc.2))
      (0, []) = (0, List.range m) := by
  intro m
  induction m with
  | zero => intro h; rfl
  | succ m ih =>
    intro h
    rw [List.range_succ, List.foldl_append, ih (fun i hi => h i (by omega))]
    show (if pat.getD ((r.cv.getD m (0, 0)).1) "" == "?" then _ else _) = _
    rw [h m (by omega)]
    simp [List.range_succ]

theorem filter_lt_range {k n : Nat} (h : n ≤ k) :
    (List.range k).filter (fun v => v < n) = List.range n := by
  induction k with
  | zero =>
    have : n = 0 := by omega
    subst this
    rfl
  | succ k ih =>
    rw [List.range_succ, List.filter_append]
    by_cases hn : n = k + 1
    · subst hn
      rw [List.filter_eq_self.mpr (fun a ha => by
        rw [List.mem_range] at ha
        simp
        omega)]
      simp [List.range_succ]
    · rw [ih (by omega)]
      have : ¬ (k < n) := by omega
      simp [this]

theorem startQuery_fullwild (hf : String → Nat) (r : Reln)
    (hcv : ∀ i < r.depth + 1, (r.cv.getD i (0, 0)).1 < r.nattrs) :
    startQuery hf r (List.replicate r.nattrs "?") = (fullWildStart r, 0) := by
  have hpat : ∀ i < r.depth + 1,
      (List.replicate r.nattrs "?").getD ((r.cv.getD i (0, 0)).1) "" = "?" := by
    intro i hi
    exact getD_replicate_lt (hcv i hi)
  have hfold := startQuery_fold hf r (List.replicate r.nattrs "?") (r.depth + 1) hpat
  unfold startQuery fullWildStart
  rw [hfold]
  simp only [List.length_range, foldl_setBit_range, computeUnknown_range, Nat.zero_mod,
    Nat.or_zero, bucketAddr_zero]

theorem QShape_start {r : Reln} (hL : LinksOk r) (hdl : r.data.length = r.npages)
    (hnp0 : 0 < r.npages) :
    QShape r (fullWildStart r) := by
  unfold fullWildStart
  refine ⟨rfl, rfl, rfl, rfl, fun t => tupleMatch_all_wild _ t, ?_, by simp⟩
  intro k hk
  exact hL.1 0 (by omega) k hk

theorem specRem_start {r : Reln} (hnp0 : 0 < r.npages)
    (hbound : r.npages ≤ 2 ^ (r.depth + 1)) :
    specRem r (fullWildStart r) = allBuckets r := by
  unfold specRem fullWildStart
  simp only [List.drop_zero]
  have hm : 0 ≤ 2 ^ (r.depth + 1) - 1 := by omega
  have hall : allBuckets r = bucketsFrom r 0 (2 ^ (r.depth + 1) - 1) := by
    unfold allBuckets bucketsFrom
    have h1 : 2 ^ (r.depth + 1) - 1 + 1 - 0 = 2 ^ (r.depth + 1) := by
      have := Nat.pos_pow_of_pos (r.depth + 1) (show 0 < 2 by omega)
      omega
    rw [h1]
    have h2 : List.range' 0 (2 ^ (r.depth + 1)) = List.range (2 ^ (r.depth + 1)) := by
      rw [List.range_eq_range']
    rw [h2, filter_lt_range hbound]
  rw [hall, bucketsFrom_cons hm, if_pos hnp0]
  unfold bucketTuples bucketChain chainTuplesFrom
  simp

/-- A full-wildcard query run to exhaustion returns exactly the stored
content of the relation, up to order. -/
theorem fullwild_query_content {r : Reln} (hf : String → Nat)
    (hL : LinksOk r) (hD : InDegOne r) (hdl : r.data.length = r.npages)
    (hnp0 : 0 < r.npages) (hbound : r.npages ≤ 2 ^ (r.depth + 1))
    (hcv : ∀ i < r.depth + 1, (r.cv.getD i (0, 0)).1 < r.nattrs)
    {gfuel n : Nat} {l : List Tuple} {tr : List Nat}
    (h : collectRun r gfuel n (startQuery hf r (List.replicate r.nattrs "?")).1 = some (l, tr)) :
    (l : Multiset Tuple) = allTuplesM r := by
  rw [startQuery_fullwild hf r hcv] at h
  have hl := collect_fullwild hL hdl h (QShape_start hL hdl hnp0)
  rw [specRem_start hnp0 hbound] at hl
  subst hl
  have hperm := allBuckets_perm hL hD hdl
  unfold allTuplesM pagesM
  rw [Multiset.coe_eq_coe.mpr ?_]
  · show (↑((r.data.map Page.tuples).flatten ++ (r.ovflow.map Page.tuples).flatten) :
      Multiset Tuple) = _
    rw [Multiset.coe_add]
  · exact hperm

/-! ### Preservation of well-formedness by the insert engine -/

theorem addToPage_empty_of_fit {t : Tuple} (h : tupLen t ≤ DATACAP) :
    addToPage emptyPage t = some ⟨[t], none⟩ := by
  unfold addToPage
  rw [if_pos (by simpa [emptyPage, pageUsed] using h)]
  rfl

theorem set_ge_eq {r : Reln} {p : Nat} {pg : Page} (h : r.data.length ≤ p) :
    putDataPg r p pg = r := by
  unfold putDataPg
  rw [List.set_eq_of_length_le h]

theorem getDataPg_set_ov {r : Reln} {p : Nat} {pg' : Page}
    (hov : pg'.ov = (getDataPg r p).ov) :
    ∀ b, (getDataPg (putDataPg r p pg') b).ov = (getDataPg r b).ov := by
  intro b
  by_cases hb : p = b
  · subst hb
    by_cases hp : p < r.data.length
    · rw [getDataPg_set_same hp, hov]
    · rw [set_ge_eq (by omega)]
  · rw [getDataPg_set_ne hb]

theorem setOv_ge_eq {r : Reln} {j : Nat} {pg : Page} (h : r.ovflow.length ≤ j) :
    putOvPg r j pg = r := by
  unfold putOvPg
  rw [List.set_eq_of_length_le h]

theorem getOvPg_set_ov {r : Reln} {j0 : Nat} {pg' : Page}
    (hov : pg'.ov = (getOvPg r j0).ov) :
    ∀ j, (getOvPg (putOvPg r j0 pg') j).ov = (getOvPg r j).ov := by
  intro j
  by_cases hj : j0 = j
  · subst hj
    by_cases hp : j0 < r.ovflow.length
    · rw [getOvPg_set_same hp, hov]
    · rw [setOv_ge_eq (by omega)]
  · rw [getOvPg_set_ne hj]

theorem linksOk_congr {r r' : Reln} (hld : r'.data.length = r.data.length)
    (hlo : r'.ovflow.length = r.ovflow.length)
    (hd : ∀ b, (getDataPg r' b).ov = (getDataPg r b).ov)
    (ho : ∀ j, (getOvPg r' j).ov = (getOvPg r j).ov)
    (hL : LinksOk r) : LinksOk r' := by
  constructor
  · intro b hb k hk
    rw [hd b] at hk
    rw [hlo]
    exact hL.1 b (by omega) k hk
  · intro j hj k hk
    rw [ho j] at hk
    rw [hlo]
    exact hL.2 j (by omega) k hk

theorem preds_congr {r r' : Reln} (hld : r'.data.length = r.data.length)
    (hlo : r'.ovflow.length = r.ovflow.length)
    (hd : ∀ b, (getDataPg r' b).ov = (getDataPg r b).ov)
    (ho : ∀ j, (getOvPg r' j).ov = (getOvPg r j).ov) (k : Nat) :
    predsD r' k = predsD r k ∧ predsO r' k = predsO r k := by
  constructor
  · unfold predsD
    rw [hld]
    apply List.filter_congr
    intro b _
    rw [hd b]
  · unfold predsO
    rw [hlo]
    apply List.filter_congr
    intro j _
    rw [ho j]

theorem inDegOne_congr {r r' : Reln} (hld : r'.data.length = r.data.length)
    (hlo : r'.ovflow.length = r.ovflow.length)
    (hd : ∀ b, (getDataPg r' b).ov = (getDataPg r b).ov)
    (ho : ∀ j, (getOvPg r' j).ov = (getOvPg r j).ov)
    (hD : InDegOne r) : InDegOne r' := by
  intro k hk
  obtain ⟨h1, h2⟩ := preds_congr hld hlo hd ho k
  rw [h1, h2]
  exact hD k (by omega)

theorem sizeOk_set_data {r : Reln} {p : Nat} {pg' : Page} (hsz : SizeOk r)
    (hpg : ∀ t ∈ pg'.tuples, tupLen t ≤ DATACAP) : SizeOk (putDataPg r p pg') := by
  constructor
  · intro pg hpgm t ht
    simp only [putDataPg_data] at hpgm
    rcases List.mem_or_eq_of_mem_set hpgm with hm | hm
    · exact hsz.1 pg hm t ht
    · subst hm
      exact hpg t ht
  · intro pg hpgm t ht
    exact hsz.2 pg (by simpa using hpgm) t ht

theorem sizeOk_set_ov {r : Reln} {j : Nat} {pg' : Page} (hsz : SizeOk r)
    (hpg : ∀ t ∈ pg'.tuples, tupLen t ≤ DATACAP) : SizeOk (putOvPg r j pg') := by
  constructor
  · intro pg hpgm t ht
    exact hsz.1 pg (by simpa using hpgm) t ht
  · intro pg hpgm t ht
    simp only [putOvPg_ovflow] at hpgm
    rcases List.mem_or_eq_of_mem_set hpgm with hm | hm
    · exact hsz.2 pg hm t ht
    · subst hm
      exact hpg t ht

theorem allTuplesM_set_data {r : Reln} {p : Nat} (hp : p < r.data.length) (pg : Page) :
    allTuplesM (putDataPg r p pg) + ((getDataPg r p).tuples : Multiset Tuple) =
    allTuplesM r + (pg.tuples : Multiset Tuple) := by
  unfold allTuplesM getDataPg
  simp only [putDataPg_data, putDataPg_ovflow]
  have := pagesM_set hp pg
  rw [add_right_comm, this]
  abel

theorem allTuplesM_set_ov {r : Reln} {j : Nat} (hj : j < r.ovflow.length) (pg : Page) :
    allTuplesM (putOvPg r j pg) + ((getOvPg r j).tuples : Multiset Tuple) =
    allTuplesM r + (pg.tuples : Multiset Tuple) := by
  unfold allTuplesM getOvPg
  simp only [putOvPg_data, putOvPg_ovflow]
  have := pagesM_set hj pg
  rw [add_assoc, this]
  abel

theorem allTuplesM_append_ov {r : Reln} (pg : Page) :
    allTuplesM { r with ovflow := r.ovflow ++ [pg] } =
    allTuplesM r + (pg.tuples : Multiset Tuple) := by
  unfold allTuplesM
  simp only
  rw [pagesM_append]
  abel

theorem addToPage_eq {p : Page} {t : Tuple} {pg' : Page} (h : addToPage p t = some pg') :
    pg' = ⟨p.tuples ++ [t], p.ov⟩ := by
  unfold addToPage at h
  split at h
  · exact (Option.some.injEq _ _ ▸ h).symm
  · exact absurd h (by simp)

theorem WF_of_eq_files {r r' : Reln} (hd : r'.data = r.data) (ho : r'.ovflow = r.ovflow)
    (hnp : r'.npages = r.npages) (hdep : r'.depth = r.depth) (hsp : r'.sp = r.sp)
    (hW : WF r) : WF r' := by
  have hgd : ∀ b, getDataPg r' b = getDataPg r b := by
    intro b; unfold getDataPg; rw [hd]
  have hgo : ∀ j, getOvPg r' j = getOvPg r j := by
    intro j; unfold getOvPg; rw [ho]
  obtain ⟨h1, h2, h3, hL, hD, hS⟩ := hW
  refine ⟨by rw [hnp, hdep, hsp, h1], by rw [hdep, hsp]; exact h2, by rw [hd, hnp, h3],
    ?_, ?_, ?_⟩
  · exact linksOk_congr (by rw [hd]) (by rw [ho]) (fun b => by rw [hgd b]) (fun j => by rw [hgo j]) hL
  · exact inDegOne_congr (by rw [hd]) (by rw [ho]) (fun b => by rw [hgd b]) (fun j => by rw [hgo j]) hD
  · exact ⟨fun pg hm t ht => hS.1 pg (hd ▸ hm) t ht, fun pg hm t ht => hS.2 pg (ho ▸ hm) t ht⟩

theorem allTuplesM_of_eq_files {r r' : Reln} (hd : r'.data = r.data) (ho : r'.ovflow = r.ovflow) :
    allTuplesM r' = allTuplesM r := by
  unfold allTuplesM
  rw [hd, ho]

theorem WF_bump {r : Reln} (hW : WF r) : WF (bump r) :=
  WF_of_eq_files (bump_data r) (bump_ovflow r) (bump_npages r) (bump_depth r) (bump_sp r) hW

theorem allTuplesM_bump (r : Reln) : allTuplesM (bump r) = allTuplesM r :=
  allTuplesM_of_eq_files (bump_data r) (bump_ovflow r)

theorem getOv_append_lt {r : Reln} {pg : Page} {j : Nat} (hj : j < r.ovflow.length) :
    getOvPg { r with ovflow := r.ovflow ++ [pg] } j = getOvPg r j := by
  unfold getOvPg
  simp only
  rw [List.getD_eq_getElem?_getD, List.getD_eq_getElem?_getD, List.getElem?_append_left hj]

theorem getOv_append_self {r : Reln} {pg : Page} :
    getOvPg { r with ovflow := r.ovflow ++ [pg] } r.ovflow.length = pg := by
  unfold getOvPg
  simp only
  rw [List.getD_eq_getElem?_getD]
  simp

theorem coe_append_singleton (l : List Tuple) (t : Tuple) :
    ((l ++ [t] : List Tuple) : Multiset Tuple) = (l : Multiset Tuple) + ({t} : Multiset Tuple) := rfl

theorem wf_tupOnly_data {r : Reln} (hW : WF r) {p : Nat} (hp : p < r.data.length)
    {t : Tuple} (hfit : tupLen t ≤ DATACAP) :
    WF (putDataPg r p ⟨(getDataPg r p).tuples ++ [t], (getDataPg r p).ov⟩) ∧
    allTuplesM (putDataPg r p ⟨(getDataPg r p).tuples ++ [t], (getDataPg r p).ov⟩) =
      allTuplesM r + {t} := by
  obtain ⟨h1, h2, h3, hL, hD, hS⟩ := hW
  have hov : (Page.mk ((getDataPg r p).tuples ++ [t]) (getDataPg r p).ov).ov = (getDataPg r p).ov := rfl
  constructor
  · refine ⟨by simpa using h1, by simpa using h2, by simpa using h3, ?_, ?_, ?_⟩
    · exact linksOk_congr (by simp) (by simp) (getDataPg_set_ov hov) (fun j => by rw [getOvPg_putDataPg]) hL
    · exact inDegOne_congr (by simp) (by simp) (getDataPg_set_ov hov) (fun j => by rw [getOvPg_putDataPg]) hD
    · refine sizeOk_set_data ⟨hS.1, hS.2⟩ ?_
      intro u hu
      simp only [List.mem_append, List.mem_singleton] at hu
      rcases hu with hu | hu
      · exact hS.1 _ (getDataPg_lt_mem hp) u hu
      · subst hu; exact hfit
  · have h5 := allTuplesM_set_data hp (Page.mk ((getDataPg r p).tuples ++ [t]) (getDataPg r p).ov)
    have h6 : allTuplesM (putDataPg r p ⟨(getDataPg r p).tuples ++ [t], (getDataPg r p).ov⟩) +
        ((getDataPg r p).tuples : Multiset Tuple) =
        (allTuplesM r + {t}) + ((getDataPg r p).tuples : Multiset Tuple) := by
      rw [h5]
      show allTuplesM r + (((getDataPg r p).tuples ++ [t] : List Tuple) : Multiset Tuple) = _
      rw [coe_append_singleton]
      abel
    exact add_right_cancel h6

theorem wf_tupOnly_ov {r : Reln} (hW : WF r) {j : Nat} (hj : j < r.ovflow.length)
    {t : Tuple} (hfit : tupLen t ≤ DATACAP) :
    WF (putOvPg r j ⟨(getOvPg r j).tuples ++ [t], (getOvPg r j).ov⟩) ∧
    allTuplesM (putOvPg r j ⟨(getOvPg r j).tuples ++ [t], (getOvPg r j).ov⟩) =
      allTuplesM r + {t} := by
  obtain ⟨h1, h2, h3, hL, hD, hS⟩ := hW
  have hov : (Page.mk ((getOvPg r j).tuples ++ [t]) (getOvPg r j).ov).ov = (getOvPg r j).ov := rfl
  constructor
  · refine ⟨by simpa using h1, by simpa using h2, by simpa using h3, ?_, ?_, ?_⟩
    · exact linksOk_congr (by simp) (by simp) (fun b => by rw [getDataPg_putOvPg]) (getOvPg_set_ov hov) hL
    · exact inDegOne_congr (by simp) (by simp) (fun b => by rw [getDataPg_putOvPg]) (getOvPg_set_ov hov) hD
    · refine sizeOk_set_ov ⟨hS.1, hS.2⟩ ?_
      intro u hu
      simp only [List.mem_append, List.mem_singleton] at hu
      rcases hu with hu | hu
      · exact hS.2 _ (getOvPg_lt_mem hj) u hu
      · subst hu; exact hfit
  · have h5 := allTuplesM_set_ov hj (Page.mk ((getOvPg r j).tuples ++ [t]) (getOvPg r j).ov)
    have h6 : allTuplesM (putOvPg r j ⟨(getOvPg r j).tuples ++ [t], (getOvPg r j).ov⟩) +
        ((getOvPg r j).tuples : Multiset Tuple) =
        (allTuplesM r + {t}) + ((getOvPg r j).tuples : Multiset Tuple) := by
      rw [h5]
      show allTuplesM r + (((getOvPg r j).tuples ++ [t] : List Tuple) : Multiset Tuple) = _
      rw [coe_append_singleton]
      abel
    exact add_right_cancel h6

theorem wf_extend_ov {r : Reln} (hW : WF r) {ovp : Nat} (hovp : ovp < r.ovflow.length)
    (hnone : (getOvPg r ovp).ov = none) {t : Tuple} (hfit : tupLen t ≤ DATACAP)
    {L : Nat} (hLdef : L = r.ovflow.length)
    {r1 r2 s : Reln} (hr1 : r1 = { r with ovflow := r.ovflow ++ [emptyPage] })
    (hr2 : r2 = putOvPg r1 L ⟨[t], none⟩)
    (hs : s = putOvPg r2 ovp ⟨(getOvPg r ovp).tuples, some L⟩) :
    WF s ∧ allTuplesM s = allTuplesM r + {t} := by
  obtain ⟨h1, h2, h3, hL, hD, hS⟩ := hW
  have hr1len : r1.ovflow.length = L + 1 := by
    rw [hr1, hLdef]; simp
  have hr2len : r2.ovflow.length = L + 1 := by
    rw [hr2]; simpa using hr1len
  have hslen : s.ovflow.length = L + 1 := by
    rw [hs]; simpa using hr2len
  have hsdata : s.data = r.data := by rw [hs, hr2, hr1]; simp
  have hgd : ∀ b, getDataPg s b = getDataPg r b := by
    intro b; unfold getDataPg; rw [hsdata]
  have hgo_ovp : getOvPg s ovp = ⟨(getOvPg r ovp).tuples, some L⟩ := by
    rw [hs]; exact getOvPg_set_same (by omega)
  have hovpL : ovp ≠ L := by omega
  have hgo_L : getOvPg s L = ⟨[t], none⟩ := by
    rw [hs, getOvPg_set_ne hovpL, hr2]
    exact getOvPg_set_same (by omega)
  have hgo_lt : ∀ j < L, j ≠ ovp → getOvPg s j = getOvPg r j := by
    intro j hj hjo
    rw [hs, getOvPg_set_ne (fun h => hjo h.symm), hr2, getOvPg_set_ne (by omega), hr1]
    exact getOv_append_lt (by omega)
  have hnpg : s.npages = r.npages := by rw [hs, hr2, hr1]; simp
  have hdep : s.depth = r.depth := by rw [hs, hr2, hr1]; simp
  have hsp : s.sp = r.sp := by rw [hs, hr2, hr1]; simp
  refine ⟨⟨by rw [hnpg, hdep, hsp]; exact h1, by rw [hdep, hsp]; exact h2,
      by rw [hsdata, hnpg]; exact h3, ?_, ?_, ?_⟩, ?_⟩
  · constructor
    · intro b hb k hk
      rw [hgd b] at hk
      rw [hsdata] at hb
      have := hL.1 b hb k hk
      omega
    · intro j hj k hk
      rw [hslen] at hj
      by_cases hjo : j = ovp
      · subst hjo
        rw [hgo_ovp] at hk
        simp at hk
        omega
      · by_cases hjL : j = L
        · subst hjL
          rw [hgo_L] at hk
          simp at hk
        · have hjlt : j < L := by omega
          rw [hgo_lt j hjlt hjo] at hk
          have := hL.2 j (by omega) k hk
          omega
  · intro k hk
    rw [hslen] at hk
    have hpd_congr : ∀ m : Nat, predsD s m = predsD r m := by
      intro m
      unfold predsD
      rw [hsdata]
      apply List.filter_congr
      intro b _
      show ((getDataPg s b).ov == some m) = ((getDataPg r b).ov == some m)
      rw [hgd b]
    by_cases hkL : k = L
    · rw [hkL]
      have hpd : predsD s L = [] := by
        rw [hpd_congr]
        unfold predsD
        apply filter_range_eq_nil
        intro b hb
        show ((getDataPg r b).ov == some L) = false
        cases hob : (getDataPg r b).ov with
        | none => rfl
        | some m =>
          have hm := hL.1 b hb m (by rw [hob]; rfl)
          simp
          omega
      have hpo : predsO s L = [ovp] := by
        unfold predsO
        rw [hslen]
        apply filter_range_eq_singleton (by omega)
        intro j hj
        show ((getOvPg s j).ov == some L) = true ↔ j = ovp
        constructor
        · intro hT
          by_contra hjo
          by_cases hjL : j = L
          · subst hjL
            rw [hgo_L] at hT
            simp at hT
          · rw [hgo_lt j (by omega) hjo] at hT
            cases hob : (getOvPg r j).ov with
            | none => rw [hob] at hT; simp at hT
            | some m =>
              rw [hob] at hT
              have h9 := (hL.2 j (by omega) m (by rw [hob]; rfl)).2
              simp at hT
              omega
        · intro hj2
          subst hj2
          rw [hgo_ovp]
          simp
      rw [hpd, hpo]
      simp
    · have hklt : k < L := by omega
      have hpo : predsO s k = predsO r k := by
        unfold predsO
        rw [hslen, List.range_succ, List.filter_append]
        have hL0 : List.filter (fun j => (getOvPg s j).ov == some k) [L] = [] := by
          simp [hgo_L]
        rw [hL0, List.append_nil, hLdef]
        apply List.filter_congr
        intro j hjm
        rw [List.mem_range] at hjm
        show ((getOvPg s j).ov == some k) = ((getOvPg r j).ov == some k)
        by_cases hjo : j = ovp
        · subst hjo
          rw [hgo_ovp, hnone]
          simp
          omega
        · rw [hgo_lt j (by omega) hjo]
      rw [hpd_congr, hpo]
      exact hD k (by omega)
  · constructor
    · intro pg hm u hu
      rw [hsdata] at hm
      exact hS.1 pg hm u hu
    · intro pg hm u hu
      rw [hs] at hm
      simp only [putOvPg_ovflow] at hm
      rcases List.mem_or_eq_of_mem_set hm with hm | hm
      · rw [hr2] at hm
        simp only [putOvPg_ovflow] at hm
        rcases List.mem_or_eq_of_mem_set hm with hm | hm
        · rw [hr1] at hm
          simp only [List.mem_append, List.mem_singleton] at hm
          rcases hm with hm | hm
          · exact hS.2 pg hm u hu
          · subst hm; simp [emptyPage] at hu
        · subst hm
          simp only [List.mem_singleton] at hu
          subst hu
          exact hfit
      · subst hm
        exact hS.2 _ (getOvPg_lt_mem hovp) u hu
  · have m1 : allTuplesM r1 = allTuplesM r := by
      rw [hr1, allTuplesM_append_ov]
      simp [emptyPage]
    have m2 := allTuplesM_set_ov (show L < r1.ovflow.length by omega) (⟨[t], none⟩ : Page)
    rw [← hr2] at m2
    have hgo1L : getOvPg r1 L = emptyPage := by
      rw [hr1, hLdef]
      exact getOv_append_self
    rw [hgo1L] at m2
    simp [emptyPage] at m2
    rw [m1] at m2
    have m3 := allTuplesM_set_ov (show ovp < r2.ovflow.length by omega)
      (⟨(getOvPg r ovp).tuples, some L⟩ : Page)
    rw [← hs] at m3
    have hgo2 : getOvPg r2 ovp = getOvPg r ovp := by
      rw [hr2, getOvPg_set_ne (show L ≠ ovp by omega), hr1]
      exact getOv_append_lt (by omega)
    rw [hgo2] at m3
    simp only at m3
    rw [m2] at m3
    exact add_right_cancel m3

theorem getData_ovUpdate (r : Reln) (l : List Page) (b : Nat) :
    getDataPg { r with ovflow := l } b = getDataPg r b := rfl

theorem wf_extend_data {r : Reln} (hW : WF r) {p : Nat} (hp : p < r.data.length)
    (hnone : (getDataPg r p).ov = none) {t : Tuple} (hfit : tupLen t ≤ DATACAP)
    {L : Nat} (hLdef : L = r.ovflow.length)
    {r1 r2 s : Reln} (hr1 : r1 = { r with ovflow := r.ovflow ++ [emptyPage] })
    (hr2 : r2 = putDataPg r1 p ⟨(getDataPg r p).tuples, some L⟩)
    (hs : s = putOvPg r2 L ⟨[t], none⟩) :
    WF s ∧ allTuplesM s = allTuplesM r + {t} := by
  obtain ⟨h1, h2, h3, hL, hD, hS⟩ := hW
  have hr1dlen : r1.data.length = r.data.length := by rw [hr1]
  have hr1len : r1.ovflow.length = L + 1 := by rw [hr1, hLdef]; simp
  have hr2len : r2.ovflow.length = L + 1 := by rw [hr2]; simpa using hr1len
  have hslen : s.ovflow.length = L + 1 := by rw [hs]; simpa using hr2len
  have hsdlen : s.data.length = r.data.length := by rw [hs, hr2, hr1]; simp
  have hgd_p : getDataPg s p = ⟨(getDataPg r p).tuples, some L⟩ := by
    rw [hs, getDataPg_putOvPg, hr2]
    exact getDataPg_set_same (by omega)
  have hgd_ne : ∀ b, b ≠ p → getDataPg s b = getDataPg r b := by
    intro b hb
    rw [hs, getDataPg_putOvPg, hr2, getDataPg_set_ne (fun h => hb h.symm), hr1,
      getData_ovUpdate]
  have hgo_L : getOvPg s L = ⟨[t], none⟩ := by
    rw [hs]
    exact getOvPg_set_same (by omega)
  have hgo_lt : ∀ j < L, getOvPg s j = getOvPg r j := by
    intro j hj
    rw [hs, getOvPg_set_ne (by omega), hr2, getOvPg_putDataPg, hr1]
    exact getOv_append_lt (by omega)
  have hnpg : s.npages = r.npages := by rw [hs, hr2, hr1]; simp
  have hdep : s.depth = r.depth := by rw [hs, hr2, hr1]; simp
  have hsp : s.sp = r.sp := by rw [hs, hr2, hr1]; simp
  refine ⟨⟨by rw [hnpg, hdep, hsp]; exact h1, by rw [hdep, hsp]; exact h2,
      by rw [hsdlen, hnpg]; exact h3, ?_, ?_, ?_⟩, ?_⟩
  · constructor
    · intro b hb k hk
      rw [hsdlen] at hb
      by_cases hbp : b = p
      · subst hbp
        rw [hgd_p] at hk
        simp at hk
        omega
      · rw [hgd_ne b hbp] at hk
        have := hL.1 b hb k hk
        omega
    · intro j hj k hk
      rw [hslen] at hj
      by_cases hjL : j = L
      · subst hjL
        rw [hgo_L] at hk
        simp at hk
      · have hjlt : j < L := by omega
        rw [hgo_lt j hjlt] at hk
        have := hL.2 j (by omega) k hk
        omega
  · intro k hk
    rw [hslen] at hk
    by_cases hkL : k = L
    · rw [hkL]
      have hpd : predsD s L = [p] := by
        unfold predsD
        rw [hsdlen]
        apply filter_range_eq_singleton hp
        intro b hb
        show ((getDataPg s b).ov == some L) = true ↔ b = p
        constructor
        · intro hT
          by_contra hbp
          rw [hgd_ne b hbp] at hT
          cases hob : (getDataPg r b).ov with
          | none => rw [hob] at hT; simp at hT
          | some m =>
            rw [hob] at hT
            have h9 := hL.1 b hb m (by rw [hob]; rfl)
            simp at hT
            omega
        · intro hb2
          subst hb2
          rw [hgd_p]
          simp
      have hpo : predsO s L = [] := by
        unfold predsO
        rw [hslen]
        apply filter_range_eq_nil
        intro j hj2
        show ((getOvPg s j).ov == some L) = false
        by_cases hjL : j = L
        · subst hjL
          rw [hgo_L]
          rfl
        · rw [hgo_lt j (by omega)]
          cases hob : (getOvPg r j).ov with
          | none => rfl
          | some m =>
            have h9 := (hL.2 j (by omega) m (by rw [hob]; rfl)).2
            simp
            omega
      rw [hpd, hpo]
      simp
    · have hklt : k < L := by omega
      have hpd : predsD s k = predsD r k := by
        unfold predsD
        rw [hsdlen]
        apply List.filter_congr
        intro b hbm
        rw [List.mem_range] at hbm
        show ((getDataPg s b).ov == some k) = ((getDataPg r b).ov == some k)
        by_cases hbp : b = p
        · subst hbp
          rw [hgd_p, hnone]
          simp
          omega
        · rw [hgd_ne b hbp]
      have hpo : predsO s k = predsO r k := by
        unfold predsO
        rw [hslen, List.range_succ, List.filter_append]
        have hL0 : List.filter (fun j => (getOvPg s j).ov == some k) [L] = [] := by
          simp [hgo_L]
        rw [hL0, List.append_nil, hLdef]
        apply List.filter_congr
        intro j hjm
        rw [List.mem_range] at hjm
        show ((getOvPg s j).ov == some k) = ((getOvPg r j).ov == some k)
        rw [hgo_lt j (by omega)]
      rw [hpd, hpo]
      exact hD k (by omega)
  · constructor
    · intro pg hm u hu
      rw [hs] at hm
      simp only [putOvPg_data] at hm
      rw [hr2] at hm
      simp only [putDataPg_data] at hm
      rcases List.mem_or_eq_of_mem_set hm with hm | hm
      · rw [hr1] at hm
        exact hS.1 pg hm u hu
      · subst hm
        exact hS.1 _ (getDataPg_lt_mem hp) u hu
    · intro pg hm u hu
      rw [hs] at hm
      simp only [putOvPg_ovflow] at hm
      rcases List.mem_or_eq_of_mem_set hm with hm | hm
      · rw [hr2] at hm
        simp only [putDataPg_ovflow] at hm
        rw [hr1] at hm
        simp only [List.mem_append, List.mem_singleton] at hm
        rcases hm with hm | hm
        · exact hS.2 pg hm u hu
        · subst hm; simp [emptyPage] at hu
      · subst hm
        simp only [List.mem_singleton] at hu
        subst hu
        exact hfit
  · have m1 : allTuplesM r1 = allTuplesM r := by
      rw [hr1, allTuplesM_append_ov]
      simp [emptyPage]
    have m2 := allTuplesM_set_data (show p < r1.data.length by omega)
      (⟨(getDataPg r p).tuples, some L⟩ : Page)
    rw [← hr2] at m2
    have hgd1 : getDataPg r1 p = getDataPg r p := by
      rw [hr1, getData_ovUpdate]
    rw [hgd1] at m2
    simp only at m2
    rw [m1] at m2
    have m2' : allTuplesM r2 = allTuplesM r := add_right_cancel m2
    have m3 := allTuplesM_set_ov (show L < r2.ovflow.length by omega) (⟨[t], none⟩ : Page)
    rw [← hs] at m3
    have hgo2 : getOvPg r2 L = emptyPage := by
      rw [hr2, getOvPg_putDataPg, hr1, hLdef]
      exact getOv_append_self
    rw [hgo2, m2'] at m3
    simpa [emptyPage] using m3

theorem walkChain_wf {r : Reln} (hW : WF r) {t : Tuple} (hfit : tupLen t ≤ DATACAP) :
    ∀ fuel {p ovp : Nat} {res : Option Nat} {r' : Reln},
    ovp < r.ovflow.length →
    walkChain fuel r t p ovp = some (res, r') →
    WF r' ∧ allTuplesM r' = allTuplesM r + {t} := by
  intro fuel
  induction fuel with
  | zero => intro p ovp res r' hovp h; simp [walkChain] at h
  | succ n ih =>
    intro p ovp res r' hovp h
    simp only [walkChain] at h
    cases hadd : addToPage (getOvPg r ovp) t with
    | some pg1 =>
      simp only [hadd, Option.some.injEq, Prod.mk.injEq] at h
      obtain ⟨h1, h2⟩ := h
      subst h2
      have hpg := addToPage_eq hadd
      subst hpg
      have hbase := wf_tupOnly_ov hW hovp hfit
      exact ⟨WF_bump hbase.1, by rw [allTuplesM_bump]; exact hbase.2⟩
    | none =>
      simp only [hadd] at h
      cases hov : (getOvPg r ovp).ov with
      | some nxt =>
        simp only [hov] at h
        have hnxt := (hW.2.2.2.1.2 ovp hovp nxt (by rw [hov]; rfl)).2
        exact ih hnxt h
      | none =>
        simp only [hov, addToPage_empty_of_fit hfit, Option.some.injEq,
          Prod.mk.injEq] at h
        obtain ⟨h1, h2⟩ := h
        subst h2
        have hbase := wf_extend_ov hW hovp hov hfit rfl rfl rfl rfl
        exact ⟨WF_bump hbase.1, by rw [allTuplesM_bump]; exact hbase.2⟩

theorem placeBody_wf {hf : String → Nat} {r : Reln} (hW : WF r) {t : Tuple}
    (hfit : tupLen t ≤ DATACAP) {res : Option Nat} {r' : Reln}
    (h : placeBody hf r t = some (res, r')) :
    WF r' ∧ allTuplesM r' = allTuplesM r + {t} := by
  have hp : bucketAddr (tupleHash hf r.cv t) r.depth r.sp < r.data.length := by
    have := @bucketAddr_lt (tupleHash hf r.cv t) r.depth r.sp hW.2.1
    have h3 := hW.2.2.1
    have h1 := hW.1
    omega
  simp only [placeBody] at h
  cases hadd : addToPage (getDataPg r (bucketAddr (tupleHash hf r.cv t) r.depth r.sp)) t with
  | some pg1 =>
    simp only [hadd, Option.some.injEq, Prod.mk.injEq] at h
    obtain ⟨h1, h2⟩ := h
    subst h2
    have hpg := addToPage_eq hadd
    subst hpg
    have hbase := wf_tupOnly_data hW hp hfit
    exact ⟨WF_bump hbase.1, by rw [allTuplesM_bump]; exact hbase.2⟩
  | none =>
    simp only [hadd] at h
    cases hov : (getDataPg r (bucketAddr (tupleHash hf r.cv t) r.depth r.sp)).ov with
    | none =>
      simp only [hov, addToPage_empty_of_fit hfit, Option.some.injEq,
        Prod.mk.injEq] at h
      obtain ⟨h1, h2⟩ := h
      subst h2
      have hbase := wf_extend_data hW hp hov hfit rfl rfl rfl rfl
      exact ⟨WF_bump hbase.1, by rw [allTuplesM_bump]; exact hbase.2⟩
    | some ovp =>
      simp only [hov] at h
      have hovp : ovp < r.ovflow.length :=
        hW.2.2.2.1.1 _ hp ovp (by rw [hov]; rfl)
      exact walkChain_wf hW hfit (r.ovflow.length + 1) hovp h

theorem wf_clear_ov {r : Reln} (hW : WF r) {i : Nat} (hi : i < r.ovflow.length) :
    WF (putOvPg r i ⟨[], (getOvPg r i).ov⟩) ∧
    allTuplesM (putOvPg r i ⟨[], (getOvPg r i).ov⟩) + ((getOvPg r i).tuples : Multiset Tuple) =
      allTuplesM r := by
  obtain ⟨h1, h2, h3, hL, hD, hS⟩ := hW
  have hov : (Page.mk ([] : List Tuple) (getOvPg r i).ov).ov = (getOvPg r i).ov := rfl
  refine ⟨⟨by simpa using h1, by simpa using h2, by simpa using h3, ?_, ?_, ?_⟩, ?_⟩
  · exact linksOk_congr (by simp) (by simp) (fun b => by rw [getDataPg_putOvPg]) (getOvPg_set_ov hov) hL
  · exact inDegOne_congr (by simp) (by simp) (fun b => by rw [getDataPg_putOvPg]) (getOvPg_set_ov hov) hD
  · refine sizeOk_set_ov ⟨hS.1, hS.2⟩ ?_
    intro u hu
    simp at hu
  · have h5 := allTuplesM_set_ov hi (Page.mk ([] : List Tuple) (getOvPg r i).ov)
    simpa using h5

theorem walkChain_ovlen : ∀ fuel {r : Reln} {t : Tuple} {p ovp : Nat} {res : Option Nat} {r' : Reln},
    walkChain fuel r t p ovp = some (res, r') → r.ovflow.length ≤ r'.ovflow.length := by
  intro fuel
  induction fuel with
  | zero => intro r t p ovp res r' h; simp [walkChain] at h
  | succ n ih =>
    intro r t p ovp res r' h
    simp only [walkChain] at h
    split at h
    · simp only [Option.some.injEq, Prod.mk.injEq] at h
      obtain ⟨-, h2⟩ := h
      subst h2
      simp
    · split at h
      · exact ih h
      · split at h
        · simp only [Option.some.injEq, Prod.mk.injEq] at h
          obtain ⟨-, h2⟩ := h
          subst h2
          simp
        · simp only [Option.some.injEq, Prod.mk.injEq] at h
          obtain ⟨-, h2⟩ := h
          subst h2
          simp

theorem placeBody_ovlen {hf : String → Nat} {r : Reln} {t : Tuple} {res : Option Nat} {r' : Reln}
    (h : placeBody hf r t = some (res, r')) : r.ovflow.length ≤ r'.ovflow.length := by
  simp only [placeBody] at h
  split at h
  · simp only [Option.some.injEq, Prod.mk.injEq] at h
    obtain ⟨-, h2⟩ := h
    subst h2
    simp
  · split at h
    · split at h
      · simp only [Option.some.injEq, Prod.mk.injEq] at h
        obtain ⟨-, h2⟩ := h
        subst h2
        simp
      · simp only [Option.some.injEq, Prod.mk.injEq] at h
        obtain ⟨-, h2⟩ := h
        subst h2
        simp
    · exact walkChain_ovlen _ h

theorem addToRelation_during_wf {hf : String → Nat} {f : Nat} {r : Reln} {t : Tuple}
    {res : Option Nat} {r' : Reln} (hW : WF r) (hspl : r.splitting = true)
    (hins : r.insertion = 0) (hc : 0 < r.c) (hfit : tupLen t ≤ DATACAP)
    (h : addToRelation hf f r t = some (res, r')) :
    WF r' ∧ allTuplesM r' = allTuplesM r + {t} ∧
    r'.splitting = true ∧ r'.insertion = 0 ∧ r'.c = r.c ∧ r'.cv = r.cv ∧
    r'.nattrs = r.nattrs ∧ r'.depth = r.depth ∧ r'.sp = r.sp ∧ r'.npages = r.npages ∧
    r.ovflow.length ≤ r'.ovflow.length := by
  cases f with
  | zero => rw [addToRelation_zero] at h; exact absurd h (by simp)
  | succ n =>
    rw [addToRelation_succ] at h
    unfold addBody at h
    rw [if_neg (show ¬(r.insertion = r.c) by omega)] at h
    have hfr := placeBody_frame h
    have hct := placeBody_count h
    have hwm := placeBody_wf hW hfit h
    have hol := placeBody_ovlen h
    obtain ⟨f1, f2, f3, f4, f5, f6, f7, f8⟩ := hfr
    refine ⟨hwm.1, hwm.2, by rw [f7, hspl], ?_, f5, f6, f1, f2, f3, f4, hol⟩
    rw [hct.2, hins, hspl]
    rfl

theorem reinsertList_wf {hf : String → Nat} {f : Nat} : ∀ {ts : List Tuple} {r r' : Reln},
    WF r → r.splitting = true → r.insertion = 0 → 0 < r.c →
    (∀ t ∈ ts, tupLen t ≤ DATACAP) →
    reinsertList hf f r ts = some r' →
    WF r' ∧ allTuplesM r' = allTuplesM r + (ts : Multiset Tuple) ∧
    r'.splitting = true ∧ r'.insertion = 0 ∧ r'.c = r.c ∧ r'.cv = r.cv ∧
    r'.nattrs = r.nattrs ∧ r'.depth = r.depth ∧ r'.sp = r.sp ∧ r'.npages = r.npages ∧
    r.ovflow.length ≤ r'.ovflow.length := by
  cases f with
  | zero =>
    intro ts r r' _ _ _ _ _ h
    rw [reinsertList_zero] at h
    exact absurd h (by simp)
  | succ n =>
    intro ts
    induction ts with
    | nil =>
      intro r r' hW hspl hins hc hfts h
      rw [reinsertList_succ] at h
      simp only [reinsFold, Option.some.injEq] at h
      subst h
      exact ⟨hW, by simp, hspl, hins, rfl, rfl, rfl, rfl, rfl, rfl, le_refl _⟩
    | cons t ts ih =>
      intro r r' hW hspl hins hc hfts h
      rw [reinsertList_succ] at h
      simp only [reinsFold] at h
      cases hadd : addToRelation hf (n + 1) r t with
      | none => rw [hadd] at h; simp at h
      | some pr =>
        obtain ⟨res, r1⟩ := pr
        rw [hadd] at h
        rw [← reinsertList_succ] at h
        have ha := addToRelation_during_wf hW hspl hins hc (hfts t (by simp)) hadd
        obtain ⟨a1, a2, a3, a4, a5, a6, a7, a8, a9, a10, a11⟩ := ha
        have hb := ih a1 a3 a4 (by omega) (fun u hu => hfts u (by simp [hu])) h
        obtain ⟨b1, b2, b3, b4, b5, b6, b7, b8, b9, b10, b11⟩ := hb
        refine ⟨b1, ?_, b3, b4, by omega, by rw [b6, a6], by omega,
          by omega, by omega, by omega, by omega⟩
        rw [b2, a2]
        have hcons : ((t :: ts : List Tuple) : Multiset Tuple) = {t} + (ts : Multiset Tuple) := rfl
        rw [hcons]
        abel

theorem chainPhase_wf {hf : String → Nat} : ∀ f {r : Reln} {o : Option Nat} {r' : Reln},
    WF r → r.splitting = true → r.insertion = 0 → 0 < r.c →
    (∀ i ∈ o, i < r.ovflow.length) →
    chainPhase hf f r o = some r' →
    WF r' ∧ allTuplesM r' = allTuplesM r ∧
    r'.splitting = true ∧ r'.insertion = 0 ∧ r'.c = r.c ∧ r'.cv = r.cv ∧
    r'.nattrs = r.nattrs ∧ r'.depth = r.depth ∧ r'.sp = r.sp ∧ r'.npages = r.npages ∧
    r.ovflow.length ≤ r'.ovflow.length := by
  intro f
  induction f with
  | zero =>
    intro r o r' _ _ _ _ _ h
    rw [chainPhase_zero] at h
    exact absurd h (by simp)
  | succ n ih =>
    intro r o r' hW hspl hins hc ho h
    rw [chainPhase_succ] at h
    cases o with
    | none =>
      simp only [chphBody, Option.some.injEq] at h
      subst h
      exact ⟨hW, rfl, hspl, hins, rfl, rfl, rfl, rfl, rfl, rfl, le_refl _⟩
    | some i =>
      simp only [chphBody] at h
      have hi : i < r.ovflow.length := ho i rfl
      have hcl := wf_clear_ov hW hi
      have hfts : ∀ t ∈ (getOvPg r i).tuples, tupLen t ≤ DATACAP :=
        fun t ht => hW.2.2.2.2.2.2 _ (getOvPg_lt_mem hi) t ht
      cases hre : reinsertList hf (n + 1) (putOvPg r i ⟨[], (getOvPg r i).ov⟩) (getOvPg r i).tuples with
      | none => rw [hre] at h; simp at h
      | some r2 =>
        rw [hre] at h
        have hrw := reinsertList_wf hcl.1 (by simpa using hspl) (by simpa using hins)
          (by simpa using hc) hfts hre
        obtain ⟨b1, b2, b3, b4, b5, b6, b7, b8, b9, b10, b11⟩ := hrw
        have hlinks : ∀ k ∈ (getOvPg r i).ov, k < r2.ovflow.length := by
          intro k hk
          have := (hW.2.2.2.1.2 i hi k hk).2
          have hlen : (putOvPg r i (⟨[], (getOvPg r i).ov⟩ : Page)).ovflow.length = r.ovflow.length := by
            simp
          omega
        simp only [putOvPg_c, putOvPg_cv, putOvPg_nattrs, putOvPg_depth, putOvPg_sp,
          putOvPg_npages, putOvPg_ovflow, List.length_set] at b5 b6 b7 b8 b9 b10 b11
        have hcc := ih b1 b3 b4 (by omega) hlinks h
        obtain ⟨c1, c2, c3, c4, c5, c6, c7, c8, c9, c10, c11⟩ := hcc
        refine ⟨c1, ?_, c3, c4, by omega, by rw [c6, b6], by omega,
          by omega, by omega, by omega, by omega⟩
        rw [c2, b2]
        exact hcl.2

theorem splitBody_eq (reins : Reln → List Tuple → Option Reln)
    (chph : Reln → Option Nat → Option Reln) (r0 : Reln) :
    splitBody reins chph r0 =
      match reins { putDataPg { r0 with data := r0.data ++ [emptyPage], npages := r0.npages + 1 } r0.sp ⟨[], (getDataPg { r0 with data := r0.data ++ [emptyPage], npages := r0.npages + 1 } r0.sp).ov⟩ with sp := r0.sp + 1 } (getDataPg { r0 with data := r0.data ++ [emptyPage], npages := r0.npages + 1 } r0.sp).tuples with
      | none => none
      | some r4 =>
        match chph r4 (getDataPg { r0 with data := r0.data ++ [emptyPage], npages := r0.npages + 1 } r0.sp).ov with
        | none => none
        | some r5 =>
          some (if r5.sp = 2 ^ r5.depth then { r5 with depth := r5.depth + 1, sp := 0 } else r5) := rfl

theorem getData_dataAppend_lt {r : Reln} {pg : Page} {x b : Nat} (hb : b < r.data.length) :
    getDataPg { r with data := r.data ++ [pg], npages := x } b = getDataPg r b := by
  unfold getDataPg
  simp only
  rw [List.getD_eq_getElem?_getD, List.getD_eq_getElem?_getD, List.getElem?_append_left hb]

theorem getData_dataAppend_self {r : Reln} {pg : Page} {x : Nat} :
    getDataPg { r with data := r.data ++ [pg], npages := x } r.data.length = pg := by
  unfold getDataPg
  simp only
  rw [List.getD_eq_getElem?_getD]
  simp

theorem getOv_dataUpdate (r : Reln) (l : List Page) (x : Nat) (j : Nat) :
    getOvPg { r with data := l, npages := x } j = getOvPg r j := rfl

theorem wf_wrap {r : Reln} (hW : WF r) (hsp : r.sp = 2 ^ r.depth) :
    WF { r with depth := r.depth + 1, sp := 0 } ∧
    allTuplesM { r with depth := r.depth + 1, sp := 0 } = allTuplesM r := by
  obtain ⟨h1, h2, h3, hL, hD, hS⟩ := hW
  have hp : 2 ^ (r.depth + 1) = 2 ^ r.depth * 2 := pow_succ 2 r.depth
  refine ⟨⟨by simp; omega, by simp, by simpa using h3, ?_, ?_, ?_⟩, ?_⟩
  · exact linksOk_congr rfl rfl (fun b => rfl) (fun j => rfl) hL
  · exact inDegOne_congr rfl rfl (fun b => rfl) (fun j => rfl) hD
  · exact ⟨fun pg hm u hu => hS.1 pg hm u hu, fun pg hm u hu => hS.2 pg hm u hu⟩
  · exact allTuplesM_of_eq_files rfl rfl

theorem wf_split_open {r : Reln} (hW : WF r) (hsp : r.sp < 2 ^ r.depth)
    {r1 r3 : Reln}
    (hr1 : r1 = { r with data := r.data ++ [emptyPage], npages := r.npages + 1 })
    (hr3 : r3 = { putDataPg r1 r.sp ⟨[], (getDataPg r1 r.sp).ov⟩ with sp := r.sp + 1 }) :
    WF r3 ∧ allTuplesM r3 + ((getDataPg r1 r.sp).tuples : Multiset Tuple) = allTuplesM r ∧
    getDataPg r1 r.sp = getDataPg r r.sp ∧
    r3.splitting = r.splitting ∧ r3.insertion = r.insertion ∧ r3.c = r.c ∧ r3.cv = r.cv ∧
    r3.nattrs = r.nattrs ∧ r3.depth = r.depth ∧ r3.sp = r.sp + 1 ∧ r3.npages = r.npages + 1 ∧
    r3.ovflow.length = r.ovflow.length := by
  obtain ⟨h1, h2, h3, hL, hD, hS⟩ := hW
  have hsplen : r.sp < r.data.length := by omega
  have hcur : getDataPg r1 r.sp = getDataPg r r.sp := by
    rw [hr1]
    exact getData_dataAppend_lt hsplen
  have hr1dlen : r1.data.length = r.data.length + 1 := by rw [hr1]; simp
  have hr3dlen : r3.data.length = r.data.length + 1 := by
    rw [hr3]
    simpa using hr1dlen
  have hgd_sp : getDataPg r3 r.sp = ⟨[], (getDataPg r1 r.sp).ov⟩ := by
    rw [hr3]
    show getDataPg (putDataPg r1 r.sp ⟨[], (getDataPg r1 r.sp).ov⟩) r.sp = _
    exact getDataPg_set_same (by omega)
  have hgd_ne : ∀ b, b ≠ r.sp → b < r.data.length → getDataPg r3 b = getDataPg r b := by
    intro b hb hblen
    rw [hr3]
    show getDataPg (putDataPg r1 r.sp ⟨[], (getDataPg r1 r.sp).ov⟩) b = _
    rw [getDataPg_set_ne (fun h => hb h.symm), hr1]
    exact getData_dataAppend_lt hblen
  have hgd_last : getDataPg r3 r.data.length = emptyPage := by
    rw [hr3]
    show getDataPg (putDataPg r1 r.sp ⟨[], (getDataPg r1 r.sp).ov⟩) r.data.length = _
    rw [getDataPg_set_ne (by omega), hr1]
    exact getData_dataAppend_self
  have hgo : ∀ j, getOvPg r3 j = getOvPg r j := by
    intro j
    rw [hr3]
    show getOvPg (putDataPg r1 r.sp ⟨[], (getDataPg r1 r.sp).ov⟩) j = _
    rw [getOvPg_putDataPg, hr1, getOv_dataUpdate]
  have hr3olen : r3.ovflow.length = r.ovflow.length := by rw [hr3, hr1]; simp
  have hfr : r3.splitting = r.splitting ∧ r3.insertion = r.insertion ∧ r3.c = r.c ∧
      r3.cv = r.cv ∧ r3.nattrs = r.nattrs ∧ r3.depth = r.depth ∧ r3.sp = r.sp + 1 ∧
      r3.npages = r.npages + 1 := by
    rw [hr3, hr1]
    simp
  refine ⟨⟨?_, ?_, ?_, ?_, ?_, ?_⟩, ?_, hcur, hfr.1, hfr.2.1, hfr.2.2.1, hfr.2.2.2.1,
    hfr.2.2.2.2.1, hfr.2.2.2.2.2.1, hfr.2.2.2.2.2.2.1, hfr.2.2.2.2.2.2.2, hr3olen⟩
  · rw [hfr.2.2.2.2.2.2.2, hfr.2.2.2.2.2.1, hfr.2.2.2.2.2.2.1]
    omega
  · rw [hfr.2.2.2.2.2.1, hfr.2.2.2.2.2.2.1]
    omega
  · rw [hr3dlen, hfr.2.2.2.2.2.2.2]
    omega
  · constructor
    · intro b hb k hk
      rw [hr3dlen] at hb
      rw [hr3olen]
      by_cases hbsp : b = r.sp
      · subst hbsp
        rw [hgd_sp] at hk
        simp only at hk
        rw [hcur] at hk
        exact hL.1 _ hsplen k hk
      · by_cases hbl : b = r.data.length
        · subst hbl
          rw [hgd_last] at hk
          simp [emptyPage] at hk
        · rw [hgd_ne b hbsp (by omega)] at hk
          exact hL.1 b (by omega) k hk
    · intro j hj k hk
      rw [hr3olen] at hj
      rw [hgo j] at hk
      rw [hr3olen]
      exact hL.2 j hj k hk
  · intro k hk
    rw [hr3olen] at hk
    have hpd : predsD r3 k = predsD r k := by
      unfold predsD
      rw [hr3dlen, List.range_succ, List.filter_append]
      have hL0 : List.filter (fun b => (getDataPg r3 b).ov == some k) [r.data.length] = [] := by
        simp [hgd_last, emptyPage]
      rw [hL0, List.append_nil]
      apply List.filter_congr
      intro b hbm
      rw [List.mem_range] at hbm
      show ((getDataPg r3 b).ov == some k) = ((getDataPg r b).ov == some k)
      by_cases hbsp : b = r.sp
      · subst hbsp
        rw [hgd_sp]
        show (((getDataPg r1 r.sp).ov : Option Nat) == some k) = _
        rw [hcur]
      · rw [hgd_ne b hbsp hbm]
    have hpo : predsO r3 k = predsO r k := by
      unfold predsO
      rw [hr3olen]
      apply List.filter_congr
      intro j _
      show ((getOvPg r3 j).ov == some k) = ((getOvPg r j).ov == some k)
      rw [hgo j]
    rw [hpd, hpo]
    exact hD k hk
  · constructor
    · intro pg hm u hu
      have hm2 : pg ∈ r3.data := hm
      rw [hr3] at hm2
      simp only [putDataPg_data] at hm2
      rcases List.mem_or_eq_of_mem_set hm2 with hm3 | hm3
      · rw [hr1] at hm3
        simp only [List.mem_append, List.mem_singleton] at hm3
        rcases hm3 with hm3 | hm3
        · exact hS.1 pg hm3 u hu
        · subst hm3; simp [emptyPage] at hu
      · subst hm3
        simp at hu
    · intro pg hm u hu
      have hm2 : pg ∈ r3.ovflow := hm
      rw [hr3, hr1] at hm2
      simp only [putDataPg_ovflow] at hm2
      exact hS.2 pg hm2 u hu
  · have hset := pagesM_set (show r.sp < r1.data.length by omega)
      (⟨[], (getDataPg r1 r.sp).ov⟩ : Page)
    have hgetd : r1.data.getD r.sp emptyPage = getDataPg r1 r.sp := rfl
    rw [hgetd] at hset
    have hdm : pagesM r1.data = pagesM r.data := by
      rw [hr1]
      simp only
      rw [pagesM_append]
      simp [emptyPage]
    have hr3data : r3.data = r1.data.set r.sp ⟨[], (getDataPg r1 r.sp).ov⟩ := by
      rw [hr3]
      simp
    have hr3ov : r3.ovflow = r.ovflow := by rw [hr3, hr1]; simp
    unfold allTuplesM
    rw [hr3data, hr3ov]
    have hz : (((⟨[], (getDataPg r1 r.sp).ov⟩ : Page).tuples : List Tuple) : Multiset Tuple) = 0 := rfl
    rw [hz, add_zero, hdm] at hset
    rw [add_right_comm, hset]

theorem splitSp_wf {hf : String → Nat} {f : Nat} {r r' : Reln}
    (hW : WF r) (hspl : r.splitting = true) (hins : r.insertion = 0) (hc : 0 < r.c)
    (hsp : r.sp < 2 ^ r.depth)
    (h : splitSp hf f r = some r') :
    WF r' ∧ allTuplesM r' = allTuplesM r ∧
    r'.splitting = true ∧ r'.insertion = 0 ∧ r'.c = r.c ∧ r'.cv = r.cv ∧
    r'.nattrs = r.nattrs ∧ r'.sp < 2 ^ r'.depth := by
  cases f with
  | zero => rw [splitSp_zero] at h; exact absurd h (by simp)
  | succ n =>
    rw [splitSp_succ, splitBody_eq] at h
    have hopen := wf_split_open hW hsp rfl rfl
    obtain ⟨o1, o2, o3, o4, o5, o6, o7, o8, o9, o10, o11, o12⟩ := hopen
    have hsplen : r.sp < r.data.length := by
      have h1 := hW.1
      have h2 := hW.2.2.1
      omega
    have hfts : ∀ t ∈ (getDataPg { r with data := r.data ++ [emptyPage], npages := r.npages + 1 } r.sp).tuples, tupLen t ≤ DATACAP := by
      rw [o3]
      exact fun t ht => hW.2.2.2.2.2.1 _ (getDataPg_lt_mem hsplen) t ht
    split at h
    · exact absurd h (by simp)
    · rename_i r4 heq
      have hre := reinsertList_wf o1 (by rw [o4]; exact hspl) (by rw [o5]; exact hins)
        (by rw [o6]; exact hc) hfts heq
      obtain ⟨b1, b2, b3, b4, b5, b6, b7, b8, b9, b10, b11⟩ := hre
      split at h
      · exact absurd h (by simp)
      · rename_i r5 heq2
        have hlinks : ∀ k ∈ (getDataPg { r with data := r.data ++ [emptyPage], npages := r.npages + 1 } r.sp).ov, k < r4.ovflow.length := by
          rw [o3]
          intro k hk
          have := hW.2.2.2.1.1 r.sp hsplen k hk
          omega
        have hch := chainPhase_wf (n + 1) b1 b3 b4 (by omega) hlinks heq2
        obtain ⟨c1, c2, c3, c4, c5, c6, c7, c8, c9, c10, c11⟩ := hch
        simp only [Option.some.injEq] at h
        by_cases hcond : r5.sp = 2 ^ r5.depth
        · rw [if_pos hcond] at h
          subst h
          have hw := wf_wrap c1 hcond
          refine ⟨hw.1, ?_, by simpa using c3, by simpa using c4, ?_, ?_, ?_, ?_⟩
          · rw [hw.2, c2, b2]
            exact o2
          · show r5.c = r.c
            omega
          · show r5.cv = r.cv
            rw [c6, b6, o7]
          · show r5.nattrs = r.nattrs
            omega
          · show 0 < 2 ^ (r5.depth + 1)
            positivity
        · rw [if_neg hcond] at h
          subst h
          refine ⟨c1, ?_, c3, c4, by omega, by rw [c6, b6, o7], by omega, ?_⟩
          · rw [c2, b2]
            exact o2
          · rw [c9, b9, o10, c8, b8, o9] at hcond
            rw [c9, b9, o10, c8, b8, o9]
            omega

theorem addToRelation_wf {hf : String → Nat} {f : Nat} {r : Reln} {t : Tuple}
    {res : Option Nat} {r' : Reln}
    (hW : WF r) (hspl : r.splitting = false) (hsp : r.sp < 2 ^ r.depth) (hc : 0 < r.c)
    (hfit : tupLen t ≤ DATACAP)
    (h : addToRelation hf f r t = some (res, r')) :
    WF r' ∧ r'.splitting = false ∧ r'.sp < 2 ^ r'.depth ∧ r'.c = r.c ∧
    r'.cv = r.cv ∧ r'.nattrs = r.nattrs ∧ allTuplesM r' = allTuplesM r + {t} := by
  cases f with
  | zero => rw [addToRelation_zero] at h; exact absurd h (by simp)
  | succ n =>
    rw [addToRelation_succ] at h
    unfold addBody at h
    by_cases hins : r.insertion = r.c
    · rw [if_pos hins] at h
      cases hsplit : splitSp hf n { r with insertion := 0, splitting := true } with
      | none => rw [hsplit] at h; simp at h
      | some r1 =>
        rw [hsplit] at h
        have hWrs : WF { r with insertion := 0, splitting := true } :=
          WF_of_eq_files rfl rfl rfl rfl rfl hW
        have hs := splitSp_wf hWrs (by simp) (by simp) (by simpa using hc)
          (by simpa using hsp) hsplit
        obtain ⟨s1, s2, s3, s4, s5, s6, s7, s8⟩ := hs
        have hWr2 : WF { r1 with splitting := false } :=
          WF_of_eq_files rfl rfl rfl rfl rfl s1
        have hp := placeBody_wf hWr2 hfit h
        have hfr := placeBody_frame h
        obtain ⟨f1, f2, f3, f4, f5, f6, f7, f8⟩ := hfr
        refine ⟨hp.1, by rw [f7], ?_, ?_, ?_, ?_, ?_⟩
        · rw [f3, f2]
          simpa using s8
        · rw [f5]
          simp only
          simp at s5
          omega
        · rw [f6]
          show r1.cv = r.cv
          simpa using s6
        · rw [f1]
          show r1.nattrs = r.nattrs
          simpa using s7
        · rw [hp.2]
          have hms : allTuplesM { r1 with splitting := false } = allTuplesM r1 :=
            allTuplesM_of_eq_files rfl rfl
          have hms2 : allTuplesM { r with insertion := 0, splitting := true } = allTuplesM r :=
            allTuplesM_of_eq_files rfl rfl
          rw [hms, s2, hms2]
    · rw [if_neg hins] at h
      have hp := placeBody_wf hW hfit h
      have hfr := placeBody_frame h
      obtain ⟨f1, f2, f3, f4, f5, f6, f7, f8⟩ := hfr
      exact ⟨hp.1, by rw [f7]; exact hspl, by rw [f3, f2]; exact hsp, f5, f6, f1, hp.2⟩

theorem insertAll_wf {hf : String → Nat} {f : Nat} : ∀ {ts : List Tuple} {r : Reln}
    {r' : Reln} {l : List (Option Nat)},
    WF r → r.splitting = false → r.sp < 2 ^ r.depth → 0 < r.c →
    (∀ t ∈ ts, tupLen t ≤ DATACAP) →
    insertAll hf f r ts = some (r', l) →
    WF r' ∧ r'.splitting = false ∧ r'.sp < 2 ^ r'.depth ∧ r'.c = r.c ∧
    r'.cv = r.cv ∧ r'.nattrs = r.nattrs ∧
    allTuplesM r' = allTuplesM r + (ts : Multiset Tuple) := by
  intro ts
  induction ts with
  | nil =>
    intro r r' l hW hspl hsp hc hfts h
    simp only [insertAll, Option.some.injEq, Prod.mk.injEq] at h
    obtain ⟨h1, -⟩ := h
    subst h1
    exact ⟨hW, hspl, hsp, rfl, rfl, rfl, by simp⟩
  | cons t ts ih =>
    intro r r' l hW hspl hsp hc hfts h
    simp only [insertAll] at h
    cases hadd : addToRelation hf f r t with
    | none => rw [hadd] at h; simp at h
    | some pr =>
      obtain ⟨res, r1⟩ := pr
      simp only [hadd] at h
      cases hrest : insertAll hf f r1 ts with
      | none => simp only [hrest] at h; exact absurd h (by simp)
      | some pr2 =>
        obtain ⟨r2, l2⟩ := pr2
        simp only [hrest, Option.some.injEq, Prod.mk.injEq] at h
        obtain ⟨h1, -⟩ := h
        subst h1
        have ha := addToRelation_wf hW hspl hsp hc (hfts t (by simp)) hadd
        obtain ⟨a1, a2, a3, a4, a5, a6, a7⟩ := ha
        have hb := ih a1 a2 a3 (by omega) (fun u hu => hfts u (by simp [hu])) hrest
        obtain ⟨b1, b2, b3, b4, b5, b6, b7⟩ := hb
        refine ⟨b1, b2, b3, by omega, by rw [b5, a5], by omega, ?_⟩
        rw [b7, a7]
        have hcons : ((t :: ts : List Tuple) : Multiset Tuple) = {t} + (ts : Multiset Tuple) := rfl
        rw [hcons]
        abel

theorem getDataPg_new (na np d : Nat) (cv : List ChVecItem) (b : Nat) :
    getDataPg (newRelation na np d cv) b = emptyPage := by
  unfold getDataPg newRelation
  simp only
  rw [List.getD_eq_getElem?_getD, List.getElem?_replicate]
  split <;> rfl

theorem pagesM_replicate : ∀ n : Nat, pagesM (List.replicate n emptyPage) = 0 := by
  intro n
  induction n with
  | zero => rfl
  | succ m ih =>
    rw [List.replicate_succ, pagesM_cons, ih]
    rfl

theorem newRelation_wf (na np d : Nat) (cv : List ChVecItem) (hnp : np = 2 ^ d) :
    WF (newRelation na np d cv) ∧ allTuplesM (newRelation na np d cv) = 0 := by
  refine ⟨⟨by simp [newRelation]; omega, by simp [newRelation], by simp [newRelation], ?_, ?_, ?_⟩, ?_⟩
  · constructor
    · intro b hb k hk
      rw [getDataPg_new] at hk
      simp [emptyPage] at hk
    · intro j hj k hk
      simp [newRelation] at hj
  · intro k hk
    simp [newRelation] at hk
  · constructor
    · intro pg hm u hu
      simp only [newRelation, List.mem_replicate] at hm
      rw [hm.2] at hu
      simp [emptyPage] at hu
    · intro pg hm u hu
      simp [newRelation] at hm
  · unfold allTuplesM
    show pagesM (List.replicate np emptyPage) + pagesM [] = 0
    rw [pagesM_replicate, pagesM_nil]
    simp

/-- C1: starting from a fresh relation (any attribute count `1 ≤ na ≤ 102` so
that the split trigger `c` is positive, any initial depth, a choice vector
whose attribute indices are valid), inserting a list of tuples that each fit
in a page with `addToRelation` — splits included — and then draining a
full-wildcard query with `startQuery`/`getNextTuple` returns exactly the
inserted multiset of tuples. -/
theorem c1_round_trip (hf : String → Nat) (na d : Nat) (cv : List ChVecItem)
    (hna : 1 ≤ na) (hna2 : na ≤ 102)
    (hcv : ∀ i : Nat, (cv.getD i (0, 0)).1 < na)
    (ts : List Tuple) (hfit : ∀ t ∈ ts, tupLen t ≤ DATACAP)
    (ifuel : Nat) (r' : Reln) (l : List (Option Nat))
    (hins : insertAll hf ifuel (newRelation na (2 ^ d) d cv) ts = some (r', l))
    (gfuel n : Nat) (out : List Tuple) (tr : List Nat)
    (hq : collectRun r' gfuel n (startQuery hf r' (List.replicate r'.nattrs "?")).1 = some (out, tr)) :
    (out : Multiset Tuple) = (ts : Multiset Tuple) := by
  have hnw := newRelation_wf na (2 ^ d) d cv rfl
  have hc0 : 0 < (newRelation na (2 ^ d) d cv).c := by
    show 0 < 1024 / (10 * na)
    exact Nat.div_pos (by omega) (by omega)
  have hsp0 : (newRelation na (2 ^ d) d cv).sp < 2 ^ (newRelation na (2 ^ d) d cv).depth := by
    show 0 < 2 ^ d
    positivity
  have hall := insertAll_wf hnw.1 rfl hsp0 hc0 hfit hins
  obtain ⟨w1, w2, w3, w4, w5, w6, w7⟩ := hall
  have hcv2 : ∀ i < r'.depth + 1, (r'.cv.getD i (0, 0)).1 < r'.nattrs := by
    intro i _
    rw [w5, w6]
    exact hcv i
  have hnp0 : 0 < r'.npages := by
    have := w1.1
    have hd : (0:Nat) < 2 ^ r'.depth := by positivity
    omega
  have hbound : r'.npages ≤ 2 ^ (r'.depth + 1) := by
    have h1 := w1.1
    have h2 := w1.2.1
    have hps : 2 ^ (r'.depth + 1) = 2 ^ r'.depth * 2 := pow_succ 2 r'.depth
    omega
  have hout := fullwild_query_content hf w1.2.2.2.1 w1.2.2.2.2.1 w1.2.2.1 hnp0 hbound hcv2 hq
  rw [hout, w7, hnw.2]
  simp

def relnC1 : Reln :=
  { nattrs := 1, depth := 0, sp := 0, npages := 1, ntups := 2, c := 102, insertion := 2
    splitting := false, cv := [], data := [⟨[["x"], ["y"]], none⟩], ovflow := [] }

theorem c1_round_trip_witness :
    insertAll hfZero 1 (newRelation 1 (2 ^ 0) 0 []) [["x"], ["y"]] =
      some (relnC1, [some 0, some 0]) ∧
    collectRun relnC1 10 10 (startQuery hfZero relnC1 (List.replicate relnC1.nattrs "?")).1 =
      some ([["x"], ["y"]], []) ∧
    (([["x"], ["y"]] : List Tuple) : Multiset Tuple) = (([["x"], ["y"]] : List Tuple) : Multiset Tuple) :=
  ⟨by decide, by decide,
    c1_round_trip hfZero 1 0 [] (by decide) (by decide)
      (fun i => by rw [List.getD_nil]; decide) [["x"], ["y"]] (by decide) 1 relnC1
      [some 0, some 0] (by decide) 10 10 [["x"], ["y"]] [] (by decide)⟩

/-! ### The hash-residence invariant (spec §3) -/

/-- The effective depth of bucket `b` (spec §3): `d+1` bits if the bucket
was already split this round (`b < sp`) or is a buddy created this round
(`b ≥ 2^d`), else `d` bits. -/
def effDepth (d sp b : Nat) : Nat := if b < sp ∨ 2 ^ d ≤ b then d + 1 else d

/-- Tuple `t` is correctly resident in bucket `b`: the low `effDepth` bits
of its composite hash equal `b`. -/
def resAt (hf : String → Nat) (cv : List ChVecItem) (d sp b : Nat) (t : Tuple) : Prop :=
  getLower (tupleHash hf cv t) (effDepth d sp b) = b

/-- The residence invariant of a relation at rest: every tuple of every
bucket (primary page and overflow chain) is correctly resident. -/
def Residence (hf : String → Nat) (r : Reln) : Prop :=
  ∀ b < r.npages, ∀ t ∈ bucketTuples r b, resAt hf r.cv r.depth r.sp b t

/-- The overflow pages still pending re-distribution during a split: the
chain reachable from the link `o` that the overflow phase of `splitSp` has
not yet processed. -/
def staleSet (r : Reln) (o : Option Nat) : List Nat := chainFrom r r.ovflow.length o

/-- The mid-split residence invariant while bucket `q` is being split and
the chain from `o` is still unprocessed: primary pages and already
processed overflow pages are correctly resident at the current (advanced)
split pointer, while the pending pages hold tuples whose `d`-bit address
is the split source `q`; the pending pages all lie on bucket `q`'s chain. -/
def WRes (hf : String → Nat) (r : Reln) (q : Nat) (o : Option Nat) : Prop :=
  (∀ b < r.npages, ∀ t ∈ (getDataPg r b).tuples, resAt hf r.cv r.depth r.sp b t) ∧
  (∀ b < r.npages, ∀ j ∈ bucketChain r b, j ∉ staleSet r o →
     ∀ t ∈ (getOvPg r j).tuples, resAt hf r.cv r.depth r.sp b t) ∧
  (∀ j ∈ staleSet r o, ∀ t ∈ (getOvPg r j).tuples,
     getLower (tupleHash hf r.cv t) r.depth = q) ∧
  (∀ j ∈ staleSet r o, j ∈ bucketChain r q) ∧
  (∀ i ∈ o, i < r.ovflow.length)

theorem strong_placement {h d sp : Nat} :
    getLower h (effDepth d sp (bucketAddr h d sp)) = bucketAddr h d sp := by
  have h2d : 0 < 2 ^ d := Nat.pos_pow_of_pos d (by omega)
  have hm : h % 2 ^ d < 2 ^ d := Nat.mod_lt _ h2d
  unfold bucketAddr effDepth getLower
  simp only
  by_cases hlt : h % 2 ^ d < sp
  · rw [if_pos hlt]
    rcases mod_pow_succ_cases h d with hc | hc
    · rw [if_pos (Or.inl (by omega))]
    · rw [if_pos (Or.inr (by omega))]
  · rw [if_neg hlt, if_neg (by push_neg; omega)]

theorem strong_to_weak {hf : String → Nat} {cv : List ChVecItem} {d sp b : Nat} {t : Tuple}
    (hb : b < 2 ^ d) (hs : resAt hf cv d sp b t) :
    getLower (tupleHash hf cv t) d = b := by
  unfold resAt effDepth at hs
  unfold getLower at hs ⊢
  split at hs
  · have hdvd : (2 : Nat) ^ d ∣ 2 ^ (d + 1) := pow_dvd_pow 2 (by omega)
    have := Nat.mod_mod_of_dvd (tupleHash hf cv t) hdvd
    rw [← this, hs]
    exact Nat.mod_eq_of_lt hb
  · exact hs

theorem chainFrom_congr2 {r r' : Reln} (hag : ∀ j, (getOvPg r' j).ov = (getOvPg r j).ov) :
    ∀ (fuel : Nat) (o : Option Nat), chainFrom r' fuel o = chainFrom r fuel o := by
  intro fuel
  induction fuel with
  | zero => intro o; cases o <;> rfl
  | succ n ih =>
    intro o
    cases o with
    | none => rfl
    | some j =>
      show j :: chainFrom r' n (getOvPg r' j).ov = j :: chainFrom r n (getOvPg r j).ov
      rw [hag j, ih]

theorem chainFrom_avoid {r r' : Reln} {L jl : Nat}
    (hag : ∀ j, j < L → j ≠ jl → (getOvPg r' j).ov = (getOvPg r j).ov)
    (hLk : ∀ j < L, ∀ k ∈ (getOvPg r j).ov, j < k ∧ k < L) :
    ∀ (f1 : Nat), ∀ {f2 j : Nat}, j < L → L - j ≤ f1 → L - j ≤ f2 →
    jl ∉ chainFrom r f2 (some j) →
    chainFrom r' f1 (some j) = chainFrom r f2 (some j) := by
  intro f1
  induction f1 with
  | zero => intro f2 j hj h1 h2 hnm; omega
  | succ a ih =>
    intro f2 j hj h1 h2 hnm
    cases f2 with
    | zero => omega
    | succ b =>
      have hmem : j ∈ chainFrom r (b + 1) (some j) := by
        show j ∈ j :: chainFrom r b (getOvPg r j).ov
        exact List.mem_cons_self _ _
      have hjjl : j ≠ jl := fun hcon => hnm (by rw [← hcon]; exact hmem)
      show j :: chainFrom r' a (getOvPg r' j).ov = j :: chainFrom r b (getOvPg r j).ov
      rw [hag j hj hjjl]
      cases ho : (getOvPg r j).ov with
      | none => rw [chainFrom_none, chainFrom_none]
      | some k =>
        obtain ⟨hjk, hk⟩ := hLk j hj k (by rw [ho]; rfl)
        have hnm2 : jl ∉ chainFrom r b (some k) := by
          intro hmem
          exact hnm (by show jl ∈ j :: chainFrom r b (getOvPg r j).ov; rw [ho]; exact List.mem_cons_of_mem _ hmem)
        rw [ih hk (by omega) (by omega) hnm2]

theorem chainFrom_snoc {r r' : Reln} {L jl : Nat}
    (hag : ∀ j, j < L → j ≠ jl → (getOvPg r' j).ov = (getOvPg r j).ov)
    (hjlnew : (getOvPg r' jl).ov = some L)
    (hLnew : (getOvPg r' L).ov = none)
    (hLk : ∀ j < L, ∀ k ∈ (getOvPg r j).ov, j < k ∧ k < L)
    (hjlold : (getOvPg r jl).ov = none) :
    ∀ (f1 : Nat), ∀ {f2 j : Nat}, j < L → L - j ≤ f1 → L + 1 - j ≤ f2 →
    jl ∈ chainFrom r f1 (some j) →
    chainFrom r' f2 (some j) = chainFrom r f1 (some j) ++ [L] := by
  intro f1
  induction f1 with
  | zero => intro f2 j hj h1 h2 hm; omega
  | succ a ih =>
    intro f2 j hj h1 h2 hm
    cases f2 with
    | zero => omega
    | succ b =>
      show chainFrom r' (b + 1) (some j) = (j :: chainFrom r a (getOvPg r j).ov) ++ [L]
      by_cases hjjl : j = jl
      · subst hjjl
        rw [hjlold, chainFrom_none]
        show j :: chainFrom r' b (getOvPg r' j).ov = [j] ++ [L]
        rw [hjlnew]
        cases b with
        | zero => omega
        | succ b2 =>
          show j :: L :: chainFrom r' b2 (getOvPg r' L).ov = [j] ++ [L]
          rw [hLnew, chainFrom_none]
          rfl
      · show j :: chainFrom r' b (getOvPg r' j).ov = (j :: chainFrom r a (getOvPg r j).ov) ++ [L]
        have hmx : jl ∈ j :: chainFrom r a (getOvPg r j).ov := hm
        rw [hag j hj hjjl]
        cases ho : (getOvPg r j).ov with
        | none =>
          rw [ho, chainFrom_none] at hmx
          simp at hmx
          exact absurd hmx.symm hjjl
        | some k =>
          rw [ho] at hmx
          obtain ⟨hjk, hk⟩ := hLk j hj k (by rw [ho]; rfl)
          have hm2 : jl ∈ chainFrom r a (some k) := by
            rcases List.mem_cons.mp hmx with hx | hx
            · exact absurd hx.symm hjjl
            · exact hx
          rw [ih hk (by omega) (by omega) hm2]
          rfl

theorem getOvPg_bump (r : Reln) (j : Nat) : getOvPg (bump r) j = getOvPg r j := by
  unfold getOvPg
  rw [bump_ovflow]

theorem getDataPg_bump (r : Reln) (b : Nat) : getDataPg (bump r) b = getDataPg r b := by
  unfold getDataPg
  rw [bump_data]

theorem chains_eq_of_links_eq {r r' : Reln} (hlo : r'.ovflow.length = r.ovflow.length)
    (hgd : ∀ b, (getDataPg r' b).ov = (getDataPg r b).ov)
    (hgo : ∀ j, (getOvPg r' j).ov = (getOvPg r j).ov) :
    (∀ b, bucketChain r' b = bucketChain r b) ∧ (∀ o, staleSet r' o = staleSet r o) := by
  have hcf := chainFrom_congr2 hgo
  constructor
  · intro b
    unfold bucketChain
    rw [hlo, hgd b, hcf]
  · intro o
    unfold staleSet
    rw [hlo, hcf]

theorem wres_to_residence {hf : String → Nat} {r : Reln} {q : Nat}
    (h : WRes hf r q none) : Residence hf r := by
  obtain ⟨A, B, -, -, -⟩ := h
  intro b hb t ht
  unfold bucketTuples at ht
  rcases List.mem_append.mp ht with ht | ht
  · exact A b hb t ht
  · rw [List.mem_flatten] at ht
    obtain ⟨l, hl, htl⟩ := ht
    rw [List.mem_map] at hl
    obtain ⟨j, hj, hjl⟩ := hl
    subst hjl
    refine B b hb j hj ?_ t htl
    unfold staleSet
    rw [chainFrom_none]
    simp

theorem residence_to_wres {hf : String → Nat} {r : Reln}
    (h : Residence hf r) (q : Nat) : WRes hf r q none := by
  have hstale : staleSet r none = [] := by
    unfold staleSet
    rw [chainFrom_none]
  refine ⟨?_, ?_, ?_, ?_, ?_⟩
  · intro b hb t ht
    exact h b hb t (by unfold bucketTuples; exact List.mem_append_left _ ht)
  · intro b hb j hj hstj t ht
    refine h b hb t ?_
    unfold bucketTuples
    refine List.mem_append_right _ ?_
    rw [List.mem_flatten]
    exact ⟨(getOvPg r j).tuples, List.mem_map_of_mem _ hj, ht⟩
  · intro j hj
    rw [hstale] at hj
    simp at hj
  · intro j hj
    rw [hstale] at hj
    simp at hj
  · intro i hi
    simp at hi

theorem chain_owner_unique {r : Reln} (hL : LinksOk r) (hD : InDegOne r)
    {j b1 b2 : Nat} (hj : j < r.ovflow.length)
    (h1 : j ∈ bucketChain r b1) (h2 : j ∈ bucketChain r b2) : b1 = b2 := by
  obtain ⟨b, -, -, hu⟩ := chain_root_exists_unique hL hD j hj
  rw [hu b1 h1, hu b2 h2]

theorem wres_update_ov {hf : String → Nat} {r r' : Reln} {q : Nat} {o : Option Nat}
    (hR : WRes hf r q o) (hW : WF r) (hq : q < 2 ^ r.depth)
    (hnp : r'.npages = r.npages) (hcv : r'.cv = r.cv) (hdep : r'.depth = r.depth)
    (hsp : r'.sp = r.sp) (hlo : r'.ovflow.length = r.ovflow.length)
    (hgd : ∀ b, getDataPg r' b = getDataPg r b)
    (j0 : Nat) (hgo : ∀ j, j ≠ j0 → getOvPg r' j = getOvPg r j)
    (hgo0 : (getOvPg r' j0).ov = (getOvPg r j0).ov)
    (b0 : Nat) (hb0 : b0 < r.npages) (hj0m : j0 ∈ bucketChain r b0)
    (hnewS : ∀ t ∈ (getOvPg r' j0).tuples,
      t ∈ (getOvPg r j0).tuples ∨ resAt hf r.cv r.depth r.sp b0 t) :
    WRes hf r' q o := by
  obtain ⟨A, B, C, D, E⟩ := hR
  have hLk := hW.2.2.2.1
  have hDg := hW.2.2.2.2.1
  have hlink : ∀ j, (getOvPg r' j).ov = (getOvPg r j).ov := by
    intro j
    by_cases hj : j = j0
    · subst hj; exact hgo0
    · rw [hgo j hj]
  have hch := chains_eq_of_links_eq hlo (fun b => by rw [hgd b]) hlink
  have hj0lt : j0 < r.ovflow.length := bucketChain_mem_lt hLk hj0m
  refine ⟨?_, ?_, ?_, ?_, ?_⟩
  · intro b hb t ht
    rw [hnp] at hb
    rw [hgd b] at ht
    unfold resAt
    rw [hcv, hdep, hsp]
    exact A b hb t ht
  · intro b hb j hj hst t ht
    rw [hnp] at hb
    rw [hch.1 b] at hj
    rw [hch.2 o] at hst
    unfold resAt
    rw [hcv, hdep, hsp]
    by_cases hjj0 : j = j0
    · subst hjj0
      have hbb0 : b = b0 := chain_owner_unique hLk hDg hj0lt hj hj0m
      subst hbb0
      rcases hnewS t ht with hold | hstr
      · exact B b hb j hj hst t hold
      · exact hstr
    · rw [hgo j hjj0] at ht
      exact B b hb j hj hst t ht
  · intro j hj t ht
    rw [hch.2 o] at hj
    rw [hcv, hdep]
    by_cases hjj0 : j = j0
    · subst hjj0
      have hb0q : b0 = q := chain_owner_unique hLk hDg hj0lt hj0m (D j hj)
      rcases hnewS t ht with hold | hstr
      · exact C j hj t hold
      · subst hb0q
        exact strong_to_weak hq hstr
    · rw [hgo j hjj0] at ht
      exact C j hj t ht
  · intro j hj
    rw [hch.2 o] at hj
    rw [hch.1 q]
    exact D j hj
  · intro i hi
    rw [hlo]
    exact E i hi

theorem wres_update_data {hf : String → Nat} {r r' : Reln} {q : Nat} {o : Option Nat}
    (hR : WRes hf r q o) (hW : WF r)
    (hnp : r'.npages = r.npages) (hcv : r'.cv = r.cv) (hdep : r'.depth = r.depth)
    (hsp : r'.sp = r.sp) (hlo : r'.ovflow.length = r.ovflow.length)
    (p0 : Nat) (hp0 : p0 < r.npages)
    (hgd : ∀ b, b ≠ p0 → getDataPg r' b = getDataPg r b)
    (hgd0 : (getDataPg r' p0).ov = (getDataPg r p0).ov)
    (hgo : ∀ j, getOvPg r' j = getOvPg r j)
    (hnewS : ∀ t ∈ (getDataPg r' p0).tuples,
      t ∈ (getDataPg r p0).tuples ∨ resAt hf r.cv r.depth r.sp p0 t) :
    WRes hf r' q o := by
  obtain ⟨A, B, C, D, E⟩ := hR
  have hdlink : ∀ b, (getDataPg r' b).ov = (getDataPg r b).ov := by
    intro b
    by_cases hb : b = p0
    · subst hb; exact hgd0
    · rw [hgd b hb]
  have hch := chains_eq_of_links_eq hlo hdlink (fun j => by rw [hgo j])
  refine ⟨?_, ?_, ?_, ?_, ?_⟩
  · intro b hb t ht
    rw [hnp] at hb
    unfold resAt
    rw [hcv, hdep, hsp]
    by_cases hbp : b = p0
    · subst hbp
      rcases hnewS t ht with hold | hstr
      · exact A b hb t hold
      · exact hstr
    · rw [hgd b hbp] at ht
      exact A b hb t ht
  · intro b hb j hj hst t ht
    rw [hnp] at hb
    rw [hch.1 b] at hj
    rw [hch.2 o] at hst
    rw [hgo j] at ht
    unfold resAt
    rw [hcv, hdep, hsp]
    exact B b hb j hj hst t ht
  · intro j hj t ht
    rw [hch.2 o] at hj
    rw [hgo j] at ht
    rw [hcv, hdep]
    exact C j hj t ht
  · intro j hj
    rw [hch.2 o] at hj
    rw [hch.1 q]
    exact D j hj
  · intro i hi
    rw [hlo]
    exact E i hi

theorem wres_extend_ov {hf : String → Nat} {r : Reln} (hW : WF r) {q : Nat} {o : Option Nat}
    (hq : q < 2 ^ r.depth) (hR : WRes hf r q o) {t : Tuple} {p : Nat}
    (hplen : p < r.npages) (hpstrong : resAt hf r.cv r.depth r.sp p t)
    {ovp : Nat} (hovpm : ovp ∈ bucketChain r p) (hov : (getOvPg r ovp).ov = none)
    {L : Nat} (hLdef : L = r.ovflow.length)
    {r1 r2 s : Reln} (hr1 : r1 = { r with ovflow := r.ovflow ++ [emptyPage] })
    (hr2 : r2 = putOvPg r1 L ⟨[t], none⟩)
    (hs : s = putOvPg r2 ovp ⟨(getOvPg r ovp).tuples, some L⟩) :
    WRes hf (bump s) q o ∧ t ∈ bucketTuples (bump s) p := by
  obtain ⟨hnp, hsple, hdl, hL, hD, hS⟩ := hW
  obtain ⟨A, B, C, D, E⟩ := hR
  have hovplt : ovp < r.ovflow.length := bucketChain_mem_lt hL hovpm
  have hr1len : r1.ovflow.length = L + 1 := by rw [hr1, hLdef]; simp
  have hr2len : r2.ovflow.length = L + 1 := by rw [hr2]; simpa using hr1len
  have hslen : s.ovflow.length = L + 1 := by rw [hs]; simpa using hr2len
  have hsdata : s.data = r.data := by rw [hs, hr2, hr1]; simp
  have hgd : ∀ b, getDataPg s b = getDataPg r b := by
    intro b; unfold getDataPg; rw [hsdata]
  have hgo_ovp : getOvPg s ovp = ⟨(getOvPg r ovp).tuples, some L⟩ := by
    rw [hs]; exact getOvPg_set_same (by omega)
  have hovpL : ovp ≠ L := by omega
  have hgo_L : getOvPg s L = ⟨[t], none⟩ := by
    rw [hs, getOvPg_set_ne hovpL, hr2]
    exact getOvPg_set_same (by omega)
  have hgo_lt : ∀ j, j < L → j ≠ ovp → getOvPg s j = getOvPg r j := by
    intro j hj hjo
    rw [hs, getOvPg_set_ne (fun h => hjo h.symm), hr2, getOvPg_set_ne (by omega), hr1]
    exact getOv_append_lt (by omega)
  have hnp' : (bump s).npages = r.npages := by rw [hs, hr2, hr1]; simp
  have hdep' : (bump s).depth = r.depth := by rw [hs, hr2, hr1]; simp
  have hsp' : (bump s).sp = r.sp := by rw [hs, hr2, hr1]; simp
  have hcv' : (bump s).cv = r.cv := by rw [hs, hr2, hr1]; simp
  have hbo : (bump s).ovflow = s.ovflow := bump_ovflow s
  have hbchain : ∀ b, bucketChain (bump s) b = bucketChain s b := by
    intro b
    unfold bucketChain getDataPg
    rw [bump_data, bump_ovflow]
    exact chainFrom_congr2 (fun j => by rw [getOvPg_bump]) _ _
  have hbstale : ∀ o2, staleSet (bump s) o2 = staleSet s o2 := by
    intro o2
    unfold staleSet
    rw [bump_ovflow]
    exact chainFrom_congr2 (fun j => by rw [getOvPg_bump]) _ _
  have hLk2 : ∀ j < L, ∀ k ∈ (getOvPg r j).ov, j < k ∧ k < L := by
    intro j hj k hk
    have := hL.2 j (by omega) k hk
    omega
  have hag : ∀ j, j < L → j ≠ ovp → (getOvPg s j).ov = (getOvPg r j).ov := by
    intro j hj hjo
    rw [hgo_lt j hj hjo]
  have hjlnew : (getOvPg s ovp).ov = some L := by rw [hgo_ovp]
  have hLnew : (getOvPg s L).ov = none := by rw [hgo_L]
  have hstlt : ∀ j ∈ staleSet r o, j < L := by
    intro j hj
    have := bucketChain_mem_lt hL (D j hj)
    omega
  have hchain_ne : ∀ b, b < r.data.length → b ≠ p → bucketChain s b = bucketChain r b := by
    intro b hb hbp
    unfold bucketChain
    rw [hslen]
    have hlg : (getDataPg s b).ov = (getDataPg r b).ov := by rw [hgd b]
    rw [hlg]
    cases hlink : (getDataPg r b).ov with
    | none => rw [chainFrom_none, chainFrom_none]
    | some i0 =>
      have hi0 : i0 < r.ovflow.length := hL.1 b hb i0 (by rw [hlink]; rfl)
      have hnm : ovp ∉ chainFrom r r.ovflow.length (some i0) := by
        intro hmem
        refine hbp (chain_owner_unique hL hD hovplt ?_ hovpm)
        unfold bucketChain
        rw [hlink]
        exact hmem
      exact chainFrom_avoid hag hLk2 (L + 1) (by omega) (by omega) (by omega) hnm
  have hchain_p : bucketChain s p = bucketChain r p ++ [L] := by
    unfold bucketChain
    rw [hslen]
    have hlg : (getDataPg s p).ov = (getDataPg r p).ov := by rw [hgd p]
    rw [hlg]
    cases hlink : (getDataPg r p).ov with
    | none =>
      unfold bucketChain at hovpm
      rw [hlink, chainFrom_none] at hovpm
      simp at hovpm
    | some i0 =>
      have hi0 : i0 < r.ovflow.length := hL.1 p (by omega) i0 (by rw [hlink]; rfl)
      have hovpm2 : ovp ∈ chainFrom r r.ovflow.length (some i0) := by
        unfold bucketChain at hovpm
        rw [hlink] at hovpm
        exact hovpm
      exact chainFrom_snoc hag hjlnew hLnew hLk2 hov r.ovflow.length (by omega) (by omega) (by omega) hovpm2
  have hstD : (staleSet s o = staleSet r o ∧ ovp ∉ staleSet r o) ∨
      (staleSet s o = staleSet r o ++ [L] ∧ ovp ∈ staleSet r o ∧ p = q) := by
    cases o with
    | none =>
      left
      constructor
      · unfold staleSet
        rw [chainFrom_none, chainFrom_none]
      · unfold staleSet
        rw [chainFrom_none]
        simp
    | some i =>
      have hi : i < r.ovflow.length := E i rfl
      by_cases hovpSt : ovp ∈ staleSet r (some i)
      · right
        have hpq : p = q := chain_owner_unique hL hD hovplt hovpm (D ovp hovpSt)
        refine ⟨?_, hovpSt, hpq⟩
        unfold staleSet at hovpSt ⊢
        rw [hslen]
        exact chainFrom_snoc hag hjlnew hLnew hLk2 hov r.ovflow.length (by omega) (by omega) (by omega) hovpSt
      · left
        refine ⟨?_, hovpSt⟩
        unfold staleSet at hovpSt ⊢
        rw [hslen]
        exact chainFrom_avoid hag hLk2 (L + 1) (by omega) (by omega) (by omega) hovpSt
  have hsub : staleSet r o ⊆ staleSet s o := by
    rcases hstD with ⟨he, -⟩ | ⟨he, -, -⟩
    · rw [he]
      exact fun x hx => hx
    · rw [he]
      exact List.subset_append_left _ _
  have hgot : ∀ j, getOvPg (bump s) j = getOvPg s j := fun j => getOvPg_bump s j
  constructor
  · refine ⟨?_, ?_, ?_, ?_, ?_⟩
    · intro b hb t' ht'
      rw [hnp'] at hb
      rw [getDataPg_bump, hgd b] at ht'
      unfold resAt
      rw [hcv', hdep', hsp']
      exact A b hb t' ht'
    · intro b hb j hj hst t' ht'
      rw [hnp'] at hb
      rw [hbchain b] at hj
      rw [hbstale o] at hst
      rw [hgot j] at ht'
      unfold resAt
      rw [hcv', hdep', hsp']
      by_cases hbp : b = p
      · subst hbp
        rw [hchain_p] at hj
        rcases List.mem_append.mp hj with hj2 | hj2
        · by_cases hjovp : j = ovp
          · rw [hjovp, hgo_ovp] at ht'
            have hnst : ovp ∉ staleSet r o := by
              rcases hstD with ⟨he, hn⟩ | ⟨he, hm, hx⟩
              · exact hn
              · exfalso
                apply hst
                rw [hjovp, he]
                exact List.mem_append_left _ hm
            exact B b hb ovp (hjovp ▸ hj2) hnst t' ht'
          · rw [hgo_lt j (by have := bucketChain_mem_lt hL hj2; omega) hjovp] at ht'
            refine B b hb j hj2 ?_ t' ht'
            intro hmem
            exact hst (hsub hmem)
        · simp at hj2
          subst hj2
          rw [hgo_L] at ht'
          simp at ht'
          subst ht'
          exact hpstrong
      · rw [hchain_ne b (by omega) hbp] at hj
        have hjlt : j < L := by have := bucketChain_mem_lt hL hj; omega
        have hjovp : j ≠ ovp := by
          intro hcon
          subst hcon
          exact hbp (chain_owner_unique hL hD hovplt hj hovpm)
        rw [hgo_lt j hjlt hjovp] at ht'
        refine B b hb j hj ?_ t' ht'
        intro hmem
        exact hst (hsub hmem)
    · intro j hj t' ht'
      rw [hbstale o] at hj
      rw [hgot j] at ht'
      rw [hcv', hdep']
      rcases hstD with ⟨he, hn⟩ | ⟨he, hm, hpq⟩
      · rw [he] at hj
        have hjlt : j < L := hstlt j hj
        have hjovp : j ≠ ovp := fun hcon => hn (hcon ▸ hj)
        rw [hgo_lt j hjlt hjovp] at ht'
        exact C j hj t' ht'
      · rw [he] at hj
        rcases List.mem_append.mp hj with hj2 | hj2
        · by_cases hjovp : j = ovp
          · rw [hjovp, hgo_ovp] at ht'
            exact C ovp (hjovp ▸ hj2) t' ht'
          · rw [hgo_lt j (hstlt j hj2) hjovp] at ht'
            exact C j hj2 t' ht'
        · simp at hj2
          subst hj2
          rw [hgo_L] at ht'
          simp at ht'
          subst ht'
          subst hpq
          exact strong_to_weak hq hpstrong
    · intro j hj
      rw [hbstale o] at hj
      rw [hbchain q]
      have hqlen : q < r.data.length := by omega
      rcases hstD with ⟨he, -⟩ | ⟨he, -, hpq⟩
      · rw [he] at hj
        by_cases hqp : q = p
        · subst hqp
          rw [hchain_p]
          exact List.mem_append_left _ (D j hj)
        · rw [hchain_ne q hqlen hqp]
          exact D j hj
      · subst hpq
        rw [he] at hj
        rw [hchain_p]
        rcases List.mem_append.mp hj with hj2 | hj2
        · exact List.mem_append_left _ (D j hj2)
        · exact List.mem_append_right _ hj2
    · intro i hi
      have := E i hi
      have hblen : (bump s).ovflow.length = L + 1 := by rw [hbo]; exact hslen
      omega
  · unfold bucketTuples
    refine List.mem_append_right _ ?_
    rw [List.mem_flatten]
    refine ⟨(getOvPg (bump s) L).tuples, ?_, ?_⟩
    · refine List.mem_map_of_mem _ ?_
      rw [hbchain p, hchain_p]
      exact List.mem_append_right _ (by simp)
    · rw [hgot L, hgo_L]
      simp

theorem wres_extend_data {hf : String → Nat} {r : Reln} (hW : WF r) {q : Nat} {o : Option Nat}
    (hq : q < 2 ^ r.depth) (hR : WRes hf r q o) {t : Tuple} {p : Nat}
    (hplen : p < r.npages) (hpstrong : resAt hf r.cv r.depth r.sp p t)
    (hnone : (getDataPg r p).ov = none)
    {L : Nat} (hLdef : L = r.ovflow.length)
    {r1 r2 s : Reln} (hr1 : r1 = { r with ovflow := r.ovflow ++ [emptyPage] })
    (hr2 : r2 = putDataPg r1 p ⟨(getDataPg r p).tuples, some L⟩)
    (hs : s = putOvPg r2 L ⟨[t], none⟩) :
    WRes hf (bump s) q o ∧ t ∈ bucketTuples (bump s) p := by
  obtain ⟨hnp, hsple, hdl, hL, hD, hS⟩ := hW
  obtain ⟨A, B, C, D, E⟩ := hR
  have hpd : p < r.data.length := by omega
  have hr1len : r1.ovflow.length = L + 1 := by rw [hr1, hLdef]; simp
  have hr2len : r2.ovflow.length = L + 1 := by rw [hr2]; simpa using hr1len
  have hslen : s.ovflow.length = L + 1 := by rw [hs]; simpa using hr2len
  have hsdlen : s.data.length = r.data.length := by rw [hs, hr2, hr1]; simp
  have hr1dlen : r1.data.length = r.data.length := by rw [hr1]
  have hgd_p : getDataPg s p = ⟨(getDataPg r p).tuples, some L⟩ := by
    rw [hs, getDataPg_putOvPg, hr2]
    exact getDataPg_set_same (by omega)
  have hgd_ne : ∀ b, b ≠ p → getDataPg s b = getDataPg r b := by
    intro b hb
    rw [hs, getDataPg_putOvPg, hr2, getDataPg_set_ne (fun h => hb h.symm), hr1,
      getData_ovUpdate]
  have hgo_L : getOvPg s L = ⟨[t], none⟩ := by
    rw [hs]
    exact getOvPg_set_same (by omega)
  have hgo_lt : ∀ j, j < L → getOvPg s j = getOvPg r j := by
    intro j hj
    rw [hs, getOvPg_set_ne (by omega), hr2, getOvPg_putDataPg, hr1]
    exact getOv_append_lt (by omega)
  have hnp' : (bump s).npages = r.npages := by rw [hs, hr2, hr1]; simp
  have hdep' : (bump s).depth = r.depth := by rw [hs, hr2, hr1]; simp
  have hsp' : (bump s).sp = r.sp := by rw [hs, hr2, hr1]; simp
  have hcv' : (bump s).cv = r.cv := by rw [hs, hr2, hr1]; simp
  have hbchain : ∀ b, bucketChain (bump s) b = bucketChain s b := by
    intro b
    unfold bucketChain getDataPg
    rw [bump_data, bump_ovflow]
    exact chainFrom_congr2 (fun j => by rw [getOvPg_bump]) _ _
  have hbstale : ∀ o2, staleSet (bump s) o2 = staleSet s o2 := by
    intro o2
    unfold staleSet
    rw [bump_ovflow]
    exact chainFrom_congr2 (fun j => by rw [getOvPg_bump]) _ _
  have hLk2 : ∀ j < L, ∀ k ∈ (getOvPg r j).ov, j < k ∧ k < L := by
    intro j hj k hk
    have := hL.2 j (by omega) k hk
    omega
  have hag : ∀ j, j < L → j ≠ L → (getOvPg s j).ov = (getOvPg r j).ov := by
    intro j hj hjo
    rw [hgo_lt j hj]
  have hstlt : ∀ j ∈ staleSet r o, j < L := by
    intro j hj
    have := bucketChain_mem_lt hL (D j hj)
    omega
  have hchain_ne : ∀ b, b < r.data.length → b ≠ p → bucketChain s b = bucketChain r b := by
    intro b hb hbp
    unfold bucketChain
    rw [hslen]
    rw [hgd_ne b hbp]
    cases hlink : (getDataPg r b).ov with
    | none => rw [chainFrom_none, chainFrom_none]
    | some i0 =>
      have hi0 : i0 < r.ovflow.length := hL.1 b hb i0 (by rw [hlink]; rfl)
      have hnm : L ∉ chainFrom r r.ovflow.length (some i0) := by
        intro hmem
        have := chainFrom_mem_bounds hL hi0 hmem
        omega
      exact chainFrom_avoid hag hLk2 (L + 1) (by omega) (by omega) (by omega) hnm
  have hchain_p : bucketChain s p = [L] := by
    unfold bucketChain
    rw [hslen, hgd_p]
    show chainFrom s (L + 1) (some L) = [L]
    have hL1 : L + 1 = 1 + L := by omega
    cases hL2 : L + 1 with
    | zero => omega
    | succ m =>
      show L :: chainFrom s m (getOvPg s L).ov = [L]
      rw [hgo_L]
      show L :: chainFrom s m none = [L]
      rw [chainFrom_none]
  have hstS : staleSet s o = staleSet r o := by
    cases o with
    | none =>
      unfold staleSet
      rw [chainFrom_none, chainFrom_none]
    | some i =>
      have hi : i < r.ovflow.length := E i rfl
      have hnm : L ∉ staleSet r (some i) := by
        intro hmem
        exact absurd (hstlt L hmem) (by omega)
      unfold staleSet at hnm ⊢
      rw [hslen]
      exact chainFrom_avoid hag hLk2 (L + 1) (by omega) (by omega) (by omega) hnm
  have hgot : ∀ j, getOvPg (bump s) j = getOvPg s j := fun j => getOvPg_bump s j
  constructor
  · refine ⟨?_, ?_, ?_, ?_, ?_⟩
    · intro b hb t' ht'
      rw [hnp'] at hb
      rw [getDataPg_bump] at ht'
      unfold resAt
      rw [hcv', hdep', hsp']
      by_cases hbp : b = p
      · rw [hbp, hgd_p] at ht'
        exact hbp ▸ A p hplen t' ht'
      · rw [hgd_ne b hbp] at ht'
        exact A b hb t' ht'
    · intro b hb j hj hst t' ht'
      rw [hnp'] at hb
      rw [hbchain b] at hj
      rw [hbstale o, hstS] at hst
      rw [hgot j] at ht'
      unfold resAt
      rw [hcv', hdep', hsp']
      by_cases hbp : b = p
      · rw [hbp, hchain_p] at hj
        simp at hj
        rw [hj, hgo_L] at ht'
        simp at ht'
        rw [ht', hbp]
        exact hpstrong
      · rw [hchain_ne b (by omega) hbp] at hj
        have hjlt : j < L := by have := bucketChain_mem_lt hL hj; omega
        rw [hgo_lt j hjlt] at ht'
        exact B b hb j hj hst t' ht'
    · intro j hj t' ht'
      rw [hbstale o, hstS] at hj
      rw [hgot j, hgo_lt j (hstlt j hj)] at ht'
      rw [hcv', hdep']
      exact C j hj t' ht'
    · intro j hj
      rw [hbstale o, hstS] at hj
      rw [hbchain q]
      have hqlen : q < r.data.length := by omega
      by_cases hqp : q = p
      · exfalso
        have := D j hj
        rw [hqp] at this
        unfold bucketChain at this
        rw [hnone, chainFrom_none] at this
        simp at this
      · rw [hchain_ne q hqlen hqp]
        exact D j hj
    · intro i hi
      have := E i hi
      have hblen : (bump s).ovflow.length = L + 1 := by rw [bump_ovflow]; exact hslen
      omega
  · unfold bucketTuples
    refine List.mem_append_right _ ?_
    rw [List.mem_flatten]
    refine ⟨(getOvPg (bump s) L).tuples, ?_, ?_⟩
    · refine List.mem_map_of_mem _ ?_
      rw [hbchain p, hchain_p]
      simp
    · rw [hgot L, hgo_L]
      simp

theorem walkChain_res {hf : String → Nat} {r : Reln} (hW : WF r) {q : Nat} {o : Option Nat}
    (hq : q < 2 ^ r.depth) (hR : WRes hf r q o) {t : Tuple} (hfit : tupLen t ≤ DATACAP)
    {p : Nat} (hplen : p < r.npages) (hpstrong : resAt hf r.cv r.depth r.sp p t) :
    ∀ fuel {ovp : Nat} {res : Option Nat} {r' : Reln},
    ovp ∈ bucketChain r p →
    walkChain fuel r t p ovp = some (res, r') →
    WRes hf r' q o ∧ t ∈ bucketTuples r' p := by
  have hL := hW.2.2.2.1
  intro fuel
  induction fuel with
  | zero => intro ovp res r' hm h; simp [walkChain] at h
  | succ n ih =>
    intro ovp res r' hovpm h
    have hovplt : ovp < r.ovflow.length := bucketChain_mem_lt hL hovpm
    simp only [walkChain] at h
    cases hadd : addToPage (getOvPg r ovp) t with
    | some pg1 =>
      simp only [hadd, Option.some.injEq, Prod.mk.injEq] at h
      obtain ⟨h1, h2⟩ := h
      subst h2
      have hpg := addToPage_eq hadd
      subst hpg
      refine ⟨wres_update_ov hR hW hq (by simp) (by simp) (by simp) (by simp) (by simp)
        (fun b => by rw [getDataPg_bump, getDataPg_putOvPg]) ovp
        (fun j hj => by rw [getOvPg_bump]; exact getOvPg_set_ne (Ne.symm hj))
        (by rw [getOvPg_bump, getOvPg_set_same hovplt])
        p hplen hovpm ?_, ?_⟩
      · intro t' ht'
        rw [getOvPg_bump, getOvPg_set_same hovplt] at ht'
        rcases List.mem_append.mp ht' with hold | hnew
        · exact Or.inl hold
        · simp at hnew
          subst hnew
          exact Or.inr hpstrong
      · have hch := chains_eq_of_links_eq
          (show (bump (putOvPg r ovp ⟨(getOvPg r ovp).tuples ++ [t], (getOvPg r ovp).ov⟩)).ovflow.length = r.ovflow.length by simp)
          (fun b => by rw [getDataPg_bump, getDataPg_putOvPg])
          (fun j => by
            rw [getOvPg_bump]
            exact getOvPg_set_ov (show (⟨(getOvPg r ovp).tuples ++ [t], (getOvPg r ovp).ov⟩ : Page).ov = (getOvPg r ovp).ov from rfl) j)
        have hmem : ovp ∈ bucketChain (bump (putOvPg r ovp
            ⟨(getOvPg r ovp).tuples ++ [t], (getOvPg r ovp).ov⟩)) p := by
          rw [hch.1 p]
          exact hovpm
        have htm : t ∈ (getOvPg (bump (putOvPg r ovp
            ⟨(getOvPg r ovp).tuples ++ [t], (getOvPg r ovp).ov⟩)) ovp).tuples := by
          rw [getOvPg_bump, getOvPg_set_same hovplt]
          simp
        unfold bucketTuples
        refine List.mem_append_right _ ?_
        rw [List.mem_flatten]
        exact ⟨_, List.mem_map_of_mem _ hmem, htm⟩
    | none =>
      simp only [hadd] at h
      cases hov : (getOvPg r ovp).ov with
      | some nxt =>
        simp only [hov] at h
        have hpd : p < r.data.length := by
          have := hW.2.2.1
          have := hW.1
          omega
        have hnxtm : nxt ∈ bucketChain r p := by
          cases hlink : (getDataPg r p).ov with
          | none =>
            unfold bucketChain at hovpm
            rw [hlink, chainFrom_none] at hovpm
            simp at hovpm
          | some i0 =>
            have hi0 : i0 < r.ovflow.length := hL.1 p hpd i0 (by rw [hlink]; rfl)
            have hovpm2 : ovp ∈ chainFrom r r.ovflow.length (some i0) := by
              unfold bucketChain at hovpm
              rw [hlink] at hovpm
              exact hovpm
            have := @chainFrom_next_mem r hL r.ovflow.length i0 ovp nxt (by omega) hi0 hovpm2 hov
            unfold bucketChain
            rw [hlink]
            exact this
        exact ih hnxtm h
      | none =>
        simp only [hov, addToPage_empty_of_fit hfit, Option.some.injEq, Prod.mk.injEq] at h
        obtain ⟨h1, h2⟩ := h
        subst h2
        exact wres_extend_ov hW hq hR hplen hpstrong hovpm hov rfl rfl rfl rfl

theorem placeBody_res {hf : String → Nat} {r : Reln} (hW : WF r) {q : Nat} {o : Option Nat}
    (hq : q < 2 ^ r.depth) (hR : WRes hf r q o) {t : Tuple} (hfit : tupLen t ≤ DATACAP)
    {res : Option Nat} {r' : Reln}
    (h : placeBody hf r t = some (res, r')) :
    WRes hf r' q o ∧ t ∈ bucketTuples r' (bucketAddr (tupleHash hf r.cv t) r.depth r.sp) := by
  have hL := hW.2.2.2.1
  have hplen : bucketAddr (tupleHash hf r.cv t) r.depth r.sp < r.npages := by
    have := @bucketAddr_lt (tupleHash hf r.cv t) r.depth r.sp hW.2.1
    have h1 := hW.1
    omega
  have hpd : bucketAddr (tupleHash hf r.cv t) r.depth r.sp < r.data.length := by
    have := hW.2.2.1
    omega
  have hpstrong : resAt hf r.cv r.depth r.sp (bucketAddr (tupleHash hf r.cv t) r.depth r.sp) t :=
    @strong_placement (tupleHash hf r.cv t) r.depth r.sp
  simp only [placeBody] at h
  cases hadd : addToPage (getDataPg r (bucketAddr (tupleHash hf r.cv t) r.depth r.sp)) t with
  | some pg1 =>
    simp only [hadd, Option.some.injEq, Prod.mk.injEq] at h
    obtain ⟨h1, h2⟩ := h
    subst h2
    have hpg := addToPage_eq hadd
    subst hpg
    refine ⟨wres_update_data hR hW (by simp) (by simp) (by simp) (by simp) (by simp)
      (bucketAddr (tupleHash hf r.cv t) r.depth r.sp) hplen
      (fun b hb => by rw [getDataPg_bump]; exact getDataPg_set_ne (Ne.symm hb))
      (by rw [getDataPg_bump, getDataPg_set_same hpd])
      (fun j => by rw [getOvPg_bump, getOvPg_putDataPg]) ?_, ?_⟩
    · intro t' ht'
      rw [getDataPg_bump, getDataPg_set_same hpd] at ht'
      rcases List.mem_append.mp ht' with hold | hnew
      · exact Or.inl hold
      · simp at hnew
        subst hnew
        exact Or.inr hpstrong
    · unfold bucketTuples
      refine List.mem_append_left _ ?_
      rw [getDataPg_bump, getDataPg_set_same hpd]
      simp
  | none =>
    simp only [hadd] at h
    cases hov : (getDataPg r (bucketAddr (tupleHash hf r.cv t) r.depth r.sp)).ov with
    | none =>
      simp only [hov, addToPage_empty_of_fit hfit, Option.some.injEq, Prod.mk.injEq] at h
      obtain ⟨h1, h2⟩ := h
      subst h2
      exact wres_extend_data hW hq hR hplen hpstrong hov rfl rfl rfl rfl
    | some ovp0 =>
      simp only [hov] at h
      have hovp0lt : ovp0 < r.ovflow.length := hL.1 _ hpd ovp0 (by rw [hov]; rfl)
      have hovp0m : ovp0 ∈ bucketChain r (bucketAddr (tupleHash hf r.cv t) r.depth r.sp) := by
        unfold bucketChain
        rw [hov, chainFrom_cons hL hovp0lt]
        exact List.mem_cons_self _ _
      exact walkChain_res hW hq hR hfit hplen hpstrong _ hovp0m h

theorem bucketTuples_congr {r r' : Reln} (hd : r'.data = r.data) (ho : r'.ovflow = r.ovflow)
    (b : Nat) : bucketTuples r' b = bucketTuples r b := by
  have hgd : ∀ b2, getDataPg r' b2 = getDataPg r b2 := by
    intro b2; unfold getDataPg; rw [hd]
  have hgo : ∀ j, getOvPg r' j = getOvPg r j := by
    intro j; unfold getOvPg; rw [ho]
  have hbc : bucketChain r' b = bucketChain r b := by
    unfold bucketChain
    rw [ho, hgd b]
    exact chainFrom_congr2 (fun j => by rw [hgo j]) _ _
  have hmap : List.map (fun j => (getOvPg r' j).tuples) (bucketChain r b) =
      List.map (fun j => (getOvPg r j).tuples) (bucketChain r b) :=
    List.map_congr_left (fun j _ => by rw [hgo j])
  unfold bucketTuples
  rw [hgd b, hbc, hmap]

theorem residence_congr {hf : String → Nat} {r r' : Reln}
    (hd : r'.data = r.data) (ho : r'.ovflow = r.ovflow) (hnp : r'.npages = r.npages)
    (hcv : r'.cv = r.cv) (hdep : r'.depth = r.depth) (hsp : r'.sp = r.sp)
    (h : Residence hf r) : Residence hf r' := by
  intro b hb t ht
  rw [hnp] at hb
  rw [bucketTuples_congr hd ho b] at ht
  unfold resAt
  rw [hcv, hdep, hsp]
  exact h b hb t ht

theorem residence_wrap {hf : String → Nat} {r : Reln} (hRes : Residence hf r)
    (hsp : r.sp = 2 ^ r.depth) (hnp : r.npages = 2 ^ r.depth + r.sp) :
    Residence hf { r with depth := r.depth + 1, sp := 0 } := by
  intro b hb t ht
  have hb2 : b < r.npages := by simpa using hb
  have ht2 : t ∈ bucketTuples r b := by
    rw [@bucketTuples_congr r { r with depth := r.depth + 1, sp := 0 } rfl rfl b] at ht
    exact ht
  have hold := hRes b hb2 t ht2
  unfold resAt at hold ⊢
  have hps : 2 ^ (r.depth + 1) = 2 ^ r.depth * 2 := pow_succ 2 r.depth
  have heff1 : effDepth r.depth r.sp b = r.depth + 1 := by
    unfold effDepth
    rw [if_pos (by omega)]
  have heff2 : effDepth ({ r with depth := r.depth + 1, sp := 0 } : Reln).depth
      ({ r with depth := r.depth + 1, sp := 0 } : Reln).sp b = r.depth + 1 := by
    unfold effDepth
    simp only
    rw [if_neg (by push_neg; omega)]
  rw [heff1] at hold
  show getLower (tupleHash hf ({ r with depth := r.depth + 1, sp := 0 } : Reln).cv t) _ = b
  rw [heff2]
  simpa using hold

theorem effDepth_shift {d sp b : Nat} (hb : b ≠ sp) :
    effDepth d (sp + 1) b = effDepth d sp b := by
  unfold effDepth
  by_cases hb1 : b < sp
  · rw [if_pos (Or.inl (by omega)), if_pos (Or.inl hb1)]
  · by_cases hb2 : 2 ^ d ≤ b
    · rw [if_pos (Or.inr hb2), if_pos (Or.inr hb2)]
    · rw [if_neg (by push_neg; omega), if_neg (by push_neg; omega)]

theorem wres_split_open {hf : String → Nat} {r : Reln} (hW : WF r) (hsp : r.sp < 2 ^ r.depth)
    (hRes : Residence hf r)
    {r1 r3 : Reln}
    (hr1 : r1 = { r with data := r.data ++ [emptyPage], npages := r.npages + 1 })
    (hr3 : r3 = { putDataPg r1 r.sp ⟨[], (getDataPg r1 r.sp).ov⟩ with sp := r.sp + 1 }) :
    WRes hf r3 r.sp ((getDataPg r1 r.sp).ov) := by
  obtain ⟨hnp, hsple, hdl, hL, hD, hS⟩ := hW
  have hsplen : r.sp < r.data.length := by omega
  have hcur : getDataPg r1 r.sp = getDataPg r r.sp := by
    rw [hr1]
    exact getData_dataAppend_lt hsplen
  have hr1dlen : r1.data.length = r.data.length + 1 := by rw [hr1]; simp
  have hr3dlen : r3.data.length = r.data.length + 1 := by
    rw [hr3]
    simpa using hr1dlen
  have hgd_sp : getDataPg r3 r.sp = ⟨[], (getDataPg r1 r.sp).ov⟩ := by
    rw [hr3]
    show getDataPg (putDataPg r1 r.sp ⟨[], (getDataPg r1 r.sp).ov⟩) r.sp = _
    exact getDataPg_set_same (by omega)
  have hgd_ne : ∀ b, b ≠ r.sp → b < r.data.length → getDataPg r3 b = getDataPg r b := by
    intro b hb hblen
    rw [hr3]
    show getDataPg (putDataPg r1 r.sp ⟨[], (getDataPg r1 r.sp).ov⟩) b = _
    rw [getDataPg_set_ne (fun h => hb h.symm), hr1]
    exact getData_dataAppend_lt hblen
  have hgd_last : getDataPg r3 r.data.length = emptyPage := by
    rw [hr3]
    show getDataPg (putDataPg r1 r.sp ⟨[], (getDataPg r1 r.sp).ov⟩) r.data.length = _
    rw [getDataPg_set_ne (by omega), hr1]
    exact getData_dataAppend_self
  have hgo : ∀ j, getOvPg r3 j = getOvPg r j := by
    intro j
    rw [hr3]
    show getOvPg (putDataPg r1 r.sp ⟨[], (getDataPg r1 r.sp).ov⟩) j = _
    rw [getOvPg_putDataPg, hr1, getOv_dataUpdate]
  have hr3olen : r3.ovflow.length = r.ovflow.length := by simp [hr3, hr1]
  have hnp3 : r3.npages = r.npages + 1 := by simp [hr3, hr1]
  have hdep3 : r3.depth = r.depth := by simp [hr3, hr1]
  have hsp3 : r3.sp = r.sp + 1 := by simp [hr3, hr1]
  have hcv3 : r3.cv = r.cv := by simp [hr3, hr1]
  have hchain_sp : bucketChain r3 r.sp = bucketChain r r.sp := by
    unfold bucketChain
    rw [hr3olen, hgd_sp]
    show chainFrom r3 r.ovflow.length (getDataPg r1 r.sp).ov = _
    rw [hcur]
    exact chainFrom_congr2 (fun j => by rw [hgo j]) _ _
  have hchain_ne : ∀ b, b ≠ r.sp → b < r.data.length → bucketChain r3 b = bucketChain r b := by
    intro b hb hblen
    unfold bucketChain
    rw [hr3olen, hgd_ne b hb hblen]
    exact chainFrom_congr2 (fun j => by rw [hgo j]) _ _
  have hchain_last : bucketChain r3 r.data.length = [] := by
    unfold bucketChain
    rw [hgd_last]
    show chainFrom r3 r3.ovflow.length none = []
    rw [chainFrom_none]
  have hstale : staleSet r3 ((getDataPg r1 r.sp).ov) = bucketChain r r.sp := by
    unfold staleSet bucketChain
    rw [hr3olen, hcur]
    exact chainFrom_congr2 (fun j => by rw [hgo j]) _ _
  have hmemP : ∀ b < r.npages, ∀ t ∈ (getDataPg r b).tuples, t ∈ bucketTuples r b := by
    intro b hb t ht
    unfold bucketTuples
    exact List.mem_append_left _ ht
  have hmemC : ∀ b < r.npages, ∀ j ∈ bucketChain r b, ∀ t ∈ (getOvPg r j).tuples,
      t ∈ bucketTuples r b := by
    intro b hb j hj t ht
    unfold bucketTuples
    refine List.mem_append_right _ ?_
    rw [List.mem_flatten]
    exact ⟨_, List.mem_map_of_mem _ hj, ht⟩
  refine ⟨?_, ?_, ?_, ?_, ?_⟩
  · intro b hb t ht
    rw [hnp3] at hb
    unfold resAt
    rw [hcv3, hdep3, hsp3]
    by_cases hbsp : b = r.sp
    · rw [hbsp, hgd_sp] at ht
      simp at ht
    · by_cases hbl : b = r.data.length
      · rw [hbl, hgd_last] at ht
        simp [emptyPage] at ht
      · rw [hgd_ne b hbsp (by omega)] at ht
        rw [effDepth_shift hbsp]
        exact hRes b (by omega) t (hmemP b (by omega) t ht)
  · intro b hb j hj hst t ht
    rw [hnp3] at hb
    rw [hstale] at hst
    unfold resAt
    rw [hcv3, hdep3, hsp3]
    by_cases hbsp : b = r.sp
    · rw [hbsp, hchain_sp] at hj
      exact absurd (hbsp ▸ hj) (hbsp ▸ hst)
    · by_cases hbl : b = r.data.length
      · rw [hbl, hchain_last] at hj
        simp at hj
      · rw [hchain_ne b hbsp (by omega)] at hj
        rw [hgo j] at ht
        rw [effDepth_shift hbsp]
        exact hRes b (by omega) t (hmemC b (by omega) j hj t ht)
  · intro j hj t ht
    rw [hstale] at hj
    rw [hgo j] at ht
    rw [hcv3, hdep3]
    have hold := hRes r.sp (by omega) t (hmemC r.sp (by omega) j hj t ht)
    unfold resAt at hold
    have heq : effDepth r.depth r.sp r.sp = r.depth := by
      unfold effDepth
      rw [if_neg (by push_neg; omega)]
    rw [heq] at hold
    exact hold
  · intro j hj
    rw [hstale] at hj
    rw [hchain_sp]
    exact hj
  · intro i hi
    rw [hcur] at hi
    have := hL.1 r.sp hsplen i hi
    omega

theorem reinsertList_res {hf : String → Nat} {f : Nat} : ∀ {ts : List Tuple} {r r' : Reln}
    {q : Nat} {o : Option Nat},
    WF r → r.splitting = true → r.insertion = 0 → 0 < r.c →
    q < 2 ^ r.depth → WRes hf r q o →
    (∀ t ∈ ts, tupLen t ≤ DATACAP) →
    reinsertList hf f r ts = some r' →
    WRes hf r' q o := by
  cases f with
  | zero =>
    intro ts r r' q o _ _ _ _ _ _ _ h
    rw [reinsertList_zero] at h
    exact absurd h (by simp)
  | succ n =>
    intro ts
    induction ts with
    | nil =>
      intro r r' q o hW hspl hins hc hq hR hfts h
      rw [reinsertList_succ] at h
      simp only [reinsFold, Option.some.injEq] at h
      subst h
      exact hR
    | cons t ts ih =>
      intro r r' q o hW hspl hins hc hq hR hfts h
      rw [reinsertList_succ] at h
      simp only [reinsFold] at h
      cases hadd : addToRelation hf (n + 1) r t with
      | none => rw [hadd] at h; simp at h
      | some pr =>
        obtain ⟨res, r1⟩ := pr
        rw [hadd] at h
        rw [← reinsertList_succ] at h
        have ha := addToRelation_during_wf hW hspl hins hc (hfts t (by simp)) hadd
        obtain ⟨a1, a2, a3, a4, a5, a6, a7, a8, a9, a10, a11⟩ := ha
        have hplace : placeBody hf r t = some (res, r1) := by
          rw [addToRelation_succ] at hadd
          unfold addBody at hadd
          rw [if_neg (show ¬(r.insertion = r.c) by omega)] at hadd
          exact hadd
        have hres1 := (placeBody_res hW hq hR (hfts t (by simp)) hplace).1
        exact ih a1 a3 a4 (by omega) (by rw [a8]; exact hq) hres1
          (fun u hu => hfts u (by simp [hu])) h

theorem chainPhase_res {hf : String → Nat} : ∀ f {r : Reln} {q : Nat} {o : Option Nat} {r' : Reln},
    WF r → r.splitting = true → r.insertion = 0 → 0 < r.c →
    q < 2 ^ r.depth → WRes hf r q o →
    chainPhase hf f r o = some r' →
    WRes hf r' q none := by
  intro f
  induction f with
  | zero =>
    intro r q o r' _ _ _ _ _ _ h
    rw [chainPhase_zero] at h
    exact absurd h (by simp)
  | succ n ih =>
    intro r q o r' hW hspl hins hc hq hR h
    rw [chainPhase_succ] at h
    cases o with
    | none =>
      simp only [chphBody, Option.some.injEq] at h
      subst h
      exact hR
    | some i =>
      simp only [chphBody] at h
      obtain ⟨A, B, C, D, E⟩ := hR
      have hL := hW.2.2.2.1
      have hi : i < r.ovflow.length := E i rfl
      have hcl := wf_clear_ov hW hi
      have hfts : ∀ t ∈ (getOvPg r i).tuples, tupLen t ≤ DATACAP :=
        fun t ht => hW.2.2.2.2.2.2 _ (getOvPg_lt_mem hi) t ht
      have hstcons : staleSet r (some i) = i :: staleSet r ((getOvPg r i).ov) := by
        unfold staleSet
        exact chainFrom_cons hL hi
      have hndp : i ∉ staleSet r ((getOvPg r i).ov) := by
        have := @chainFrom_nodup r hL r.ovflow.length i hi
        unfold staleSet
        rw [show chainFrom r r.ovflow.length (some i) = i :: chainFrom r r.ovflow.length ((getOvPg r i).ov) from chainFrom_cons hL hi] at this
        exact (List.nodup_cons.mp this).1
      have hch1 := chains_eq_of_links_eq
        (show (putOvPg r i (⟨[], (getOvPg r i).ov⟩ : Page)).ovflow.length = r.ovflow.length by simp)
        (fun b => by rw [getDataPg_putOvPg])
        (getOvPg_set_ov rfl)
      have hR1 : WRes hf (putOvPg r i ⟨[], (getOvPg r i).ov⟩) q ((getOvPg r i).ov) := by
        refine ⟨?_, ?_, ?_, ?_, ?_⟩
        · intro b hb t ht
          rw [getDataPg_putOvPg] at ht
          unfold resAt
          simp only [putOvPg_cv, putOvPg_depth, putOvPg_sp]
          exact A b (by simpa using hb) t ht
        · intro b hb j hj hst t ht
          rw [hch1.1 b] at hj
          rw [hch1.2 ((getOvPg r i).ov)] at hst
          unfold resAt
          simp only [putOvPg_cv, putOvPg_depth, putOvPg_sp]
          by_cases hji : j = i
          · rw [hji, getOvPg_set_same hi] at ht
            simp at ht
          · rw [getOvPg_set_ne (fun hcon => hji hcon.symm)] at ht
            refine B b (by simpa using hb) j hj ?_ t ht
            rw [hstcons]
            simp only [List.mem_cons]
            push_neg
            exact ⟨hji, hst⟩
        · intro j hj t ht
          rw [hch1.2 ((getOvPg r i).ov)] at hj
          have hji : j ≠ i := fun hcon => hndp (hcon ▸ hj)
          rw [getOvPg_set_ne (fun hcon => hji hcon.symm)] at ht
          simp only [putOvPg_cv, putOvPg_depth]
          refine C j ?_ t ht
          rw [hstcons]
          exact List.mem_cons_of_mem _ hj
        · intro j hj
          rw [hch1.2 ((getOvPg r i).ov)] at hj
          rw [hch1.1 q]
          refine D j ?_
          rw [hstcons]
          exact List.mem_cons_of_mem _ hj
        · intro k hk
          have := (hL.2 i hi k hk).2
          simp only [putOvPg_ovflow, List.length_set]
          omega
      cases hre : reinsertList hf (n + 1) (putOvPg r i ⟨[], (getOvPg r i).ov⟩) (getOvPg r i).tuples with
      | none => rw [hre] at h; simp at h
      | some r2 =>
        rw [hre] at h
        have hrw := reinsertList_wf hcl.1 (by simpa using hspl) (by simpa using hins)
          (by simpa using hc) hfts hre
        obtain ⟨b1, b2, b3, b4, b5, b6, b7, b8, b9, b10, b11⟩ := hrw
        simp only [putOvPg_c, putOvPg_depth] at b5 b8
        have hres2 := reinsertList_res hcl.1 (by simpa using hspl) (by simpa using hins)
          (by simpa using hc) (by simpa using hq) hR1 hfts hre
        have hq2 : q < 2 ^ r2.depth := by
          rw [b8]
          exact hq
        exact ih b1 b3 b4 (by omega) hq2 hres2 h

theorem splitSp_res {hf : String → Nat} {f : Nat} {r r' : Reln}
    (hW : WF r) (hspl : r.splitting = true) (hins : r.insertion = 0) (hc : 0 < r.c)
    (hsp : r.sp < 2 ^ r.depth) (hRes : Residence hf r)
    (h : splitSp hf f r = some r') : Residence hf r' := by
  cases f with
  | zero => rw [splitSp_zero] at h; exact absurd h (by simp)
  | succ n =>
    rw [splitSp_succ, splitBody_eq] at h
    have hopen := wf_split_open hW hsp rfl rfl
    obtain ⟨o1, o2, o3, o4, o5, o6, o7, o8, o9, o10, o11, o12⟩ := hopen
    have hwres := wres_split_open hW hsp hRes rfl rfl
    have hsplen : r.sp < r.data.length := by
      have h1 := hW.1
      have h2 := hW.2.2.1
      omega
    have hfts : ∀ t ∈ (getDataPg { r with data := r.data ++ [emptyPage], npages := r.npages + 1 } r.sp).tuples, tupLen t ≤ DATACAP := by
      rw [o3]
      exact fun t ht => hW.2.2.2.2.2.1 _ (getDataPg_lt_mem hsplen) t ht
    split at h
    · exact absurd h (by simp)
    · rename_i r4 heq
      have hre := reinsertList_wf o1 (by rw [o4]; exact hspl) (by rw [o5]; exact hins)
        (by rw [o6]; exact hc) hfts heq
      obtain ⟨b1, b2, b3, b4, b5, b6, b7, b8, b9, b10, b11⟩ := hre
      have hre_res := reinsertList_res o1 (by rw [o4]; exact hspl) (by rw [o5]; exact hins)
        (by rw [o6]; exact hc) (by rw [o9]; exact hsp) hwres hfts heq
      split at h
      · exact absurd h (by simp)
      · rename_i r5 heq2
        have hlinks : ∀ k ∈ (getDataPg { r with data := r.data ++ [emptyPage], npages := r.npages + 1 } r.sp).ov, k < r4.ovflow.length := by
          rw [o3]
          intro k hk
          have := hW.2.2.2.1.1 r.sp hsplen k hk
          omega
        have hch := chainPhase_wf (n + 1) b1 b3 b4 (by omega) hlinks heq2
        obtain ⟨c1, c2, c3, c4, c5, c6, c7, c8, c9, c10, c11⟩ := hch
        have hch_res := chainPhase_res (n + 1) b1 b3 b4 (by omega)
          (by rw [b8, o9]; exact hsp) hre_res heq2
        have hres5 : Residence hf r5 := wres_to_residence hch_res
        simp only [Option.some.injEq] at h
        by_cases hcond : r5.sp = 2 ^ r5.depth
        · rw [if_pos hcond] at h
          subst h
          exact residence_wrap hres5 hcond c1.1
        · rw [if_neg hcond] at h
          subst h
          exact hres5

theorem addToRelation_res {hf : String → Nat} {f : Nat} {r : Reln} {t : Tuple}
    {res : Option Nat} {r' : Reln}
    (hW : WF r) (hspl : r.splitting = false) (hsp : r.sp < 2 ^ r.depth) (hc : 0 < r.c)
    (hfit : tupLen t ≤ DATACAP) (hRes : Residence hf r)
    (h : addToRelation hf f r t = some (res, r')) :
    Residence hf r' ∧ (∀ p, res = some p → t ∈ bucketTuples r' p) := by
  cases f with
  | zero => rw [addToRelation_zero] at h; exact absurd h (by simp)
  | succ n =>
    rw [addToRelation_succ] at h
    unfold addBody at h
    by_cases hins : r.insertion = r.c
    · rw [if_pos hins] at h
      cases hsplit : splitSp hf n { r with insertion := 0, splitting := true } with
      | none => rw [hsplit] at h; simp at h
      | some r1 =>
        rw [hsplit] at h
        have hWrs : WF { r with insertion := 0, splitting := true } :=
          WF_of_eq_files rfl rfl rfl rfl rfl hW
        have hResrs : Residence hf { r with insertion := 0, splitting := true } :=
          @residence_congr hf r { r with insertion := 0, splitting := true } rfl rfl rfl rfl rfl rfl hRes
        have hs := splitSp_wf hWrs (by simp) (by simp) (by simpa using hc)
          (by simpa using hsp) hsplit
        obtain ⟨s1, s2, s3, s4, s5, s6, s7, s8⟩ := hs
        have hres1 := splitSp_res hWrs (by simp) (by simp) (by simpa using hc)
          (by simpa using hsp) hResrs hsplit
        have hWr2 : WF { r1 with splitting := false } :=
          WF_of_eq_files rfl rfl rfl rfl rfl s1
        have hResr2 : Residence hf { r1 with splitting := false } :=
          @residence_congr hf r1 { r1 with splitting := false } rfl rfl rfl rfl rfl rfl hres1
        have hq2 : (0 : Nat) < 2 ^ ({ r1 with splitting := false } : Reln).depth :=
          Nat.pos_pow_of_pos _ (by omega)
        have hwr2 := residence_to_wres hResr2 0
        have hpr := placeBody_res hWr2 hq2 hwr2 hfit h
        refine ⟨wres_to_residence hpr.1, ?_⟩
        intro p hp
        subst hp
        have haddr := placeBody_addr h
        rw [haddr]
        exact hpr.2
    · rw [if_neg hins] at h
      have hq0 : (0 : Nat) < 2 ^ r.depth := Nat.pos_pow_of_pos _ (by omega)
      have hwr := residence_to_wres hRes 0
      have hpr := placeBody_res hW hq0 hwr hfit h
      refine ⟨wres_to_residence hpr.1, ?_⟩
      intro p hp
      subst hp
      have haddr := placeBody_addr h
      rw [haddr]
      exact hpr.2

theorem newRelation_residence (hf : String → Nat) (na np d : Nat) (cv : List ChVecItem) :
    Residence hf (newRelation na np d cv) := by
  intro b hb t ht
  exfalso
  unfold bucketTuples bucketChain at ht
  rw [getDataPg_new] at ht
  simp only [emptyPage, chainFrom_none] at ht
  simp at ht

/-- C2: a completed `addToRelation` on a well-formed relation at rest
returns the bucket id computed by the MAH addressing rule — the low `d`
bits of the tuple's choice-vector hash, replaced by the low `d+1` bits
when that value is below the split pointer — evaluated at the depth and
split pointer the call leaves behind, and the tuple is stored in that
bucket (primary page or its overflow chain); moreover the residence
invariant is preserved: afterwards every tuple of every bucket `b` hashes
to `b` under the bucket's effective depth. -/
theorem c2_insert_addressing (hf : String → Nat) (f : Nat) (r : Reln) (t : Tuple)
    (res : Option Nat) (r' : Reln)
    (hW : WF r) (hspl : r.splitting = false) (hsp : r.sp < 2 ^ r.depth) (hc : 0 < r.c)
    (hfit : tupLen t ≤ DATACAP) (hRes : Residence hf r)
    (h : addToRelation hf f r t = some (res, r')) :
    (∀ p, res = some p →
      p = bucketAddr (tupleHash hf r'.cv t) r'.depth r'.sp ∧ t ∈ bucketTuples r' p) ∧
    Residence hf r' := by
  have ha := addToRelation_res hW hspl hsp hc hfit hRes h
  refine ⟨fun p hp => ⟨?_, ha.2 p hp⟩, ha.1⟩
  subst hp
  exact addToRelation_addr h

def relnC2 : Reln :=
  { nattrs := 1, depth := 0, sp := 0, npages := 1, ntups := 1, c := 102, insertion := 1
    splitting := false, cv := [], data := [⟨[["x"]], none⟩], ovflow := [] }

theorem c2_insert_addressing_witness :
    addToRelation hfZero 1 (newRelation 1 1 0 []) ["x"] = some (some 0, relnC2) ∧
    (0 = bucketAddr (tupleHash hfZero relnC2.cv ["x"]) relnC2.depth relnC2.sp ∧
      ["x"] ∈ bucketTuples relnC2 0) ∧
    Residence hfZero relnC2 :=
  ⟨by decide,
   (c2_insert_addressing hfZero 1 (newRelation 1 1 0 []) ["x"] (some 0) relnC2
      (newRelation_wf 1 1 0 [] (by decide)).1 rfl (by decide) (by decide) (by decide)
      (newRelation_residence hfZero 1 1 0 []) (by decide)).1 0 rfl,
   (c2_insert_addressing hfZero 1 (newRelation 1 1 0 []) ["x"] (some 0) relnC2
      (newRelation_wf 1 1 0 [] (by decide)).1 rfl (by decide) (by decide) (by decide)
      (newRelation_residence hfZero 1 1 0 []) (by decide)).2⟩

end MAH
